import Mathlib

/-!
Verification development for the lodestone in-buffer key-value store.

The development shallowly embeds the two core subsystems of the repository:

* the pool allocator (`src/allocator/pool.rs`, `src/allocator/arc.rs`),
  modelled as a state machine over the block headers (`prev`, `id_tag`,
  `next`), the object headers (`strong`, `weak`, `size`) and the metadata
  (`lowest_known_free_index`, `next_id_tag`);
* the copy-on-write B+Tree node operations (`src/slicebtree/node.rs`),
  modelled over an object store in which every allocation is identified by
  its unique id tag and carries a strong count.

Machine integers (`usize`) are modelled as `Nat`.  All subtractions in the
translated code are guarded in the source (the guards are reproduced), so
no wrap-around occurs on the modelled paths; the `next_id_tag` counter is
a 64-bit monotone counter in the source whose wrap-around after `2^64`
allocations is not modelled.
-/

deriving instance DecidableEq for Except

namespace Lodestone

/-- Byte strings (Rust `&[u8]`); a byte is modelled as a `Nat`. -/
abbrev Bytes := List Nat

/-- Rust's lexicographic comparison of byte slices (`key.cmp(&*i_key)`). -/
def cmpBytes : Bytes → Bytes → Ordering
  | [], [] => .eq
  | [], _ :: _ => .lt
  | _ :: _, [] => .gt
  | a :: as_, b :: bs =>
    if a < b then .lt
    else if b < a then .gt
    else cmpBytes as_ bs

/-- Constants from `slicebtree/mod.rs` and `allocator/pool.rs`. -/
def B : Nat := 100

def PAGE_SIZE : Nat := 4096

/-- `BUFFER_END = !0 as usize` on a 64-bit machine. -/
def BUFFER_END : Nat := 2 ^ 64 - 1

/-- `size_of::<SkipListEntry>()`: three `usize` fields. -/
def HEADER_SIZE : Nat := 24

/-- `size_of::<ArcByteSliceInner>()`: two `AtomicUsize` and one `usize`. -/
def ARC_INNER_SIZE : Nat := 24

/-- `OVERHEAD = HEADER_SIZE + ARC_INNER_SIZE`. -/
def OVERHEAD : Nat := 48

/-- The `loop` body of `index_or_insertion_of`.  State: `top`, `bottom`,
`i`, `old_i`; returns the value of `i` at the `break`. -/
def iooLoop (keys : List Bytes) (key : Bytes) :
    Nat → Nat → Nat → Nat → Nat → Nat
  | 0, _, _, i, _ => i
  | fuel + 1, top, bottom, i, oldI =>
    match cmpBytes key (keys.getD i []) with
    | .eq => i
    | .lt =>
      let top' := if 1 < i then i - 1 else 0
      if top' < bottom then i
      else
        let i' := bottom + (top' - bottom) / 2
        if i' = oldI then i' else iooLoop keys key fuel top' bottom i' i'
    | .gt =>
      let bottom' := i + 1
      if top < bottom' then i
      else
        let i' := bottom' + (top - bottom') / 2
        if i' = oldI then i' else iooLoop keys key fuel top bottom' i' i'

/-- `index_or_insertion_of`: the first component is true iff the key was
found, the second is the located index (or, per the function's doc
comment, the claimed insertion point). -/
def index_or_insertion_of (keys : List Bytes) (key : Bytes) : Bool × Nat :=
  if keys.length = 0 then (false, 0)
  else if cmpBytes key (keys.getD (keys.length - 1) []) = .gt then
    (false, keys.length)
  else
    let start := (keys.length - 1) / 2
    let i := iooLoop keys key (keys.length + 1) (keys.length - 1) 0 start start
    if cmpBytes key (keys.getD i []) = .eq then (true, i) else (false, i)

/-- Keys are in strictly ascending lexicographic order. -/
def isAscending : List Bytes → Bool
  | [] => true
  | [_] => true
  | a :: b :: tl => (cmpBytes a b == .lt) && isAscending (b :: tl)

/-- The unique position at which inserting `key` keeps a strictly
ascending key array sorted. -/
def sortedInsertionPos (keys : List Bytes) (key : Bytes) : Nat :=
  (keys.takeWhile (fun k2 => cmpBytes k2 key == .lt)).length

/-!  ### The object store backing the node operations

`node.rs` uses the pool only through its public interface: `malloc`,
`make_new`, `clone`, and the persisted-handle operations `clone`
(retain), `release`, `retain` and `clone_to_arc_byte_slice`.  Since every
allocation carries a unique, monotonically assigned id tag, a persisted
handle is modelled by that tag alone; the offset/tag validation of a
handle is modelled separately at the block level below.  The store maps
each tag to its strong count and payload.  -/

inductive NodeType
  | Root
  | Internal
  | Leaf
  deriving DecidableEq, Repr

/-- The `Node` payload (`node.rs` lines 38-45).  The fixed arrays
`keys[B]` / `children[B]` together with `num_keys` / `num_children` are
modelled by the lists of their first `num_keys` / `num_children` slots. -/
structure NodeObj where
  nodeType : NodeType
  txId : Nat
  keys : List Nat
  children : List Nat
  deriving DecidableEq, Repr

inductive ObjData
  | bytes (data : Bytes)
  | node (nd : NodeObj)
  deriving DecidableEq, Repr

structure Obj where
  strong : Nat
  data : ObjData
  deriving DecidableEq, Repr

/-- The store is a heap keyed by id tag.  (The pool lays objects out at
buffer offsets; since the node layer addresses them only through handles
whose id tags are unique, the heap is keyed by tag.) -/
structure ObjPool where
  nextTag : Nat
  objs : Nat → Option Obj

def lookupObj (p : ObjPool) (id : Nat) : Option Obj :=
  p.objs id

def setObj (p : ObjPool) (id : Nat) (o : Obj) : ObjPool :=
  { p with objs := fun x => if x = id then some o else p.objs x }

def removeObj (p : ObjPool) (id : Nat) : ObjPool :=
  { p with objs := fun x => if x = id then none else p.objs x }

def strongOf (p : ObjPool) (id : Nat) : Nat :=
  match lookupObj p id with
  | some o => o.strong
  | none => 0

def dataOf (p : ObjPool) (id : Nat) : Option ObjData :=
  (lookupObj p id).map (fun o => o.data)

def nodeAt (p : ObjPool) (id : Nat) : Option NodeObj :=
  match lookupObj p id with
  | some ⟨_, .node nd⟩ => some nd
  | _ => none

/-- A fresh allocation (`pool.malloc` / `pool.make_new` / `pool.clone`):
`malloc_inner` draws the next id tag and initialises the object header
with `strong = 0`; the returned `ArcByteSlice::new` then bumps it to 1. -/
def allocObj (p : ObjPool) (d : ObjData) : ObjPool × Nat :=
  ({ nextTag := p.nextTag + 1,
     objs := fun x => if x = p.nextTag then some ⟨1, d⟩ else p.objs x },
   p.nextTag)

def pmalloc (p : ObjPool) (b : Bytes) : ObjPool × Nat :=
  allocObj p (.bytes b)

/-- `PersistedArcByteSlice::retain` (also the state effect of the
persisted-handle `clone`, and of holding a new live `ArcByteSlice` from
`clone_to_arc_byte_slice`): upgrade (+1), `fetch_add` (+1), temporary arc
drop (-1) — net +1 on the target's strong count.  `none` marks an upgrade
failure (all claims below assume valid handles). -/
def retainObj (p : ObjPool) (id : Nat) : Option ObjPool :=
  match lookupObj p id with
  | none => none
  | some o => some (setObj p id { o with strong := o.strong + 1 })

/-- `PersistedArcByteSlice::release`: upgrade (+1), `fetch_sub` (-1),
temporary arc drop (-1, freeing the block when it hits zero). -/
def releaseObj (p : ObjPool) (id : Nat) : Option ObjPool :=
  match lookupObj p id with
  | none => none
  | some o =>
    if o.strong ≤ 1 then some (removeObj p id)
    else some (setObj p id { o with strong := o.strong - 1 })

/-- `Drop for ArcByteSlice` (`arc.rs` lines 111-121): decrement strong;
the thread that brings it to zero frees the block. -/
def dropArc (p : ObjPool) (id : Nat) : ObjPool :=
  match lookupObj p id with
  | none => p
  | some o =>
    if o.strong ≤ 1 then removeObj p id
    else setObj p id { o with strong := o.strong - 1 }

def retainAll (p : ObjPool) : List Nat → Option ObjPool
  | [] => some p
  | id :: tl =>
    match retainObj p id with
    | none => none
    | some p' => retainAll p' tl

/-- Upgrade a persisted byte-string handle and read its bytes
(`clone_to_arc_byte_slice` followed by deref; the temporary live handle
drops again, so the strong count is unchanged). -/
def upgradeBytes (p : ObjPool) (id : Nat) : Option Bytes :=
  match lookupObj p id with
  | some ⟨_, .bytes b⟩ => some b
  | _ => none

def upgradedKeys (p : ObjPool) (ids : List Nat) : Option (List Bytes) :=
  ids.mapM (upgradeBytes p)

/-- Every allocated id is below the tag counter. -/
def ObjPool.WF (p : ObjPool) : Prop :=
  ∀ x, p.nextTag ≤ x → p.objs x = none

/-- `Node::clone` (`node.rs` lines 55-69): `pool.clone(self)` bytewise
copies the node payload into a fresh allocation, then every key and child
handle of the copy is retained. -/
def nodeClone (p : ObjPool) (n : NodeObj) : Option (ObjPool × Nat) := do
  let (p1, newId) := allocObj p (.node n)
  let p2 ← retainAll p1 n.keys
  let p3 ← retainAll p2 n.children
  pure (p3, newId)

/-- Replace the node payload stored at `id` (a write through
`deref_as_mut::<Node>`). -/
def setNode (p : ObjPool) (id : Nat) (nd : NodeObj) : Option ObjPool :=
  match lookupObj p id with
  | some o => some (setObj p id { o with data := .node nd })
  | none => none

/-- `leaf_node_insert_non_full` (`node.rs` lines 250-271).  The result
carries the pool after the call next to the Rust `Result`; on the error
paths the local `node_arc`, `val_arc` and `key_arc` drop in that order.
The shift loop of `insert_into` clones (+1) and then releases (-1) each
moved slot, which cancels, and writes `arc.clone_to_persisted()` (+1) at
`index`; at return the local `key_arc` and `val_arc` drop (-1 each), so
the two fresh byte objects end at strong count 1, owned by the new node,
which is modelled by inserting their ids into the copied lists. -/
def leaf_node_insert_non_full (p : ObjPool) (n : NodeObj) (txId : Nat)
    (key value : Bytes) : Option (ObjPool × Except String Nat) := do
  if n.nodeType ≠ .Leaf then none
  else
    let (p1, keyArc) := pmalloc p key
    let (p2, valArc) := pmalloc p1 value
    let (p3, nodeId) ← nodeClone p2 n
    let n1 : NodeObj := { n with txId := txId }
    let p4 ← setNode p3 nodeId n1
    let keysBytes ← upgradedKeys p4 n1.keys
    let (found, index) := index_or_insertion_of keysBytes key
    if found then
      pure (dropArc (dropArc (dropArc p4 nodeId) valArc) keyArc,
        .error "Key already exists")
    else if n1.children.length = B then
      pure (dropArc (dropArc (dropArc p4 nodeId) valArc) keyArc,
        .error "Node is already full")
    else
      let n2 : NodeObj := { n1 with
        children := n1.children.insertIdx index valArc,
        keys := n1.keys.insertIdx index keyArc }
      let p5 ← setNode p4 nodeId n2
      pure (p5, .ok nodeId)

/-- `leaf_node_remove` (`node.rs` lines 275-302): find the key; if absent
fail; else allocate a fresh node, copy every key/child slot except
`index`, cloning (retaining) each copied handle. -/
def leaf_node_remove (p : ObjPool) (n : NodeObj) (txId : Nat)
    (key : Bytes) : Option (ObjPool × Except String Nat) := do
  if n.nodeType ≠ .Leaf then none
  else
    let keysBytes ← upgradedKeys p n.keys
    let (found, index) := index_or_insertion_of keysBytes key
    if !found then
      pure (p, .error "This node does not contain the given key")
    else
      let nd : NodeObj :=
        ⟨n.nodeType, txId, n.keys.eraseIdx index, n.children.eraseIdx index⟩
      let (p1, newId) := allocObj p (.node nd)
      let p2 ← retainAll p1 nd.keys
      let p3 ← retainAll p2 nd.children
      pure (p3, .ok newId)

/-- `Node::split` (`node.rs` lines 87-126): two fresh allocations,
initialised with the provided tx id; keys and children `[0, midpoint)` go
to the bottom half and `[midpoint, len)` to the top half, each slot copy
retaining its handle; `mid_key` is the live handle upgraded from
`keys[midpoint]` (which stays retained while held). -/
def splitNode (p : ObjPool) (n : NodeObj) (txId : Nat) :
    Option (ObjPool × Nat × Nat × Nat) := do
  if n.keys.length = 0 ∨ n.children.length = 0 then none
  else
    let midpoint := n.keys.length / 2
    let (p1, bottomId) := allocObj p
      (.node ⟨n.nodeType, txId, n.keys.take midpoint, n.children.take midpoint⟩)
    let (p2, topId) := allocObj p1
      (.node ⟨n.nodeType, txId, n.keys.drop midpoint, n.children.drop midpoint⟩)
    let p3 ← retainAll p2 (n.keys.take midpoint)
    let p4 ← retainAll p3 (n.children.take midpoint)
    let p5 ← retainAll p4 (n.keys.drop midpoint)
    let p6 ← retainAll p5 (n.children.drop midpoint)
    let midKeyId := n.keys.getD midpoint 0
    let p7 ← retainObj p6 midKeyId
    pure (p7, bottomId, topId, midKeyId)

/-- `Node::join` (`node.rs` lines 129-160): a fresh allocation whose keys
and children are the two inputs' concatenated, each copied slot retained.
The three asserts (key budget, child budget, equal types) abort on
violation and are modelled as `none`. -/
def joinNodes (p : ObjPool) (bottom top : NodeObj) (txId : Nat) :
    Option (ObjPool × Nat) := do
  if B ≤ bottom.keys.length + top.keys.length then none
  else if B ≤ bottom.children.length + top.children.length then none
  else if bottom.nodeType ≠ top.nodeType then none
  else
    let (p1, newId) := allocObj p
      (.node ⟨bottom.nodeType, txId, bottom.keys ++ top.keys,
        bottom.children ++ top.children⟩)
    let p2 ← retainAll p1 bottom.keys
    let p3 ← retainAll p2 top.keys
    let p4 ← retainAll p3 bottom.children
    let p5 ← retainAll p4 top.children
    pure (p5, newId)

/-- A concrete heap from an association list (used for concrete states). -/
def storeOfList (l : List (Nat × Obj)) : Nat → Option Obj :=
  fun x => (l.find? (fun e => e.fst == x)).map (fun e => e.snd)

/-- A leaf with keys "b", "d", "f" (handles 1, 2, 3) and three values
(handles 4, 5, 6); the node itself is stored at handle 7. -/
def demoNode : NodeObj := ⟨.Leaf, 0, [1, 2, 3], [4, 5, 6]⟩

def demoPool : ObjPool :=
  ⟨8, fun x =>
    if x = 1 then some ⟨1, .bytes [98]⟩
    else if x = 2 then some ⟨1, .bytes [100]⟩
    else if x = 3 then some ⟨1, .bytes [102]⟩
    else if x = 4 then some ⟨1, .bytes [10]⟩
    else if x = 5 then some ⟨1, .bytes [11]⟩
    else if x = 6 then some ⟨1, .bytes [12]⟩
    else if x = 7 then some ⟨1, .node demoNode⟩
    else none⟩

/-- A leaf with a single entry, stamped with tx id 7, for the clone
counterexample: key "a" at handle 1, value at handle 2, node at 3. -/
def cloneDemoNode : NodeObj := ⟨.Leaf, 7, [1], [2]⟩

def cloneDemoPool : ObjPool :=
  ⟨4, fun x =>
    if x = 1 then some ⟨1, .bytes [97]⟩
    else if x = 2 then some ⟨1, .bytes [113]⟩
    else if x = 3 then some ⟨1, .node cloneDemoNode⟩
    else none⟩

/-!  ### The block-level pool machine (`allocator/pool.rs`)

The buffer is modelled as two heaps indexed by absolute offsets: the
block headers (`SkipListEntry`: `prev`, `id_tag`, `next`) and the object
headers (`ArcByteSliceInner`: `strong`, `weak`, `size`), the latter keyed
by the offset of the enclosing block header (the object header itself
sits `HEADER_SIZE` bytes further).  Payload bytes are not modelled: no
claim here mentions them.  When `free_inner` coalesces two blocks, the
swallowed block's header bytes stay in the buffer but the block is
unlinked; the model removes the dead header, since well-formed executions
only ever read headers reachable through the list.  All offset arithmetic
is exact (`Nat`): on the modelled paths every subtraction is guarded and
no `usize` overflow occurs (sizes within 48 bytes of `2^64`, which would
wrap `byte_align` in a release build and panic in a debug build, are the
programming-error abort path and are not modelled).  -/

structure SkipListEntry where
  prev : Nat
  idTag : Nat
  next : Nat
  deriving DecidableEq, Repr

structure ArcInner where
  strong : Nat
  weak : Nat
  size : Nat
  deriving DecidableEq, Repr

structure Pool where
  bufferSize : Nat
  entries : Nat → Option SkipListEntry
  inners : Nat → Option ArcInner
  lowestKnownFreeIndex : Nat
  nextIdTag : Nat

def setEntry (p : Pool) (off : Nat) (e : SkipListEntry) : Pool :=
  { p with entries := fun x => if x = off then some e else p.entries x }

def removeEntry (p : Pool) (off : Nat) : Pool :=
  { p with entries := fun x => if x = off then none else p.entries x }

def setInner (p : Pool) (off : Nat) (i : ArcInner) : Pool :=
  { p with inners := fun x => if x = off then some i else p.inners x }

/-- `byte_align` (`pool.rs` lines 375-378). -/
def byte_align (size : Nat) : Nat :=
  let spill := if size % 8 = 0 then 0 else 1
  8 * (size / 8 + spill)

/-- `Pool::new` (`pool.rs` lines 42-59): metadata first
(`lowest_known_free_index = 0`, `next_id_tag = 1`), then the free head
block spanning everything before the terminal page, then the non-free
sentinel header at the last page (drawing tag 1, leaving the counter at
2).  The sentinel is written second, hence tested first. -/
def poolNew (bufferSize : Nat) : Pool :=
  let last := bufferSize - PAGE_SIZE
  { bufferSize := bufferSize,
    entries := fun x =>
      if x = last then some ⟨0, 1, BUFFER_END⟩
      else if x = 0 then some ⟨BUFFER_END, 0, last⟩
      else none,
    inners := fun _ => none,
    lowestKnownFreeIndex := 0,
    nextIdTag := 2 }

/-- `next_free_block_larger_than` (`pool.rs` lines 262-272), with
explicit fuel; on well-formed pools the list has fewer than
`bufferSize + 1` blocks, so the fuel is never exhausted.  (On free blocks
`next > offset`, so the `usize` subtraction `entry.next - idx` never
wraps on the modelled states.) -/
def next_free_block_larger_than (p : Pool) (size : Nat) :
    Nat → Nat → Option Nat
  | 0, _ => none
  | fuel + 1, idx =>
    match p.entries idx with
    | none => none
    | some entry =>
      if entry.idTag = 0 ∧ size ≤ entry.next - idx then some idx
      else if entry.next ≠ BUFFER_END then
        next_free_block_larger_than p size fuel entry.next
      else some BUFFER_END

/-- The split phase of `malloc_inner` (`pool.rs` lines 157-166): when
the claimed free block is strictly larger than the chunk, a fresh free
header is written at `next_index` and the neighbouring links are
redirected to it; otherwise the block is taken whole. -/
def malloc_maybe_split (p1 : Pool)
    (free_block_index next_index following_index : Nat) : Option Pool :=
  if next_index < following_index then do
    let p2 := setEntry p1 next_index
      ⟨free_block_index, 0, following_index⟩
    let fe ← p2.entries following_index
    let p2 := setEntry p2 following_index { fe with prev := next_index }
    let ce ← p2.entries free_block_index
    pure (setEntry p2 free_block_index { ce with next := next_index })
  else pure p1

/-- The hint-maintenance phase of `malloc_inner` (`pool.rs` lines
167-172): if the claimed block was the cached lowest known free index,
rescan from it for the next free block (size 0 accepts any free block). -/
def malloc_fix_hint (p p2 : Pool) (free_block_index : Nat) : Option Pool :=
  if free_block_index = p.lowestKnownFreeIndex then do
    let idx ← next_free_block_larger_than p2 0 (p2.bufferSize + 1)
      free_block_index
    pure { p2 with lowestKnownFreeIndex := idx }
  else pure p2

/-- `malloc_inner` (`pool.rs` lines 143-176).  `none` marks the
programming-error aborts (the `assert!` and reads of headers that are not
in the buffer); the `Except` carries `OutOfMemory`. -/
def malloc_inner (p : Pool) (size : Nat) :
    Option (Except String (Pool × Nat)) := do
  let chunked_size := byte_align size + OVERHEAD
  let free_block_index ← next_free_block_larger_than p chunked_size
    (p.bufferSize + 1) p.lowestKnownFreeIndex
  if free_block_index = BUFFER_END then
    pure (.error "OutOfMemory")
  else do
    let entry ← p.entries free_block_index
    let p1 := setEntry p free_block_index { entry with idTag := p.nextIdTag }
    let p1 := { p1 with nextIdTag := p.nextIdTag + 1 }
    let next_index := free_block_index + chunked_size
    let following_index := entry.next
    if following_index < next_index then none
    else do
      let p2 ← malloc_maybe_split p1 free_block_index next_index
        following_index
      let p3 ← malloc_fix_hint p p2 free_block_index
      pure (.ok (setInner p3 free_block_index ⟨0, 0, size⟩,
        free_block_index))

/-- The forward-coalescing phase of `free_inner` (`pool.rs` lines
189-199): if the freed block's successor header exists and is free, the
successor is swallowed (its header vanishes from the skip list) and the
links are repaired. -/
def free_merge_next (p1 : Pool) (this_idx next_idx : Nat) : Option Pool :=
  if next_idx ≠ BUFFER_END then do
    let nxt ← p1.entries next_idx
    if nxt.idTag = 0 then do
      let next_next_idx := nxt.next
      let he ← p1.entries this_idx
      let p2 := setEntry p1 this_idx { he with next := next_next_idx }
      let p2 := removeEntry p2 next_idx
      if next_next_idx ≠ BUFFER_END then do
        let nn ← p2.entries next_next_idx
        pure (setEntry p2 next_next_idx { nn with prev := this_idx })
      else pure p2
    else pure p1
  else pure p1

/-- The backward-coalescing phase of `free_inner` (`pool.rs` lines
201-215): if the predecessor is free, the freed block is swallowed into
it. -/
def free_merge_prev (p2 : Pool) (this_idx prev_idx : Nat) : Option Pool :=
  if prev_idx ≠ BUFFER_END then do
    let prv ← p2.entries prev_idx
    if prv.idTag = 0 then do
      let he ← p2.entries this_idx
      let n2 := he.next
      let p3 := setEntry p2 prev_idx { prv with next := n2 }
      let p3 := removeEntry p3 this_idx
      if n2 ≠ BUFFER_END then do
        let ne ← p3.entries n2
        pure (setEntry p3 n2 { ne with prev := prev_idx })
      else pure p3
    else pure p2
  else pure p2

/-- `free_inner` (`pool.rs` lines 178-216): zero the id tag, lower the
lowest-free hint if the freed offset is below it, then coalesce with the
free successor and free predecessor. -/
def free_inner (p : Pool) (this_idx : Nat) : Option Pool := do
  let header ← p.entries this_idx
  let prev_idx := header.prev
  let next_idx := header.next
  let p1 := setEntry p this_idx { header with idTag := 0 }
  let p1 := if this_idx < p1.lowestKnownFreeIndex
    then { p1 with lowestKnownFreeIndex := this_idx } else p1
  let p2 ← free_merge_next p1 this_idx next_idx
  free_merge_prev p2 this_idx prev_idx

/-- `pool.malloc` / `make_new`: `malloc_inner`, then the returned
`ArcByteSlice::new` bumps the fresh object header's strong count. -/
def pool_malloc (p : Pool) (size : Nat) :
    Option (Except String (Pool × Nat)) :=
  match malloc_inner p size with
  | some (.ok (p', idx)) =>
    match p'.inners idx with
    | some inner =>
      some (.ok (setInner p' idx { inner with strong := inner.strong + 1 },
        idx))
    | none => none
  | r => r

/-- A persistable handle (`PersistedArcByteSlice`): the absolute offset
of the object header and the id tag of the allocation. -/
structure PersistedHandle where
  arcInnerIndex : Nat
  idTag : Nat
  deriving DecidableEq, Repr

/-- `clone_persisted_to_arc` (`pool.rs` lines 127-138):
`index_to_skip_list_header(ArcByteSliceStart i)` reads the block header
at `i - HEADER_SIZE`; on a tag match `ArcByteSlice::new` (`arc.rs` lines
28-34) increments the object header's strong count, otherwise the pool is
untouched and `InvalidReference` is returned. -/
def clone_persisted_to_arc (p : Pool) (persisted : PersistedHandle) :
    Option (Pool × Except String Unit) := do
  let off := persisted.arcInnerIndex - HEADER_SIZE
  let header ← p.entries off
  if header.idTag = persisted.idTag then do
    let inner ← p.inners off
    pure (setInner p off { inner with strong := inner.strong + 1 }, .ok ())
  else
    pure (p, .error "InvalidReference")

/-- A concrete three-block pool for the C6 witness: an allocated block at
offset 48 with id tag 5, whose object header (strong count 2) sits at
offset 72. -/
def poolC6 : Pool :=
  { bufferSize := 8192,
    entries := fun x =>
      if x = 0 then some ⟨BUFFER_END, 3, 48⟩
      else if x = 48 then some ⟨0, 5, 120⟩
      else if x = 120 then some ⟨48, 0, 4096⟩
      else if x = 4096 then some ⟨120, 1, BUFFER_END⟩
      else none,
    inners := fun x => if x = 48 then some ⟨2, 0, 13⟩ else none,
    lowestKnownFreeIndex := 120,
    nextIdTag := 6 }

/-!  ### Well-formedness of the block list

`offs` is the ordered list of offsets of the blocks that form the list:
the first block starts at offset 0, consecutive blocks are linked by
mutually consistent `next`/`prev` offsets, and the list ends in the
sentinel header at the start of the terminal metadata page. -/

def nextOf (E : Nat → Option SkipListEntry) (o : Nat) : Option Nat :=
  (E o).map SkipListEntry.next

def prevOf (E : Nat → Option SkipListEntry) (o : Nat) : Option Nat :=
  (E o).map SkipListEntry.prev

def FreeAt (E : Nat → Option SkipListEntry) (o : Nat) : Prop :=
  ∃ e, E o = some e ∧ e.idTag = 0

/-- The first-fit condition of `next_free_block_larger_than`. -/
def FitAt (E : Nat → Option SkipListEntry) (size o : Nat) : Prop :=
  ∃ e, E o = some e ∧ e.idTag = 0 ∧ size ≤ e.next - o

/-- Two consecutive blocks with mutually consistent links. -/
def Adj (E : Nat → Option SkipListEntry) (o o' : Nat) : Prop :=
  o < o' ∧ nextOf E o = some o' ∧ prevOf E o' = some o

def NotBothFree (E : Nat → Option SkipListEntry) (o o' : Nat) : Prop :=
  ¬(FreeAt E o ∧ FreeAt E o')

structure PoolShape (p : Pool) (offs : List Nat) : Prop where
  sizeLB : PAGE_SIZE < p.bufferSize
  sizeUB : p.bufferSize < BUFFER_END
  headZero : offs.head? = some 0
  lastSent : offs.getLast? = some (p.bufferSize - PAGE_SIZE)
  chain : List.Chain' (Adj p.entries) offs
  domain : ∀ x, (p.entries x).isSome ↔ x ∈ offs
  firstPrev : prevOf p.entries 0 = some BUFFER_END
  sentNext : nextOf p.entries (p.bufferSize - PAGE_SIZE) = some BUFFER_END
  sentBusy : ¬ FreeAt p.entries (p.bufferSize - PAGE_SIZE)
  bounded : ∀ o ∈ offs, o < p.bufferSize
  noAdjFree : List.Chain' (NotBothFree p.entries) offs
  tagPos : 1 ≤ p.nextIdTag

structure PoolWF (p : Pool) (offs : List Nat)
    extends PoolShape p offs : Prop where
  lowestLB : ∀ o ∈ offs, FreeAt p.entries o → p.lowestKnownFreeIndex ≤ o
  lowestMem : p.lowestKnownFreeIndex ∈ offs
    ∨ (p.lowestKnownFreeIndex = BUFFER_END
        ∧ ∀ o ∈ offs, ¬FreeAt p.entries o)

/-- `PoolShape` without the no-adjacent-free-blocks chain: the
intermediate states inside `free_inner` (tag zeroed, merges pending)
satisfy this weaker shape. -/
structure WeakShape (p : Pool) (offs : List Nat) : Prop where
  sizeLB : PAGE_SIZE < p.bufferSize
  sizeUB : p.bufferSize < BUFFER_END
  headZero : offs.head? = some 0
  lastSent : offs.getLast? = some (p.bufferSize - PAGE_SIZE)
  chain : List.Chain' (Adj p.entries) offs
  domain : ∀ x, (p.entries x).isSome ↔ x ∈ offs
  firstPrev : prevOf p.entries 0 = some BUFFER_END
  sentNext : nextOf p.entries (p.bufferSize - PAGE_SIZE) = some BUFFER_END
  sentBusy : ¬ FreeAt p.entries (p.bufferSize - PAGE_SIZE)
  bounded : ∀ o ∈ offs, o < p.bufferSize
  tagPos : 1 ≤ p.nextIdTag

/-- The pool states reachable through the public allocator interface: a
fresh pool, a successful `malloc`, or a `free` of a live (allocated,
non-sentinel) block — frees only ever come from dropping handles to
blocks that `malloc` handed out. -/
inductive Reachable : Pool → Prop where
  | init (n : Nat) (h1 : PAGE_SIZE < n) (h2 : n < BUFFER_END) :
      Reachable (poolNew n)
  | malloc (p p' : Pool) (size idx : Nat) (hp : Reachable p)
      (h : pool_malloc p size = some (.ok (p', idx))) : Reachable p'
  | free (p p' : Pool) (idx : Nat) (e : SkipListEntry) (hp : Reachable p)
      (he : p.entries idx = some e) (htag : e.idTag ≠ 0)
      (hsent : idx ≠ p.bufferSize - PAGE_SIZE)
      (h : free_inner p idx = some p') : Reachable p'

/-- Modelled from the spec: a B+Tree node (spec section 3). A leaf holds
key/value entries; an internal node holds a leftmost child `c0` and
`slots`, where slot `(s, c)` means separator key `s` followed by the
child `c` that covers keys `≥ s` (up to the next separator). This is the
key/children layout of `BTree` in `slicebtree/mod.rs`, whose `put`/`get`
are not present in `src/`, so the operations below are modelled from the
spec's sections 4.2 and 4.3. -/
inductive STree where
  | leaf (entries : List (Bytes × Bytes)) : STree
  | internal (c0 : STree) (slots : List (Bytes × STree)) : STree

/-- Modelled from the spec: looking a key up among a leaf's entries
(section 4.3's leaf step of `get`). -/
def lookupEntries : List (Bytes × Bytes) → Bytes → Option Bytes
  | [], _ => none
  | (k2, v2) :: rest, k =>
    if cmpBytes k k2 = .eq then some v2 else lookupEntries rest k

/-- Modelled from the spec: inserting into a leaf's sorted entry list at
the sorted position (section 4.2), except that an existing key is
updated in place: section 7 states that the tree's `put` must convert
the node layer's `KeyAlreadyExists` error into an update. -/
def insertEntries : List (Bytes × Bytes) → Bytes → Bytes → List (Bytes × Bytes)
  | [], k, v => [(k, v)]
  | (k2, v2) :: rest, k, v =>
    if cmpBytes k k2 = .lt then (k, v) :: (k2, v2) :: rest
    else if cmpBytes k k2 = .eq then (k, v) :: rest
    else (k2, v2) :: insertEntries rest k v

/-- Modelled from the spec: whether a leaf already holds the key. -/
def containsKey (es : List (Bytes × Bytes)) (k : Bytes) : Bool :=
  es.any fun e => cmpBytes k e.1 == .eq

mutual
/-- Modelled from the spec, section 4.3: `get` walks from the root; at an
internal node it scans for the first separator that is greater than the
key and descends into the child to its left (equivalently: it descends
into the child after the last separator `≤` the key, the child whose
interval contains the key); at a leaf it looks the key up. Section 4.2's
routing rule ("descend the left child of the first key `≥` the search
key if the search key is smaller, the right child on equality") agrees
with this; section 3's claim that `children[i]` holds keys `≤ keys[i]`
contradicts both on equality and is not followed. -/
def sget : STree → Bytes → Option Bytes
  | .leaf es, k => lookupEntries es k
  | .internal c0 slots, k => sgetInt c0 slots k
termination_by t _ => sizeOf t
def sgetInt : STree → List (Bytes × STree) → Bytes → Option Bytes
  | c0, [], k => sget c0 k
  | c0, (s1, c1) :: rest, k =>
    if cmpBytes k s1 = .lt then sget c0 k else sgetInt c1 rest k
termination_by c0 slots _ => sizeOf c0 + sizeOf slots
end

/-- Modelled from the spec: the outcome of a recursive `put` step — the
node was rewritten in place, or it overflowed and split into a left
node, a separator (the split's `mid_key`), and a right node. -/
inductive PutRes where
  | one (t : STree) : PutRes
  | two (l : STree) (s : Bytes) (r : STree) : PutRes

/-- Modelled from the spec: absorbing a child's put outcome when the
child was the last one — a split child contributes its separator and
right half as a new final slot. -/
def resPair : PutRes → STree × List (Bytes × STree)
  | .one t => (t, [])
  | .two l s r => (l, [(s, r)])

/-- Modelled from the spec: absorbing a child's put outcome in front of
the remaining slots — a split child's separator and right half are
spliced in before the following separator. -/
def resPush (res : PutRes) (s1 : Bytes) (c1 : STree)
    (rest : List (Bytes × STree)) : STree × List (Bytes × STree) :=
  match res with
  | .one t => (t, (s1, c1) :: rest)
  | .two l s r => (l, (s, r) :: (s1, c1) :: rest)

mutual
/-- Modelled from the spec, sections 4.2 and 7: `put` descends along the
`get` path, inserts (or updates) in the leaf, and splits any node that
exceeds `B` children on the way back up, at `mid = num_keys / 2` with
`keys[mid]` the separator handed to the parent (section 4.2's `split`:
bottom gets slots `[0, mid)`, top gets slots `[mid, n)`, `mid_key` is
`keys[mid]`). For a leaf the separator key therefore stays as the first
entry of the top half, exactly as `split` in `node.rs` does, and the new
entry is inserted into whichever half its key orders into. For an
internal node section 4.2's generic split clause taken literally leaves
the top node with one more child than its keys can route, so — as in a
standard B+Tree — the separator moves up to the parent and is dropped
from both halves: top keeps the children after `mid` with
`children[mid]` becoming its leftmost child. -/
def sput : STree → Bytes → Bytes → PutRes
  | .leaf es, k, v =>
    if es.length < B ∨ containsKey es k = true then
      .one (.leaf (insertEntries es k v))
    else
      let mid := es.length / 2
      let sep := (es.getD mid ([], [])).1
      if cmpBytes k sep = .lt then
        .two (.leaf (insertEntries (es.take mid) k v)) sep (.leaf (es.drop mid))
      else
        .two (.leaf (es.take mid)) sep (.leaf (insertEntries (es.drop mid) k v))
  | .internal c0 slots, k, v =>
    let r := sputInt c0 slots k v
    if r.2.length < B then .one (.internal r.1 r.2)
    else
      let mid := r.2.length / 2
      let pm := r.2.getD mid ([], .leaf [])
      .two (.internal r.1 (r.2.take mid)) pm.1 (.internal pm.2 (r.2.drop (mid + 1)))
termination_by t _ _ => sizeOf t
def sputInt : STree → List (Bytes × STree) → Bytes → Bytes → STree × List (Bytes × STree)
  | c0, [], k, v => resPair (sput c0 k v)
  | c0, (s1, c1) :: rest, k, v =>
    if cmpBytes k s1 = .lt then resPush (sput c0 k v) s1 c1 rest
    else
      let r2 := sputInt c1 rest k v
      (c0, (s1, r2.1) :: r2.2)
termination_by c0 slots _ _ => sizeOf c0 + sizeOf slots
end

/-- Modelled from the spec: a root split grows the tree by one level,
the two halves becoming the children of a fresh root. -/
def applyRes : PutRes → STree
  | .one t => t
  | .two l s r => .internal l [(s, r)]

/-- Modelled from the spec: `put` at the tree level. -/
def tput (t : STree) (k v : Bytes) : STree := applyRes (sput t k v)

def entLt (e e' : Bytes × Bytes) : Prop := cmpBytes e.1 e'.1 = .lt

def InB (lo hi : Option Bytes) (k : Bytes) : Prop :=
  (∀ l, lo = some l → cmpBytes l k ≠ .gt)
  ∧ (∀ h, hi = some h → cmpBytes k h = .lt)

def SepB (lo hi : Option Bytes) (s : Bytes) : Prop :=
  (∀ l, lo = some l → cmpBytes l s = .lt)
  ∧ (∀ h, hi = some h → cmpBytes s h = .lt)

mutual
inductive WFT : Option Bytes → Option Bytes → STree → Prop where
  | leaf {lo hi : Option Bytes} {es : List (Bytes × Bytes)}
      (hsort : List.Pairwise entLt es)
      (hks : ∀ e ∈ es, InB lo hi e.1) :
      WFT lo hi (.leaf es)
  | internal {lo hi : Option Bytes} {c0 : STree} {slots : List (Bytes × STree)}
      (hS : WFS lo hi c0 slots) :
      WFT lo hi (.internal c0 slots)
inductive WFS : Option Bytes → Option Bytes → STree → List (Bytes × STree) → Prop where
  | last {lo hi : Option Bytes} {c0 : STree}
      (h0 : WFT lo hi c0) :
      WFS lo hi c0 []
  | step {lo hi : Option Bytes} {c0 : STree} {s1 : Bytes} {c1 : STree}
      {rest : List (Bytes × STree)}
      (hs : SepB lo hi s1)
      (h0 : WFT lo (some s1) c0)
      (h1 : WFS (some s1) hi c1 rest) :
      WFS lo hi c0 ((s1, c1) :: rest)
end

def PutOK (lo hi : Option Bytes) (k v : Bytes) : PutRes → Prop
  | .one t => WFT lo hi t ∧ sget t k = some v
  | .two l s r => WFT lo (some s) l ∧ WFT (some s) hi r ∧ SepB lo hi s
      ∧ (cmpBytes k s = .lt → sget l k = some v)
      ∧ (cmpBytes k s ≠ .lt → sget r k = some v)

/-- C2: for a node with ascending keys `index_or_insertion_of` is claimed to
return, in every not-found case other than the two boundary cases, the unique
index at which inserting the key keeps the key array sorted.  This fails: on
the ascending keys `["b", "d", "f"]` (bytes `[98], [100], [102]`) and the
absent search key `"c"` (`[99]`), which is neither the empty-node case nor
greater than the last key, the function returns `(false, 0)`, although the
unique sorted insertion position is `1`: inserting at index 0 yields a
non-ascending array while inserting at index 1 keeps it ascending.  This also
contradicts the function's own doc comment in `node.rs` lines 174-176. -/
theorem index_or_insertion_of_wrong_insertion_point :
    index_or_insertion_of [[98], [100], [102]] [99] = (false, 0)
    ∧ isAscending [[98], [100], [102]] = true
    ∧ cmpBytes [99] [[98], [100], [102]].getLast! ≠ .gt
    ∧ sortedInsertionPos [[98], [100], [102]] [99] = 1
    ∧ isAscending (List.insertIdx 0 [99] [[98], [100], [102]]) = false
    ∧ isAscending (List.insertIdx 1 [99] [[98], [100], [102]]) = true := by
  decide

theorem lookupObj_setObj (p : ObjPool) (id : Nat) (o : Obj) (x : Nat) :
    lookupObj (setObj p id o) x = if x = id then some o else lookupObj p x :=
  rfl

theorem lookupObj_removeObj (p : ObjPool) (id x : Nat) :
    lookupObj (removeObj p id) x = if x = id then none else lookupObj p x :=
  rfl

theorem lookupObj_allocObj (p : ObjPool) (d : ObjData) (x : Nat) :
    lookupObj (allocObj p d).1 x
      = if x = p.nextTag then some ⟨1, d⟩ else lookupObj p x :=
  rfl

theorem lookupObj_isSome_lt (p : ObjPool) (hWF : p.WF) (id : Nat)
    (h : (lookupObj p id).isSome) : id < p.nextTag := by
  by_contra hge
  rw [show lookupObj p id = p.objs id from rfl, hWF id (by omega)] at h
  simp at h

theorem WF_setObj (p : ObjPool) (hWF : p.WF) (id : Nat) (o : Obj)
    (hid : id < p.nextTag) : (setObj p id o).WF := by
  intro x hx
  have : ¬ x = id := by simp only [setObj] at hx ⊢; omega
  simp only [setObj] at hx ⊢
  rw [if_neg this]
  exact hWF x hx

theorem WF_removeObj (p : ObjPool) (hWF : p.WF) (id : Nat) :
    (removeObj p id).WF := by
  intro x hx
  simp only [removeObj] at hx ⊢
  split
  · rfl
  · exact hWF x hx

theorem WF_allocObj (p : ObjPool) (hWF : p.WF) (d : ObjData) :
    (allocObj p d).1.WF := by
  intro x hx
  simp only [allocObj] at hx ⊢
  rw [if_neg (by omega)]
  exact hWF x (by omega)

theorem strongOf_eq (p : ObjPool) (x : Nat) :
    strongOf p x = ((lookupObj p x).map Obj.strong).getD 0 := by
  unfold strongOf
  cases lookupObj p x <;> simp

theorem retainAll_spec (ids : List Nat) (p : ObjPool)
    (h : ∀ id ∈ ids, (lookupObj p id).isSome) :
    ∃ p', retainAll p ids = some p'
      ∧ p'.nextTag = p.nextTag
      ∧ (∀ x, dataOf p' x = dataOf p x)
      ∧ (∀ x, strongOf p' x = strongOf p x + ids.count x)
      ∧ (∀ x, (lookupObj p' x).isSome ↔ (lookupObj p x).isSome)
      ∧ (p.WF → p'.WF) := by
  induction ids generalizing p with
  | nil =>
    exact ⟨p, rfl, rfl, fun _ => rfl, by simp [retainAll], fun _ => Iff.rfl,
      fun h => h⟩
  | cons hd tl ih =>
    obtain ⟨o, ho⟩ :=
      Option.isSome_iff_exists.mp (h hd (List.mem_cons_self hd tl))
    set p1 := setObj p hd { o with strong := o.strong + 1 } with hp1
    have hlook1 : ∀ x, lookupObj p1 x
        = if x = hd then some { o with strong := o.strong + 1 }
          else lookupObj p x := fun x => lookupObj_setObj p hd _ x
    have h1 : ∀ id ∈ tl, (lookupObj p1 id).isSome := by
      intro id hid
      rw [hlook1]
      split
      · simp
      · exact h id (List.mem_cons_of_mem hd hid)
    obtain ⟨p', hrun, hnt, hdata, hstr, hpres, hwf⟩ := ih p1 h1
    refine ⟨p', ?_, ?_, ?_, ?_, ?_, ?_⟩
    · show retainAll p (hd :: tl) = some p'
      unfold retainAll retainObj
      rw [ho]
      exact hrun
    · rw [hnt]; rfl
    · intro x
      rw [hdata x]
      unfold dataOf
      rw [hlook1]
      split
      · subst x; rw [ho]; rfl
      · rfl
    · intro x
      rw [hstr x, List.count_cons]
      rw [strongOf_eq p1 x, hlook1, strongOf_eq p x]
      by_cases hx : x = hd
      · subst hx; rw [if_pos rfl, ho]; simp; omega
      · rw [if_neg hx]
        have : ¬ (hd = x) := fun hh => hx hh.symm
        simp [this]
    · intro x
      rw [hpres x, hlook1]
      split
      · subst x; rw [ho]; simp
      · rfl
    · intro hWFp
      exact hwf (WF_setObj p hWFp hd _
        (lookupObj_isSome_lt p hWFp hd (by rw [ho]; rfl)))

theorem count_eq_zero_of_ge (p : ObjPool) (hWF : p.WF) (ids : List Nat)
    (hpres : ∀ id ∈ ids, (lookupObj p id).isSome) (x : Nat)
    (hx : p.nextTag ≤ x) : ids.count x = 0 := by
  rw [List.count_eq_zero]
  intro hmem
  have := lookupObj_isSome_lt p hWF x (hpres x hmem)
  omega

theorem nodeClone_spec (p : ObjPool) (n : NodeObj) (hWF : p.WF)
    (hpres : ∀ id ∈ n.keys ++ n.children, (lookupObj p id).isSome) :
    ∃ p', nodeClone p n = some (p', p.nextTag)
      ∧ p'.nextTag = p.nextTag + 1
      ∧ p'.WF
      ∧ (∀ x, x ≠ p.nextTag → dataOf p' x = dataOf p x)
      ∧ dataOf p' p.nextTag = some (.node n)
      ∧ (∀ x, x ≠ p.nextTag →
          strongOf p' x = strongOf p x + n.keys.count x + n.children.count x)
      ∧ strongOf p' p.nextTag = 1
      ∧ (∀ x, (lookupObj p' x).isSome
          ↔ ((lookupObj p x).isSome ∨ x = p.nextTag)) := by
  have hpresk : ∀ id ∈ n.keys, (lookupObj p id).isSome :=
    fun id hid => hpres id (List.mem_append_left _ hid)
  have hpresc : ∀ id ∈ n.children, (lookupObj p id).isSome :=
    fun id hid => hpres id (List.mem_append_right _ hid)
  set p1 := (allocObj p (.node n)).1 with hp1def
  have hlookup1 : ∀ x, lookupObj p1 x
      = if x = p.nextTag then some ⟨1, .node n⟩ else lookupObj p x :=
    fun x => lookupObj_allocObj p (.node n) x
  have hpres1 : ∀ id ∈ n.keys, (lookupObj p1 id).isSome := by
    intro id hid
    rw [hlookup1]
    split
    · simp
    · exact hpresk id hid
  obtain ⟨p2, hrun1, hnt1, hdata1, hstr1, hsome1, hwf1⟩ :=
    retainAll_spec n.keys p1 hpres1
  have hpres2 : ∀ id ∈ n.children, (lookupObj p2 id).isSome := by
    intro id hid
    rw [hsome1, hlookup1]
    split
    · simp
    · exact hpresc id hid
  obtain ⟨p3, hrun2, hnt2, hdata2, hstr2, hsome2, hwf2⟩ :=
    retainAll_spec n.children p2 hpres2
  have hkeys0 : n.keys.count p.nextTag = 0 :=
    count_eq_zero_of_ge p hWF n.keys hpresk p.nextTag (le_refl _)
  have hchildren0 : n.children.count p.nextTag = 0 :=
    count_eq_zero_of_ge p hWF n.children hpresc p.nextTag (le_refl _)
  refine ⟨p3, ?_, ?_, ?_, ?_, ?_, ?_, ?_, ?_⟩
  · show nodeClone p n = some (p3, p.nextTag)
    unfold nodeClone
    show (retainAll p1 n.keys).bind
        (fun p2 => (retainAll p2 n.children).bind
          (fun p3 => some (p3, p.nextTag))) = some (p3, p.nextTag)
    rw [hrun1]
    show (retainAll p2 n.children).bind
        (fun p3 => some (p3, p.nextTag)) = some (p3, p.nextTag)
    rw [hrun2]
    rfl
  · rw [hnt2, hnt1]; rfl
  · exact hwf2 (hwf1 (WF_allocObj p hWF _))
  · intro x hx
    rw [hdata2, hdata1]
    unfold dataOf
    rw [hlookup1, if_neg hx]
  · rw [hdata2, hdata1]
    unfold dataOf
    rw [hlookup1, if_pos rfl]
    rfl
  · intro x hx
    rw [hstr2, hstr1]
    have : strongOf p1 x = strongOf p x := by
      rw [strongOf_eq, strongOf_eq, hlookup1, if_neg hx]
    rw [this]
  · rw [hstr2, hstr1, hkeys0, hchildren0]
    rw [strongOf_eq, hlookup1, if_pos rfl]
    rfl
  · intro x
    rw [hsome2, hsome1, hlookup1]
    split
    · simp [*]
    · simp [*]

theorem upgradeBytes_eq (p : ObjPool) (id : Nat) :
    upgradeBytes p id = (dataOf p id).bind
      (fun d => match d with | .bytes b => some b | .node _ => none) := by
  unfold upgradeBytes dataOf
  match h : lookupObj p id with
  | none => rfl
  | some ⟨s, .bytes b⟩ => rfl
  | some ⟨s, .node nd⟩ => rfl

theorem upgradedKeys_congr (p p' : ObjPool) (ids : List Nat)
    (h : ∀ id ∈ ids, dataOf p' id = dataOf p id) :
    upgradedKeys p' ids = upgradedKeys p ids := by
  induction ids with
  | nil => rfl
  | cons hd tl ih =>
    unfold upgradedKeys at *
    simp only [List.mapM_cons]
    rw [upgradeBytes_eq p' hd, upgradeBytes_eq p hd,
      h hd (List.mem_cons_self hd tl),
      ih (fun id hid => h id (List.mem_cons_of_mem hd hid))]

theorem nodeAt_eq (p : ObjPool) (id : Nat) :
    nodeAt p id = (dataOf p id).bind
      (fun d => match d with | .bytes _ => none | .node nd => some nd) := by
  unfold nodeAt dataOf
  match h : lookupObj p id with
  | none => rfl
  | some ⟨s, .bytes b⟩ => rfl
  | some ⟨s, .node nd⟩ => rfl

theorem retainObj_spec (p : ObjPool) (id : Nat)
    (h : (lookupObj p id).isSome) :
    ∃ p', retainObj p id = some p'
      ∧ p'.nextTag = p.nextTag
      ∧ (∀ x, dataOf p' x = dataOf p x)
      ∧ (∀ x, (lookupObj p' x).isSome ↔ (lookupObj p x).isSome)
      ∧ (p.WF → p'.WF) := by
  obtain ⟨o, ho⟩ := Option.isSome_iff_exists.mp h
  refine ⟨setObj p id { o with strong := o.strong + 1 }, ?_, rfl, ?_, ?_, ?_⟩
  · unfold retainObj
    rw [ho]
  · intro x
    unfold dataOf
    rw [lookupObj_setObj]
    split
    · subst x; rw [ho]; rfl
    · rfl
  · intro x
    rw [lookupObj_setObj]
    split
    · subst x; rw [ho]; simp
    · rfl
  · intro hWF
    exact WF_setObj p hWF id _ (lookupObj_isSome_lt p hWF id h)

theorem setNode_spec (p : ObjPool) (id : Nat) (nd : NodeObj) (o : Obj)
    (h : lookupObj p id = some o) :
    setNode p id nd = some (setObj p id { o with data := .node nd }) := by
  unfold setNode
  rw [h]

theorem getD_mem_of_lt (l : List Nat) (i : Nat) (h : i < l.length) :
    l.getD i 0 ∈ l := by
  rw [List.getD_eq_getElem l 0 h]
  exact List.getElem_mem h

/-- Combined characterisation of `Node::split` on valid inputs. -/
theorem splitNode_spec (p : ObjPool) (n : NodeObj) (txId : Nat) (hWF : p.WF)
    (hk : 0 < n.keys.length) (hc : 0 < n.children.length)
    (hpres : ∀ id ∈ n.keys ++ n.children, (lookupObj p id).isSome) :
    ∃ p', splitNode p n txId
        = some (p', p.nextTag, p.nextTag + 1, n.keys.getD (n.keys.length / 2) 0)
      ∧ p'.nextTag = p.nextTag + 2
      ∧ p'.WF
      ∧ (∀ x, x < p.nextTag → dataOf p' x = dataOf p x)
      ∧ nodeAt p' p.nextTag = some ⟨n.nodeType, txId,
          n.keys.take (n.keys.length / 2), n.children.take (n.keys.length / 2)⟩
      ∧ nodeAt p' (p.nextTag + 1) = some ⟨n.nodeType, txId,
          n.keys.drop (n.keys.length / 2), n.children.drop (n.keys.length / 2)⟩
      ∧ (∀ x, (lookupObj p' x).isSome ↔
          ((lookupObj p x).isSome ∨ x = p.nextTag ∨ x = p.nextTag + 1)) := by
  have hpresk : ∀ id ∈ n.keys, (lookupObj p id).isSome :=
    fun id hid => hpres id (List.mem_append_left _ hid)
  have hpresc : ∀ id ∈ n.children, (lookupObj p id).isSome :=
    fun id hid => hpres id (List.mem_append_right _ hid)
  set mid := n.keys.length / 2 with hmid
  set bot : NodeObj :=
    ⟨n.nodeType, txId, n.keys.take mid, n.children.take mid⟩ with hbot
  set top : NodeObj :=
    ⟨n.nodeType, txId, n.keys.drop mid, n.children.drop mid⟩ with htop
  set p1 := (allocObj p (.node bot)).1 with hp1def
  set p2 := (allocObj p1 (.node top)).1 with hp2def
  have hlookup2 : ∀ x, lookupObj p2 x
      = if x = p.nextTag + 1 then some ⟨1, .node top⟩
        else if x = p.nextTag then some ⟨1, .node bot⟩
        else lookupObj p x := by
    intro x
    rw [show lookupObj p2 x = lookupObj (allocObj p1 (.node top)).1 x from rfl,
      lookupObj_allocObj, show p1.nextTag = p.nextTag + 1 from rfl]
    split
    · rfl
    · rw [show lookupObj p1 x = lookupObj (allocObj p (.node bot)).1 x from rfl,
        lookupObj_allocObj]
  have hup2 : ∀ id, (lookupObj p id).isSome → (lookupObj p2 id).isSome := by
    intro id hid
    rw [hlookup2]
    split
    · simp
    · split
      · simp
      · exact hid
  obtain ⟨p3, hrun3, hnt3, hdata3, _, hsome3, hwf3⟩ :=
    retainAll_spec (n.keys.take mid) p2
      (fun id hid => hup2 id (hpresk id (List.mem_of_mem_take hid)))
  obtain ⟨p4, hrun4, hnt4, hdata4, _, hsome4, hwf4⟩ :=
    retainAll_spec (n.children.take mid) p3
      (fun id hid => (hsome3 id).mpr
        (hup2 id (hpresc id (List.mem_of_mem_take hid))))
  obtain ⟨p5, hrun5, hnt5, hdata5, _, hsome5, hwf5⟩ :=
    retainAll_spec (n.keys.drop mid) p4
      (fun id hid => (hsome4 id).mpr ((hsome3 id).mpr
        (hup2 id (hpresk id (List.mem_of_mem_drop hid)))))
  obtain ⟨p6, hrun6, hnt6, hdata6, _, hsome6, hwf6⟩ :=
    retainAll_spec (n.children.drop mid) p5
      (fun id hid => (hsome5 id).mpr ((hsome4 id).mpr ((hsome3 id).mpr
        (hup2 id (hpresc id (List.mem_of_mem_drop hid))))))
  have hmidlt : mid < n.keys.length := by omega
  have hmidmem : n.keys.getD mid 0 ∈ n.keys := getD_mem_of_lt _ _ hmidlt
  obtain ⟨p7, hrun7, hnt7, hdata7, hsome7, hwf7⟩ :=
    retainObj_spec p6 (n.keys.getD mid 0)
      ((hsome6 _).mpr ((hsome5 _).mpr ((hsome4 _).mpr ((hsome3 _).mpr
        (hup2 _ (hpresk _ hmidmem))))))
  have hguard : ¬ (n.keys.length = 0 ∨ n.children.length = 0) := by omega
  refine ⟨p7, ?_, ?_, ?_, ?_, ?_, ?_, ?_⟩
  · show splitNode p n txId = _
    unfold splitNode
    rw [if_neg hguard]
    show (retainAll p2 (n.keys.take mid)).bind (fun p3 =>
        (retainAll p3 (n.children.take mid)).bind (fun p4 =>
        (retainAll p4 (n.keys.drop mid)).bind (fun p5 =>
        (retainAll p5 (n.children.drop mid)).bind (fun p6 =>
        (retainObj p6 (n.keys.getD mid 0)).bind (fun p7 =>
          some (p7, p.nextTag, p.nextTag + 1, n.keys.getD mid 0)))))) = _
    rw [hrun3]
    show (retainAll p3 (n.children.take mid)).bind _ = _
    rw [hrun4]
    show (retainAll p4 (n.keys.drop mid)).bind _ = _
    rw [hrun5]
    show (retainAll p5 (n.children.drop mid)).bind _ = _
    rw [hrun6]
    show (retainObj p6 (n.keys.getD mid 0)).bind _ = _
    rw [hrun7]
    rfl
  · rw [hnt7, hnt6, hnt5, hnt4, hnt3]; rfl
  · exact hwf7 (hwf6 (hwf5 (hwf4 (hwf3
      (WF_allocObj p1 (WF_allocObj p hWF _) _)))))
  · intro x hx
    rw [hdata7, hdata6, hdata5, hdata4, hdata3]
    unfold dataOf
    rw [hlookup2, if_neg (by omega), if_neg (by omega)]
  · rw [nodeAt_eq]
    rw [hdata7, hdata6, hdata5, hdata4, hdata3]
    unfold dataOf
    rw [hlookup2, if_neg (by omega), if_pos rfl]
    rfl
  · rw [nodeAt_eq]
    rw [hdata7, hdata6, hdata5, hdata4, hdata3]
    unfold dataOf
    rw [hlookup2, if_pos rfl]
    rfl
  · intro x
    rw [hsome7, hsome6, hsome5, hsome4, hsome3, hlookup2]
    split
    · simp [*]
    · split
      · simp [*]
      · simp [*]

/-- Combined characterisation of `Node::join` on valid inputs. -/
theorem joinNodes_spec (p : ObjPool) (bottom top : NodeObj) (txId : Nat)
    (hWF : p.WF)
    (hkb : bottom.keys.length + top.keys.length < B)
    (hcb : bottom.children.length + top.children.length < B)
    (hty : bottom.nodeType = top.nodeType)
    (hpres : ∀ id ∈ (bottom.keys ++ top.keys) ++
        (bottom.children ++ top.children), (lookupObj p id).isSome) :
    ∃ p', joinNodes p bottom top txId = some (p', p.nextTag)
      ∧ p'.nextTag = p.nextTag + 1
      ∧ p'.WF
      ∧ (∀ x, x < p.nextTag → dataOf p' x = dataOf p x)
      ∧ nodeAt p' p.nextTag = some ⟨bottom.nodeType, txId,
          bottom.keys ++ top.keys, bottom.children ++ top.children⟩ := by
  set merged : NodeObj := ⟨bottom.nodeType, txId,
    bottom.keys ++ top.keys, bottom.children ++ top.children⟩ with hmerged
  set p1 := (allocObj p (.node merged)).1 with hp1def
  have hlookup1 : ∀ x, lookupObj p1 x
      = if x = p.nextTag then some ⟨1, .node merged⟩ else lookupObj p x :=
    fun x => lookupObj_allocObj p (.node merged) x
  have hup1 : ∀ id, (lookupObj p id).isSome → (lookupObj p1 id).isSome := by
    intro id hid
    rw [hlookup1]
    split
    · simp
    · exact hid
  obtain ⟨p2, hrun2, hnt2, hdata2, _, hsome2, hwf2⟩ :=
    retainAll_spec bottom.keys p1 (fun id hid => hup1 id (hpres id
      (List.mem_append_left _ (List.mem_append_left _ hid))))
  obtain ⟨p3, hrun3, hnt3, hdata3, _, hsome3, hwf3⟩ :=
    retainAll_spec top.keys p2 (fun id hid => (hsome2 id).mpr (hup1 id
      (hpres id (List.mem_append_left _ (List.mem_append_right _ hid)))))
  obtain ⟨p4, hrun4, hnt4, hdata4, _, hsome4, hwf4⟩ :=
    retainAll_spec bottom.children p3 (fun id hid => (hsome3 id).mpr
      ((hsome2 id).mpr (hup1 id (hpres id
        (List.mem_append_right _ (List.mem_append_left _ hid))))))
  obtain ⟨p5, hrun5, hnt5, hdata5, _, hsome5, hwf5⟩ :=
    retainAll_spec top.children p4 (fun id hid => (hsome4 id).mpr
      ((hsome3 id).mpr ((hsome2 id).mpr (hup1 id (hpres id
        (List.mem_append_right _ (List.mem_append_right _ hid)))))))
  refine ⟨p5, ?_, ?_, ?_, ?_, ?_⟩
  · show joinNodes p bottom top txId = _
    unfold joinNodes
    rw [if_neg (by omega), if_neg (by omega), if_neg (by simp [hty])]
    show (retainAll p1 bottom.keys).bind (fun p2 =>
        (retainAll p2 top.keys).bind (fun p3 =>
        (retainAll p3 bottom.children).bind (fun p4 =>
        (retainAll p4 top.children).bind (fun p5 =>
          some (p5, p.nextTag))))) = _
    rw [hrun2]
    show (retainAll p2 top.keys).bind _ = _
    rw [hrun3]
    show (retainAll p3 bottom.children).bind _ = _
    rw [hrun4]
    show (retainAll p4 top.children).bind _ = _
    rw [hrun5]
    rfl
  · rw [hnt5, hnt4, hnt3, hnt2]; rfl
  · exact hwf5 (hwf4 (hwf3 (hwf2 (WF_allocObj p hWF _))))
  · intro x hx
    rw [hdata5, hdata4, hdata3, hdata2]
    unfold dataOf
    rw [hlookup1, if_neg (by omega)]
  · rw [nodeAt_eq]
    rw [hdata5, hdata4, hdata3, hdata2]
    unfold dataOf
    rw [hlookup1, if_pos rfl]
    rfl

/-- Combined characterisation of `leaf_node_remove` when the key is
present. -/
theorem leaf_node_remove_ok_spec (p : ObjPool) (n : NodeObj) (txId : Nat)
    (key : Bytes) (hWF : p.WF) (hleaf : n.nodeType = .Leaf)
    (hpres : ∀ id ∈ n.keys ++ n.children, (lookupObj p id).isSome)
    (kb : List Bytes) (hkb : upgradedKeys p n.keys = some kb)
    (hfound : (index_or_insertion_of kb key).1 = true) :
    ∃ p', leaf_node_remove p n txId key = some (p', .ok p.nextTag)
      ∧ p'.nextTag = p.nextTag + 1
      ∧ p'.WF
      ∧ (∀ x, x < p.nextTag → dataOf p' x = dataOf p x)
      ∧ nodeAt p' p.nextTag = some ⟨n.nodeType, txId,
          n.keys.eraseIdx (index_or_insertion_of kb key).2,
          n.children.eraseIdx (index_or_insertion_of kb key).2⟩ := by
  set idx := (index_or_insertion_of kb key).2 with hidx
  set nd : NodeObj :=
    ⟨n.nodeType, txId, n.keys.eraseIdx idx, n.children.eraseIdx idx⟩ with hnd
  set p1 := (allocObj p (.node nd)).1 with hp1def
  have hlookup1 : ∀ x, lookupObj p1 x
      = if x = p.nextTag then some ⟨1, .node nd⟩ else lookupObj p x :=
    fun x => lookupObj_allocObj p (.node nd) x
  have hup1 : ∀ id, (lookupObj p id).isSome → (lookupObj p1 id).isSome := by
    intro id hid
    rw [hlookup1]
    split
    · simp
    · exact hid
  obtain ⟨p2, hrun2, hnt2, hdata2, _, hsome2, hwf2⟩ :=
    retainAll_spec nd.keys p1 (fun id hid => hup1 id (hpres id
      (List.mem_append_left _ ((List.eraseIdx_sublist n.keys idx).subset hid))))
  obtain ⟨p3, hrun3, hnt3, hdata3, _, hsome3, hwf3⟩ :=
    retainAll_spec nd.children p2 (fun id hid => (hsome2 id).mpr (hup1 id
      (hpres id (List.mem_append_right _
        ((List.eraseIdx_sublist n.children idx).subset hid)))))
  refine ⟨p3, ?_, ?_, ?_, ?_, ?_⟩
  · show leaf_node_remove p n txId key = _
    unfold leaf_node_remove
    rw [if_neg (by simp [hleaf])]
    show (upgradedKeys p n.keys).bind _ = _
    rw [hkb]
    show (if !(index_or_insertion_of kb key).1 then _ else _) = _
    rw [hfound]
    show (retainAll p1 nd.keys).bind (fun p2 =>
        (retainAll p2 nd.children).bind (fun p3 =>
          some (p3, Except.ok p.nextTag))) = _
    rw [hrun2]
    show (retainAll p2 nd.children).bind _ = _
    rw [hrun3]
    rfl
  · rw [hnt3, hnt2]; rfl
  · exact hwf3 (hwf2 (WF_allocObj p hWF _))
  · intro x hx
    rw [hdata3, hdata2]
    unfold dataOf
    rw [hlookup1, if_neg (by omega)]
  · rw [nodeAt_eq]
    rw [hdata3, hdata2]
    unfold dataOf
    rw [hlookup1, if_pos rfl]
    rfl

theorem dataOf_setObj (p : ObjPool) (id : Nat) (o : Obj) (x : Nat) :
    dataOf (setObj p id o) x = if x = id then some o.data else dataOf p x := by
  unfold dataOf
  rw [lookupObj_setObj]
  split <;> rfl

theorem dataOf_allocObj (p : ObjPool) (d : ObjData) (x : Nat) :
    dataOf (allocObj p d).1 x
      = if x = p.nextTag then some d else dataOf p x := by
  unfold dataOf
  rw [lookupObj_allocObj]
  split <;> rfl

theorem dataOf_removeObj (p : ObjPool) (id x : Nat) :
    dataOf (removeObj p id) x = if x = id then none else dataOf p x := by
  unfold dataOf
  rw [lookupObj_removeObj]
  split <;> rfl

theorem strongOf_setObj (p : ObjPool) (id : Nat) (o : Obj) (x : Nat) :
    strongOf (setObj p id o) x
      = if x = id then o.strong else strongOf p x := by
  rw [strongOf_eq, lookupObj_setObj]
  split
  · rfl
  · rw [strongOf_eq]

theorem strongOf_allocObj (p : ObjPool) (d : ObjData) (x : Nat) :
    strongOf (allocObj p d).1 x
      = if x = p.nextTag then 1 else strongOf p x := by
  rw [strongOf_eq, lookupObj_allocObj]
  split
  · rfl
  · rw [strongOf_eq]

theorem strongOf_removeObj (p : ObjPool) (id x : Nat) :
    strongOf (removeObj p id) x = if x = id then 0 else strongOf p x := by
  rw [strongOf_eq, lookupObj_removeObj]
  split
  · rfl
  · rw [strongOf_eq]

theorem dataOf_of_lookup_none (p : ObjPool) (x : Nat)
    (h : lookupObj p x = none) : dataOf p x = none := by
  unfold dataOf
  rw [h]
  rfl

/-- Facts about the pool after the unconditional prefix of
`leaf_node_insert_non_full`: the key malloc, the value malloc, the node
clone and the tx stamp.  `p4` names the pool at the point where the
found/full checks run. -/
theorem leaf_insert_prefix_spec (p : ObjPool) (n : NodeObj) (txId : Nat)
    (key value : Bytes) (hWF : p.WF)
    (hpres : ∀ id ∈ n.keys ++ n.children, (lookupObj p id).isSome) :
    ∃ p3 p4, nodeClone (pmalloc (pmalloc p key).1 value).1 n
        = some (p3, p.nextTag + 2)
      ∧ setNode p3 (p.nextTag + 2) { n with txId := txId } = some p4
      ∧ p4.nextTag = p.nextTag + 3
      ∧ p4.WF
      ∧ (∀ x, x < p.nextTag → dataOf p4 x = dataOf p x)
      ∧ dataOf p4 p.nextTag = some (.bytes key)
      ∧ dataOf p4 (p.nextTag + 1) = some (.bytes value)
      ∧ dataOf p4 (p.nextTag + 2) = some (.node { n with txId := txId })
      ∧ strongOf p4 p.nextTag = 1
      ∧ strongOf p4 (p.nextTag + 1) = 1
      ∧ strongOf p4 (p.nextTag + 2) = 1
      ∧ (∀ x, x < p.nextTag →
          strongOf p4 x = strongOf p x + n.keys.count x + n.children.count x)
      ∧ (∀ x, p.nextTag + 3 ≤ x → lookupObj p4 x = none) := by
  set p1 := (pmalloc p key).1 with hp1def
  set p2 := (pmalloc p1 value).1 with hp2def
  have hp1nt : p1.nextTag = p.nextTag + 1 := rfl
  have hp2nt : p2.nextTag = p.nextTag + 2 := rfl
  have hdata2 : ∀ x, dataOf p2 x
      = if x = p.nextTag + 1 then some (.bytes value)
        else if x = p.nextTag then some (.bytes key)
        else dataOf p x := by
    intro x
    rw [show dataOf p2 x = dataOf (allocObj p1 (.bytes value)).1 x from rfl,
      dataOf_allocObj, hp1nt]
    split
    · rfl
    · rw [show dataOf p1 x = dataOf (allocObj p (.bytes key)).1 x from rfl,
        dataOf_allocObj]
  have hstr2 : ∀ x, strongOf p2 x
      = if x = p.nextTag + 1 then 1
        else if x = p.nextTag then 1
        else strongOf p x := by
    intro x
    rw [show strongOf p2 x = strongOf (allocObj p1 (.bytes value)).1 x
      from rfl, strongOf_allocObj, hp1nt]
    split
    · rfl
    · rw [show strongOf p1 x = strongOf (allocObj p (.bytes key)).1 x
        from rfl, strongOf_allocObj]
  have hlook2 : ∀ x, lookupObj p2 x
      = if x = p.nextTag + 1 then some ⟨1, .bytes value⟩
        else if x = p.nextTag then some ⟨1, .bytes key⟩
        else lookupObj p x := by
    intro x
    rw [show lookupObj p2 x = lookupObj (allocObj p1 (.bytes value)).1 x
      from rfl, lookupObj_allocObj, hp1nt]
    split
    · rfl
    · rw [show lookupObj p1 x = lookupObj (allocObj p (.bytes key)).1 x
        from rfl, lookupObj_allocObj]
  have hWF2 : p2.WF := WF_allocObj p1 (WF_allocObj p hWF _) _
  have hpres2 : ∀ id ∈ n.keys ++ n.children, (lookupObj p2 id).isSome := by
    intro id hid
    rw [hlook2]
    split
    · simp
    · split
      · simp
      · exact hpres id hid
  obtain ⟨p3, hrun3, hnt3, hwf3, hdata3, hdatanew3, hstr3, hstrnew3, hsome3⟩ :=
    nodeClone_spec p2 n hWF2 hpres2
  have hlt : ∀ id ∈ n.keys ++ n.children, id < p.nextTag :=
    fun id hid => lookupObj_isSome_lt p hWF id (hpres id hid)
  obtain ⟨o3, ho3⟩ : ∃ o, lookupObj p3 (p.nextTag + 2) = some o := by
    apply Option.isSome_iff_exists.mp
    rw [hsome3, hp2nt]
    right
    rfl
  have ho3str : o3.strong = 1 := by
    have h := hstrnew3
    rw [hp2nt, strongOf_eq, ho3] at h
    simpa using h
  set p4 := setObj p3 (p.nextTag + 2)
    { o3 with data := .node { n with txId := txId } } with hp4def
  have hp3nt : p3.nextTag = p.nextTag + 3 := by rw [hnt3, hp2nt]
  refine ⟨p3, p4, ?_, ?_, ?_, ?_, ?_, ?_, ?_, ?_, ?_, ?_, ?_, ?_, ?_⟩
  · exact hrun3
  · rw [setNode_spec p3 (p.nextTag + 2) _ o3 ho3]
  · rw [hp4def]
    show p3.nextTag = _
    exact hp3nt
  · rw [hp4def]
    exact WF_setObj p3 hwf3 _ _ (by omega)
  · intro x hx
    rw [hp4def, dataOf_setObj, if_neg (by omega),
      hdata3 x (by rw [hp2nt]; omega), hdata2, if_neg (by omega),
      if_neg (by omega)]
  · rw [hp4def, dataOf_setObj, if_neg (by omega),
      hdata3 p.nextTag (by rw [hp2nt]; omega), hdata2, if_neg (by omega),
      if_pos rfl]
  · rw [hp4def, dataOf_setObj, if_neg (by omega),
      hdata3 (p.nextTag + 1) (by rw [hp2nt]; omega), hdata2, if_pos rfl]
  · rw [hp4def, dataOf_setObj, if_pos rfl]
  · have h0k : n.keys.count p.nextTag = 0 := by
      rw [List.count_eq_zero]
      exact fun hmem => by
        have := hlt _ (List.mem_append_left _ hmem); omega
    have h0c : n.children.count p.nextTag = 0 := by
      rw [List.count_eq_zero]
      exact fun hmem => by
        have := hlt _ (List.mem_append_right _ hmem); omega
    rw [hp4def, strongOf_setObj, if_neg (by omega),
      hstr3 p.nextTag (by rw [hp2nt]; omega), h0k, h0c, hstr2,
      if_neg (by omega), if_pos rfl]
  · have h0k : n.keys.count (p.nextTag + 1) = 0 := by
      rw [List.count_eq_zero]
      exact fun hmem => by
        have := hlt _ (List.mem_append_left _ hmem); omega
    have h0c : n.children.count (p.nextTag + 1) = 0 := by
      rw [List.count_eq_zero]
      exact fun hmem => by
        have := hlt _ (List.mem_append_right _ hmem); omega
    rw [hp4def, strongOf_setObj, if_neg (by omega),
      hstr3 (p.nextTag + 1) (by rw [hp2nt]; omega), h0k, h0c, hstr2,
      if_pos rfl]
  · rw [hp4def, strongOf_setObj, if_pos rfl]
    exact ho3str
  · intro x hx
    rw [hp4def, strongOf_setObj, if_neg (by omega),
      hstr3 x (by rw [hp2nt]; omega), hstr2, if_neg (by omega),
      if_neg (by omega)]
  · intro x hx
    rw [hp4def, lookupObj_setObj, if_neg (by omega)]
    cases hlook : lookupObj p3 x with
    | none => rfl
    | some o =>
      exfalso
      have h1 : (lookupObj p3 x).isSome := by rw [hlook]; rfl
      rcases (hsome3 x).mp h1 with h2 | h2
      · rw [hlook2, if_neg (by omega), if_neg (by omega)] at h2
        have := lookupObj_isSome_lt p hWF x h2
        omega
      · rw [hp2nt] at h2
        omega

theorem lookup_of_dataOf (p : ObjPool) (x : Nat) (d : ObjData)
    (h : dataOf p x = some d) :
    ∃ o, lookupObj p x = some o ∧ o.data = d := by
  unfold dataOf at h
  cases hl : lookupObj p x with
  | none => rw [hl] at h; simp at h
  | some o =>
    rw [hl] at h
    simp only [Option.map_some'] at h
    exact ⟨o, rfl, by injection h⟩

theorem dropArc_eq_removeObj (p : ObjPool) (id : Nat) (o : Obj)
    (h : lookupObj p id = some o) (h1 : o.strong ≤ 1) :
    dropArc p id = removeObj p id := by
  unfold dropArc
  rw [h]
  exact if_pos h1

/-- Characterisation of `leaf_node_insert_non_full` on the two error
paths.  The checks run only after the three allocations; on failure the
three temporaries are freed by the arc drops, but the id-tag counter
remains advanced by 3 and the strong counts of the input node's key and
child blocks remain incremented by the clone's retains. -/
theorem leaf_insert_err_spec (p : ObjPool) (n : NodeObj) (txId : Nat)
    (key value : Bytes) (hWF : p.WF) (hleaf : n.nodeType = .Leaf)
    (hpres : ∀ id ∈ n.keys ++ n.children, (lookupObj p id).isSome)
    (kb : List Bytes) (hkb : upgradedKeys p n.keys = some kb)
    (herr : (index_or_insertion_of kb key).1 = true
      ∨ n.children.length = B) :
    ∃ p', leaf_node_insert_non_full p n txId key value
        = some (p', .error (if (index_or_insertion_of kb key).1
            then "Key already exists" else "Node is already full"))
      ∧ p'.nextTag = p.nextTag + 3
      ∧ (∀ x, dataOf p' x = dataOf p x)
      ∧ (∀ x, x < p.nextTag →
          strongOf p' x = strongOf p x + n.keys.count x + n.children.count x)
      ∧ (∀ x, p.nextTag ≤ x → lookupObj p' x = none) := by
  obtain ⟨p3, p4, hclone, hset, hnt4, hwf4, hframe4, hdk4, hdv4, hdn4,
    hsk4, hsv4, hsn4, hstrfr4, hnone4⟩ :=
    leaf_insert_prefix_spec p n txId key value hWF hpres
  have hlt : ∀ id ∈ n.keys ++ n.children, id < p.nextTag :=
    fun id hid => lookupObj_isSome_lt p hWF id (hpres id hid)
  have hkb4 : upgradedKeys p4 n.keys = some kb := by
    rw [upgradedKeys_congr p p4 n.keys
      (fun id hid => hframe4 id (hlt id (List.mem_append_left _ hid)))]
    exact hkb
  obtain ⟨o2, ho2, ho2d⟩ := lookup_of_dataOf p4 (p.nextTag + 2) _ hdn4
  have ho2s : o2.strong ≤ 1 := by
    have h := hsn4
    rw [strongOf_eq, ho2] at h
    simp at h
    omega
  set q1 := removeObj p4 (p.nextTag + 2) with hq1def
  obtain ⟨o1, ho1, ho1d⟩ : ∃ o, lookupObj q1 (p.nextTag + 1) = some o
      ∧ o.data = .bytes value := by
    have : dataOf q1 (p.nextTag + 1) = some (.bytes value) := by
      rw [hq1def, dataOf_removeObj, if_neg (by omega)]
      exact hdv4
    exact lookup_of_dataOf _ _ _ this
  have ho1s : o1.strong ≤ 1 := by
    have h : strongOf q1 (p.nextTag + 1) = 1 := by
      rw [hq1def, strongOf_removeObj, if_neg (by omega)]
      exact hsv4
    rw [strongOf_eq, ho1] at h
    simp at h
    omega
  set q2 := removeObj q1 (p.nextTag + 1) with hq2def
  obtain ⟨o0, ho0, ho0d⟩ : ∃ o, lookupObj q2 p.nextTag = some o
      ∧ o.data = .bytes key := by
    have : dataOf q2 p.nextTag = some (.bytes key) := by
      rw [hq2def, dataOf_removeObj, if_neg (by omega), hq1def,
        dataOf_removeObj, if_neg (by omega)]
      exact hdk4
    exact lookup_of_dataOf _ _ _ this
  have ho0s : o0.strong ≤ 1 := by
    have h : strongOf q2 p.nextTag = 1 := by
      rw [hq2def, strongOf_removeObj, if_neg (by omega), hq1def,
        strongOf_removeObj, if_neg (by omega)]
      exact hsk4
    rw [strongOf_eq, ho0] at h
    simp at h
    omega
  set q3 := removeObj q2 p.nextTag with hq3def
  have hdropchain : dropArc (dropArc (dropArc p4 (p.nextTag + 2))
      (p.nextTag + 1)) p.nextTag = q3 := by
    rw [dropArc_eq_removeObj p4 (p.nextTag + 2) o2 ho2 ho2s, ← hq1def,
      dropArc_eq_removeObj q1 (p.nextTag + 1) o1 ho1 ho1s, ← hq2def,
      dropArc_eq_removeObj q2 p.nextTag o0 ho0 ho0s, ← hq3def]
  have hstate : ∀ x, lookupObj q3 x
      = if x = p.nextTag then none
        else if x = p.nextTag + 1 then none
        else if x = p.nextTag + 2 then none
        else lookupObj p4 x := by
    intro x
    rw [hq3def, lookupObj_removeObj, hq2def, lookupObj_removeObj,
      hq1def, lookupObj_removeObj]
  refine ⟨q3, ?_, ?_, ?_, ?_, ?_⟩
  · show leaf_node_insert_non_full p n txId key value = _
    unfold leaf_node_insert_non_full
    rw [if_neg (by simp [hleaf])]
    show (nodeClone (pmalloc (pmalloc p key).1 value).1 n).bind _ = _
    rw [hclone]
    show (setNode p3 (p.nextTag + 2) { n with txId := txId }).bind _ = _
    rw [hset]
    show (upgradedKeys p4 n.keys).bind _ = _
    rw [hkb4]
    show (if (index_or_insertion_of kb key).1 = true then _
      else if n.children.length = B then _ else _) = _
    rcases herr with hfound | hfull
    · rw [if_pos hfound, hfound, if_pos rfl, hdropchain]
      rfl
    · by_cases hfound : (index_or_insertion_of kb key).1 = true
      · rw [if_pos hfound, hfound, if_pos rfl, hdropchain]
        rfl
      · rw [if_neg hfound, if_pos hfull,
          if_neg (by simpa using hfound), hdropchain]
        rfl
  · rw [show q3.nextTag = p4.nextTag from rfl, hnt4]
  · intro x
    rw [hq3def, dataOf_removeObj, hq2def, dataOf_removeObj, hq1def,
      dataOf_removeObj]
    by_cases h0 : x = p.nextTag
    · rw [if_pos h0]
      exact (dataOf_of_lookup_none p x (by
        subst h0; exact hWF p.nextTag (le_refl _))).symm
    · rw [if_neg h0]
      by_cases h1 : x = p.nextTag + 1
      · rw [if_pos h1]
        exact (dataOf_of_lookup_none p x (by
          subst h1; exact hWF _ (by omega))).symm
      · rw [if_neg h1]
        by_cases h2 : x = p.nextTag + 2
        · rw [if_pos h2]
          exact (dataOf_of_lookup_none p x (by
            subst h2; exact hWF _ (by omega))).symm
        · rw [if_neg h2]
          by_cases h3 : x < p.nextTag
          · exact hframe4 x h3
          · rw [dataOf_of_lookup_none p4 x (hnone4 x (by omega)),
              dataOf_of_lookup_none p x (hWF x (by omega))]
  · intro x hx
    rw [strongOf_eq, hstate, if_neg (by omega), if_neg (by omega),
      if_neg (by omega), ← strongOf_eq]
    exact hstrfr4 x hx
  · intro x hx
    rw [hstate]
    by_cases h0 : x = p.nextTag
    · rw [if_pos h0]
    · rw [if_neg h0]
      by_cases h1 : x = p.nextTag + 1
      · rw [if_pos h1]
      · rw [if_neg h1]
        by_cases h2 : x = p.nextTag + 2
        · rw [if_pos h2]
        · rw [if_neg h2]
          exact hnone4 x (by omega)

/-- Characterisation of `leaf_node_insert_non_full` on the success path. -/
theorem leaf_insert_ok_spec (p : ObjPool) (n : NodeObj) (txId : Nat)
    (key value : Bytes) (hWF : p.WF) (hleaf : n.nodeType = .Leaf)
    (hpres : ∀ id ∈ n.keys ++ n.children, (lookupObj p id).isSome)
    (kb : List Bytes) (hkb : upgradedKeys p n.keys = some kb)
    (hnotfound : (index_or_insertion_of kb key).1 = false)
    (hnotfull : n.children.length ≠ B) :
    ∃ p', leaf_node_insert_non_full p n txId key value
        = some (p', .ok (p.nextTag + 2))
      ∧ p'.nextTag = p.nextTag + 3
      ∧ p'.WF
      ∧ (∀ x, x < p.nextTag → dataOf p' x = dataOf p x)
      ∧ dataOf p' p.nextTag = some (.bytes key)
      ∧ dataOf p' (p.nextTag + 1) = some (.bytes value)
      ∧ nodeAt p' (p.nextTag + 2) = some ⟨n.nodeType, txId,
          n.keys.insertIdx (index_or_insertion_of kb key).2 p.nextTag,
          n.children.insertIdx (index_or_insertion_of kb key).2
            (p.nextTag + 1)⟩ := by
  obtain ⟨p3, p4, hclone, hset, hnt4, hwf4, hframe4, hdk4, hdv4, hdn4,
    hsk4, hsv4, hsn4, hstrfr4, hnone4⟩ :=
    leaf_insert_prefix_spec p n txId key value hWF hpres
  have hlt : ∀ id ∈ n.keys ++ n.children, id < p.nextTag :=
    fun id hid => lookupObj_isSome_lt p hWF id (hpres id hid)
  have hkb4 : upgradedKeys p4 n.keys = some kb := by
    rw [upgradedKeys_congr p p4 n.keys
      (fun id hid => hframe4 id (hlt id (List.mem_append_left _ hid)))]
    exact hkb
  obtain ⟨o2, ho2, ho2d⟩ := lookup_of_dataOf p4 (p.nextTag + 2) _ hdn4
  set n2 : NodeObj := ⟨n.nodeType, txId,
    n.keys.insertIdx (index_or_insertion_of kb key).2 p.nextTag,
    n.children.insertIdx (index_or_insertion_of kb key).2
      (p.nextTag + 1)⟩ with hn2def
  set p5 := setObj p4 (p.nextTag + 2) { o2 with data := .node n2 }
    with hp5def
  refine ⟨p5, ?_, ?_, ?_, ?_, ?_, ?_, ?_⟩
  · show leaf_node_insert_non_full p n txId key value = _
    unfold leaf_node_insert_non_full
    rw [if_neg (by simp [hleaf])]
    show (nodeClone (pmalloc (pmalloc p key).1 value).1 n).bind _ = _
    rw [hclone]
    show (setNode p3 (p.nextTag + 2) { n with txId := txId }).bind _ = _
    rw [hset]
    show (upgradedKeys p4 n.keys).bind _ = _
    rw [hkb4]
    show (if (index_or_insertion_of kb key).1 = true then _
      else if n.children.length = B then _ else _) = _
    rw [if_neg (by simp [hnotfound]), if_neg hnotfull]
    show (setNode p4 (p.nextTag + 2) n2).bind _ = _
    rw [setNode_spec p4 (p.nextTag + 2) n2 o2 ho2]
    rfl
  · rw [hp5def]
    show p4.nextTag = _
    exact hnt4
  · rw [hp5def]
    exact WF_setObj p4 hwf4 _ _ (by omega)
  · intro x hx
    rw [hp5def, dataOf_setObj, if_neg (by omega)]
    exact hframe4 x hx
  · rw [hp5def, dataOf_setObj, if_neg (by omega)]
    exact hdk4
  · rw [hp5def, dataOf_setObj, if_neg (by omega)]
    exact hdv4
  · rw [nodeAt_eq, hp5def, dataOf_setObj, if_pos rfl]
    rfl

theorem demoPool_WF : demoPool.WF := by
  intro x hx
  have h8 : 8 ≤ x := hx
  show (if x = 1 then _ else _) = none
  rw [if_neg (by omega), if_neg (by omega), if_neg (by omega),
    if_neg (by omega), if_neg (by omega), if_neg (by omega),
    if_neg (by omega)]

/-- C1: inserting the absent key "c" into a leaf whose keys are the
ascending "b", "d", "f" must, per the claim, produce the key sequence
"b", "c", "d", "f".  The code instead inserts at index 0 (the index
returned by the broken binary search) and produces "c", "b", "d", "f",
which is not even sorted.  The theorem evaluates the embedded code at the
failing input; `[99]` is "c" and `[120]` the value "x". -/
theorem leaf_insert_unsorted_at_failing_input :
    (match leaf_node_insert_non_full demoPool demoNode 9 [99] [120] with
      | some (p', .ok id) =>
        (nodeAt p' id).bind (fun nd => upgradedKeys p' nd.keys)
      | _ => none)
      = some [[99], [98], [100], [102]]
    ∧ isAscending [[98], [100], [102]] = true
    ∧ isAscending [[99], [98], [100], [102]] = false
    ∧ List.insertIdx 1 [99] [[98], [100], [102]]
        = [[98], [99], [100], [102]] := by
  decide

/-- C3 counterexample: inserting the already-present key "b" into the
demo leaf fails with `KeyAlreadyExists`, as claimed — but the failing
call does allocate: afterwards `next_id_tag` has advanced from 8 to 11,
and the strong counts of the node's first key block (handle 1) and first
child block (handle 4) have both risen from 1 to 2 (the clone's retains
are never released on the error path), so the pool is not "exactly as it
was before the call". -/
theorem leaf_insert_failure_changes_pool :
    (leaf_node_insert_non_full demoPool demoNode 9 [98] [120]).map
        (fun r => (r.2, r.1.nextTag, strongOf r.1 1, strongOf r.1 4))
      = some (.error "Key already exists", 11, 2, 2)
    ∧ demoPool.nextTag = 8
    ∧ strongOf demoPool 1 = 1
    ∧ strongOf demoPool 4 = 1 := by
  decide

/-- C3 (amended): leaf insert fails with `KeyAlreadyExists` when the key
is present and with `NodeFull` when `num_children == B`, but the checks
run only after the call has malloc'd the key bytes, the value bytes and a
clone of the node; the three temporary allocations are freed again when
their handles drop, yet `next_id_tag` stays advanced by 3 and the strong
counts of the input node's key and child blocks stay incremented by the
clone's retains. -/
theorem leaf_insert_failure_effects (p : ObjPool) (n : NodeObj)
    (txId : Nat) (key value : Bytes) (hWF : p.WF)
    (hleaf : n.nodeType = .Leaf)
    (hpres : ∀ id ∈ n.keys ++ n.children, (lookupObj p id).isSome)
    (kb : List Bytes) (hkb : upgradedKeys p n.keys = some kb)
    (herr : (index_or_insertion_of kb key).1 = true
      ∨ n.children.length = B) :
    ∃ p', leaf_node_insert_non_full p n txId key value
        = some (p', .error (if (index_or_insertion_of kb key).1
            then "Key already exists" else "Node is already full"))
      ∧ p'.nextTag = p.nextTag + 3
      ∧ (∀ x, dataOf p' x = dataOf p x)
      ∧ (∀ x, x < p.nextTag →
          strongOf p' x = strongOf p x + n.keys.count x + n.children.count x)
      ∧ (∀ x, p.nextTag ≤ x → lookupObj p' x = none) :=
  leaf_insert_err_spec p n txId key value hWF hleaf hpres kb hkb herr

/-- Witness for the amended C3 theorem at the demo leaf and the present
key "b". -/
theorem leaf_insert_failure_effects_witness :
    ∃ p', leaf_node_insert_non_full demoPool demoNode 9 [98] [120]
        = some (p', .error (if (index_or_insertion_of
            [[98], [100], [102]] [98]).1
            then "Key already exists" else "Node is already full"))
      ∧ p'.nextTag = demoPool.nextTag + 3
      ∧ (∀ x, dataOf p' x = dataOf demoPool x)
      ∧ (∀ x, x < demoPool.nextTag → strongOf p' x = strongOf demoPool x
          + demoNode.keys.count x + demoNode.children.count x)
      ∧ (∀ x, demoPool.nextTag ≤ x → lookupObj p' x = none) :=
  leaf_insert_failure_effects demoPool demoNode 9 [98] [120] demoPool_WF
    (by decide) (by decide) [[98], [100], [102]] (by decide)
    (Or.inl (by decide))

/-- C4 counterexample: `Node::clone` takes no `tx_id` parameter at all
(`node.rs` line 55), so it cannot stamp "the provided tx_id": cloning the
demo node, whose stored version carries tx id 7, in a context whose
provided transaction id is 8 (as `leaf_node_insert_non_full(tx_id = 8)`
does at `node.rs` line 254) yields a new node allocation still stamped
7, not 8. -/
theorem clone_does_not_stamp_tx :
    (nodeClone cloneDemoPool cloneDemoNode).map
        (fun r => (nodeAt r.1 r.2).map (fun nd => nd.txId))
      = some (some 7)
    ∧ (7 : Nat) ≠ 8 := by
  decide

/-- C4 (amended): clone, insert, remove, split and join each leave the
payload of every previously allocated object — in particular their input
node(s) — unchanged, writing only through fresh allocations; insert,
remove, split and join stamp the provided tx id onto every node they
return, while clone (which takes no tx id) returns a node still carrying
the source's tx id. -/
theorem node_ops_frame_and_stamp :
    (∀ p n, p.WF →
      (∀ id ∈ n.keys ++ n.children, (lookupObj p id).isSome) →
      ∃ p' c, nodeClone p n = some (p', c)
        ∧ (∀ x, x < p.nextTag → dataOf p' x = dataOf p x)
        ∧ nodeAt p' c = some n)
    ∧ (∀ p n txId key value kb, p.WF → n.nodeType = .Leaf →
        (∀ id ∈ n.keys ++ n.children, (lookupObj p id).isSome) →
        upgradedKeys p n.keys = some kb →
        (index_or_insertion_of kb key).1 = false →
        n.children.length ≠ B →
        ∃ p' c, leaf_node_insert_non_full p n txId key value
            = some (p', .ok c)
          ∧ (∀ x, x < p.nextTag → dataOf p' x = dataOf p x)
          ∧ ∃ nd, nodeAt p' c = some nd ∧ nd.txId = txId)
    ∧ (∀ p n txId key kb, p.WF → n.nodeType = .Leaf →
        (∀ id ∈ n.keys ++ n.children, (lookupObj p id).isSome) →
        upgradedKeys p n.keys = some kb →
        (index_or_insertion_of kb key).1 = true →
        ∃ p' c, leaf_node_remove p n txId key = some (p', .ok c)
          ∧ (∀ x, x < p.nextTag → dataOf p' x = dataOf p x)
          ∧ ∃ nd, nodeAt p' c = some nd ∧ nd.txId = txId)
    ∧ (∀ p n txId, p.WF → 0 < n.keys.length → 0 < n.children.length →
        (∀ id ∈ n.keys ++ n.children, (lookupObj p id).isSome) →
        ∃ p' b t m, splitNode p n txId = some (p', b, t, m)
          ∧ (∀ x, x < p.nextTag → dataOf p' x = dataOf p x)
          ∧ (∃ nd, nodeAt p' b = some nd ∧ nd.txId = txId)
          ∧ (∃ nd, nodeAt p' t = some nd ∧ nd.txId = txId))
    ∧ (∀ p bottom top txId, p.WF →
        bottom.keys.length + top.keys.length < B →
        bottom.children.length + top.children.length < B →
        bottom.nodeType = top.nodeType →
        (∀ id ∈ (bottom.keys ++ top.keys) ++
          (bottom.children ++ top.children), (lookupObj p id).isSome) →
        ∃ p' c, joinNodes p bottom top txId = some (p', c)
          ∧ (∀ x, x < p.nextTag → dataOf p' x = dataOf p x)
          ∧ ∃ nd, nodeAt p' c = some nd ∧ nd.txId = txId) := by
  refine ⟨?_, ?_, ?_, ?_, ?_⟩
  · intro p n hWF hpres
    obtain ⟨p', hrun, _, _, hdata, hdatanew, _, _, _⟩ :=
      nodeClone_spec p n hWF hpres
    refine ⟨p', p.nextTag, hrun, ?_, ?_⟩
    · intro x hx
      exact hdata x (by omega)
    · rw [nodeAt_eq, hdatanew]
      rfl
  · intro p n txId key value kb hWF hleaf hpres hkb hnf hnfull
    obtain ⟨p', hrun, _, _, hframe, _, _, hnode⟩ :=
      leaf_insert_ok_spec p n txId key value hWF hleaf hpres kb hkb
        hnf hnfull
    exact ⟨p', p.nextTag + 2, hrun, hframe, _, hnode, rfl⟩
  · intro p n txId key kb hWF hleaf hpres hkb hfound
    obtain ⟨p', hrun, _, _, hframe, hnode⟩ :=
      leaf_node_remove_ok_spec p n txId key hWF hleaf hpres kb hkb hfound
    exact ⟨p', p.nextTag, hrun, hframe, _, hnode, rfl⟩
  · intro p n txId hWF hk hc hpres
    obtain ⟨p', hrun, _, _, hframe, hbot, htop, _⟩ :=
      splitNode_spec p n txId hWF hk hc hpres
    exact ⟨p', p.nextTag, p.nextTag + 1, _, hrun, hframe,
      ⟨_, hbot, rfl⟩, ⟨_, htop, rfl⟩⟩
  · intro p bottom top txId hWF hkb hcb hty hpres
    obtain ⟨p', hrun, _, _, hframe, hnode⟩ :=
      joinNodes_spec p bottom top txId hWF hkb hcb hty hpres
    exact ⟨p', p.nextTag, hrun, hframe, _, hnode, rfl⟩

/-- Witness for the amended C4 theorem: each of the five operations run
on a concrete leaf. -/
theorem node_ops_frame_and_stamp_witness :
    (∃ p' c, nodeClone demoPool demoNode = some (p', c)
      ∧ nodeAt p' c = some demoNode)
    ∧ (∃ p' c, leaf_node_insert_non_full demoPool demoNode 9 [99] [120]
        = some (p', .ok c)
      ∧ ∃ nd, nodeAt p' c = some nd ∧ nd.txId = 9)
    ∧ (∃ p' c, leaf_node_remove demoPool demoNode 9 [100]
        = some (p', .ok c)
      ∧ ∃ nd, nodeAt p' c = some nd ∧ nd.txId = 9)
    ∧ (∃ p' b t m, splitNode demoPool demoNode 9 = some (p', b, t, m)
      ∧ (∃ nd, nodeAt p' b = some nd ∧ nd.txId = 9)
      ∧ (∃ nd, nodeAt p' t = some nd ∧ nd.txId = 9))
    ∧ (∃ p' c, joinNodes demoPool demoNode cloneDemoNode 9 = some (p', c)
      ∧ ∃ nd, nodeAt p' c = some nd ∧ nd.txId = 9) := by
  refine ⟨?_, ?_, ?_, ?_, ?_⟩
  · obtain ⟨p', c, h1, _, h3⟩ :=
      node_ops_frame_and_stamp.1 demoPool demoNode demoPool_WF (by decide)
    exact ⟨p', c, h1, h3⟩
  · obtain ⟨p', c, h1, _, h3⟩ :=
      node_ops_frame_and_stamp.2.1 demoPool demoNode 9 [99] [120]
        [[98], [100], [102]] demoPool_WF (by decide) (by decide)
        (by decide) (by decide) (by decide)
    exact ⟨p', c, h1, h3⟩
  · obtain ⟨p', c, h1, _, h3⟩ :=
      node_ops_frame_and_stamp.2.2.1 demoPool demoNode 9 [100]
        [[98], [100], [102]] demoPool_WF (by decide) (by decide)
        (by decide) (by decide)
    exact ⟨p', c, h1, h3⟩
  · obtain ⟨p', b, t, m, h1, _, h3, h4⟩ :=
      node_ops_frame_and_stamp.2.2.2.1 demoPool demoNode 9 demoPool_WF
        (by decide) (by decide) (by decide)
    exact ⟨p', b, t, m, h1, h3, h4⟩
  · obtain ⟨p', c, h1, _, h3⟩ :=
      node_ops_frame_and_stamp.2.2.2.2 demoPool demoNode cloneDemoNode 9
        demoPool_WF (by decide) (by decide) (by decide) (by decide)
    exact ⟨p', c, h1, h3⟩

/-- C5: splitting a node with at least one key whose halves satisfy the
join preconditions and then joining the two halves reproduces the
original key and child sequences; split takes `mid = num_keys / 2`, puts
slots `[0, mid)` into the bottom half and the rest into the top half, and
returns `keys[mid]` (the very handle, hence its bytes) as `mid_key`. -/
theorem split_then_join_restores_node (p : ObjPool) (n : NodeObj)
    (tx tx' : Nat) (hWF : p.WF)
    (hk : 0 < n.keys.length) (hc : 0 < n.children.length)
    (hkB : n.keys.length < B) (hcB : n.children.length < B)
    (hpres : ∀ id ∈ n.keys ++ n.children, (lookupObj p id).isSome) :
    ∃ p1 botN topN p2,
      splitNode p n tx = some (p1, p.nextTag, p.nextTag + 1,
        n.keys.getD (n.keys.length / 2) 0)
      ∧ nodeAt p1 p.nextTag = some botN
      ∧ nodeAt p1 (p.nextTag + 1) = some topN
      ∧ botN.keys = n.keys.take (n.keys.length / 2)
      ∧ botN.children = n.children.take (n.keys.length / 2)
      ∧ topN.keys = n.keys.drop (n.keys.length / 2)
      ∧ topN.children = n.children.drop (n.keys.length / 2)
      ∧ joinNodes p1 botN topN tx' = some (p2, p1.nextTag)
      ∧ (nodeAt p2 p1.nextTag).map NodeObj.keys = some n.keys
      ∧ (nodeAt p2 p1.nextTag).map NodeObj.children = some n.children := by
  obtain ⟨p1, hrun, hnt1, hwf1, hframe1, hbot, htop, hsome1⟩ :=
    splitNode_spec p n tx hWF hk hc hpres
  set mid := n.keys.length / 2 with hmid
  set botN : NodeObj :=
    ⟨n.nodeType, tx, n.keys.take mid, n.children.take mid⟩ with hbotN
  set topN : NodeObj :=
    ⟨n.nodeType, tx, n.keys.drop mid, n.children.drop mid⟩ with htopN
  have hpres1 : ∀ id ∈ (botN.keys ++ topN.keys) ++
      (botN.children ++ topN.children), (lookupObj p1 id).isSome := by
    intro id hid
    rw [hsome1]
    left
    rcases List.mem_append.mp hid with h | h
    · rcases List.mem_append.mp h with h2 | h2
      · exact hpres id (List.mem_append_left _ (List.mem_of_mem_take h2))
      · exact hpres id (List.mem_append_left _ (List.mem_of_mem_drop h2))
    · rcases List.mem_append.mp h with h2 | h2
      · exact hpres id (List.mem_append_right _ (List.mem_of_mem_take h2))
      · exact hpres id (List.mem_append_right _ (List.mem_of_mem_drop h2))
  have hjkb : botN.keys.length + topN.keys.length < B := by
    rw [hbotN, htopN]
    simp only [List.length_take, List.length_drop]
    omega
  have hjcb : botN.children.length + topN.children.length < B := by
    rw [hbotN, htopN]
    simp only [List.length_take, List.length_drop]
    omega
  obtain ⟨p2, hjoin, _, _, _, hmerged⟩ :=
    joinNodes_spec p1 botN topN tx' hwf1 hjkb hjcb rfl hpres1
  refine ⟨p1, botN, topN, p2, hrun, hbot, htop, rfl, rfl, rfl, rfl,
    hjoin, ?_, ?_⟩
  · rw [hmerged]
    simp [List.take_append_drop]
  · rw [hmerged]
    simp [List.take_append_drop]

/-- Witness for C5 at the three-entry demo leaf. -/
theorem split_then_join_restores_node_witness :
    ∃ p1 botN topN p2,
      splitNode demoPool demoNode 4 = some (p1, demoPool.nextTag,
        demoPool.nextTag + 1,
        demoNode.keys.getD (demoNode.keys.length / 2) 0)
      ∧ nodeAt p1 demoPool.nextTag = some botN
      ∧ nodeAt p1 (demoPool.nextTag + 1) = some topN
      ∧ botN.keys = demoNode.keys.take (demoNode.keys.length / 2)
      ∧ botN.children = demoNode.children.take (demoNode.keys.length / 2)
      ∧ topN.keys = demoNode.keys.drop (demoNode.keys.length / 2)
      ∧ topN.children = demoNode.children.drop (demoNode.keys.length / 2)
      ∧ joinNodes p1 botN topN 5 = some (p2, p1.nextTag)
      ∧ (nodeAt p2 p1.nextTag).map NodeObj.keys = some demoNode.keys
      ∧ (nodeAt p2 p1.nextTag).map NodeObj.children
          = some demoNode.children :=
  split_then_join_restores_node demoPool demoNode 4 5 demoPool_WF
    (by decide) (by decide) (by decide) (by decide) (by decide)

/-- C6: upgrading a persistable handle succeeds iff the block header at
its offset still carries the handle's id tag; on success the block's
strong count is incremented by one and nothing else changes; on mismatch
the call fails with `InvalidReference` and the pool is unchanged. -/
theorem upgrade_persisted_iff_tag_matches (p : Pool)
    (h : PersistedHandle) (e : SkipListEntry) (inner : ArcInner)
    (he : p.entries (h.arcInnerIndex - HEADER_SIZE) = some e)
    (hi : p.inners (h.arcInnerIndex - HEADER_SIZE) = some inner) :
    ∃ r, clone_persisted_to_arc p h = some r
      ∧ (r.2 = .ok () ↔ e.idTag = h.idTag)
      ∧ (e.idTag = h.idTag →
          r.1.bufferSize = p.bufferSize
          ∧ r.1.entries = p.entries
          ∧ r.1.lowestKnownFreeIndex = p.lowestKnownFreeIndex
          ∧ r.1.nextIdTag = p.nextIdTag
          ∧ (∀ x, x ≠ h.arcInnerIndex - HEADER_SIZE →
              r.1.inners x = p.inners x)
          ∧ r.1.inners (h.arcInnerIndex - HEADER_SIZE)
              = some { inner with strong := inner.strong + 1 })
      ∧ (e.idTag ≠ h.idTag →
          r.1 = p ∧ r.2 = .error "InvalidReference") := by
  by_cases htag : e.idTag = h.idTag
  · refine ⟨(setInner p (h.arcInnerIndex - HEADER_SIZE)
      { inner with strong := inner.strong + 1 }, .ok ()), ?_, ?_, ?_, ?_⟩
    · unfold clone_persisted_to_arc
      show (p.entries (h.arcInnerIndex - HEADER_SIZE)).bind _ = _
      rw [he]
      show (if e.idTag = h.idTag then _ else _) = _
      rw [if_pos htag]
      show (p.inners (h.arcInnerIndex - HEADER_SIZE)).bind _ = _
      rw [hi]
      rfl
    · simp [htag]
    · intro _
      refine ⟨rfl, rfl, rfl, rfl, ?_, ?_⟩
      · intro x hx
        show (if x = _ then _ else _) = _
        rw [if_neg hx]
      · show (if _ = _ then _ else _) = _
        rw [if_pos rfl]
    · intro hne
      exact absurd htag hne
  · refine ⟨(p, .error "InvalidReference"), ?_, ?_, ?_, ?_⟩
    · unfold clone_persisted_to_arc
      show (p.entries (h.arcInnerIndex - HEADER_SIZE)).bind _ = _
      rw [he]
      show (if e.idTag = h.idTag then _ else _) = _
      rw [if_neg htag]
      rfl
    · constructor
      · intro hcontra
        simp at hcontra
      · intro hcontra
        exact absurd hcontra htag
    · intro hcontra
      exact absurd hcontra htag
    · intro _
      exact ⟨rfl, rfl⟩

/-- Witness for C6: the live handle (72, 5) upgrades and bumps the strong
count from 2 to 3; the stale handle (72, 4) fails with
`InvalidReference` and leaves the pool unchanged. -/
theorem upgrade_persisted_iff_tag_matches_witness :
    (∃ r, clone_persisted_to_arc poolC6 ⟨72, 5⟩ = some r
      ∧ r.2 = .ok ()
      ∧ r.1.inners 48 = some ⟨3, 0, 13⟩
      ∧ r.1.entries = poolC6.entries)
    ∧ (∃ r, clone_persisted_to_arc poolC6 ⟨72, 4⟩ = some r
      ∧ r.1 = poolC6 ∧ r.2 = .error "InvalidReference") := by
  constructor
  · obtain ⟨r, hrun, hiff, hok, _⟩ :=
      upgrade_persisted_iff_tag_matches poolC6 ⟨72, 5⟩ ⟨0, 5, 120⟩
        ⟨2, 0, 13⟩ rfl rfl
    obtain ⟨_, hentries, _, _, _, hinner⟩ := hok rfl
    exact ⟨r, hrun, hiff.mpr rfl, hinner, hentries⟩
  · obtain ⟨r, hrun, _, _, hbad⟩ :=
      upgrade_persisted_iff_tag_matches poolC6 ⟨72, 4⟩ ⟨0, 5, 120⟩
        ⟨2, 0, 13⟩ rfl rfl
    obtain ⟨h1, h2⟩ := hbad (by decide)
    exact ⟨r, hrun, h1, h2⟩

theorem PoolShape.sorted {p : Pool} {offs : List Nat}
    (h : PoolShape p offs) : List.Pairwise (· < ·) offs :=
  List.chain'_iff_pairwise.mp (h.chain.imp (fun _ _ hab => hab.1))

theorem PoolShape.nodup {p : Pool} {offs : List Nat}
    (h : PoolShape p offs) : offs.Nodup :=
  h.sorted.imp Nat.ne_of_lt

theorem PoolShape.entryAt {p : Pool} {offs : List Nat}
    (h : PoolShape p offs) {o : Nat} (ho : o ∈ offs) :
    ∃ e, p.entries o = some e :=
  Option.isSome_iff_exists.mp ((h.domain o).mpr ho)

/-- A strictly increasing list of offsets below `N` has at most `N` elements. -/
theorem length_le_of_sorted_lt (offs : List Nat) (N : Nat)
    (hs : List.Pairwise (· < ·) offs) (hb : ∀ o ∈ offs, o < N) :
    offs.length ≤ N := by
  have hnd : offs.Nodup := hs.imp Nat.ne_of_lt
  have hsub : offs.toFinset ⊆ Finset.range N := by
    intro x hx
    rw [List.mem_toFinset] at hx
    rw [Finset.mem_range]
    exact hb x hx
  have := Finset.card_le_card hsub
  rw [List.toFinset_card_of_nodup hnd, Finset.card_range] at this
  exact this

theorem scan_step (p : Pool) (size fuel idx : Nat) (e : SkipListEntry)
    (he : p.entries idx = some e) :
    next_free_block_larger_than p size (fuel + 1) idx
      = if e.idTag = 0 ∧ size ≤ e.next - idx then some idx
        else if e.next ≠ BUFFER_END then
          next_free_block_larger_than p size fuel e.next
        else some BUFFER_END := by
  simp only [next_free_block_larger_than]
  rw [he]

/-- First-fit scan specification: started on a suffix of the block chain,
the scan returns the first block satisfying the fit condition, or
`BUFFER_END` after rejecting every block of the suffix. -/
theorem scan_spec (p : Pool) (size : Nat) :
    ∀ (R : List Nat) (start fuel : Nat),
    List.Chain' (Adj p.entries) (start :: R) →
    (∀ o ∈ start :: R, (p.entries o).isSome) →
    nextOf p.entries ((start :: R).getLast (List.cons_ne_nil start R))
      = some BUFFER_END →
    (∀ o ∈ start :: R, o < BUFFER_END) →
    (start :: R).length < fuel →
    (next_free_block_larger_than p size fuel start = some BUFFER_END
      ∧ ∀ o ∈ start :: R, ¬FitAt p.entries size o)
    ∨ (∃ L1 r R1, next_free_block_larger_than p size fuel start = some r
      ∧ start :: R = L1 ++ r :: R1
      ∧ FitAt p.entries size r
      ∧ ∀ o ∈ L1, ¬FitAt p.entries size o) := by
  intro R
  induction R with
  | nil =>
    intro start fuel hchain hsome hlast hbnd hfuel
    obtain ⟨e, he⟩ := Option.isSome_iff_exists.mp
      (hsome start (List.mem_cons_self _ _))
    have hnext : e.next = BUFFER_END := by
      simp only [List.getLast_singleton] at hlast
      unfold nextOf at hlast
      rw [he] at hlast
      simpa using hlast
    match fuel, hfuel with
    | fuel + 1, _ =>
      rw [scan_step p size fuel start e he]
      by_cases hfit : e.idTag = 0 ∧ size ≤ e.next - start
      · right
        refine ⟨[], start, [], ?_, rfl, ⟨e, he, hfit.1, hfit.2⟩, ?_⟩
        · rw [if_pos hfit]
        · intro o ho
          simp at ho
      · left
        rw [if_neg hfit, if_neg (by simpa using hnext)]
        refine ⟨rfl, ?_⟩
        intro o ho
        rw [List.mem_singleton] at ho
        subst ho
        rintro ⟨e', he', ht, hf⟩
        rw [he] at he'
        injection he' with he'
        subst he'
        exact hfit ⟨ht, hf⟩
  | cons o' R' ih =>
    intro start fuel hchain hsome hlast hbnd hfuel
    obtain ⟨e, he⟩ := Option.isSome_iff_exists.mp
      (hsome start (List.mem_cons_self _ _))
    have hadj : Adj p.entries start o' := (List.chain'_cons.mp hchain).1
    have hnext : e.next = o' := by
      obtain ⟨_, hn, _⟩ := hadj
      unfold nextOf at hn
      rw [he] at hn
      simpa using hn
    match fuel, hfuel with
    | fuel + 1, hfuel =>
      rw [scan_step p size fuel start e he]
      by_cases hfit : e.idTag = 0 ∧ size ≤ e.next - start
      · right
        refine ⟨[], start, o' :: R', ?_, rfl, ⟨e, he, hfit.1, hfit.2⟩, ?_⟩
        · rw [if_pos hfit]
        · intro o ho
          simp at ho
      · have ho'ne : o' ≠ BUFFER_END :=
          Nat.ne_of_lt (hbnd o' (List.mem_cons_of_mem _
            (List.mem_cons_self _ _)))
        rw [if_neg hfit, if_pos (by rw [hnext]; exact ho'ne), hnext]
        have hstartnofit : ¬FitAt p.entries size start := by
          rintro ⟨e', he', ht, hf⟩
          rw [he] at he'
          injection he' with he'
          subst he'
          exact hfit ⟨ht, hf⟩
        have hlast' : nextOf p.entries
            ((o' :: R').getLast (List.cons_ne_nil o' R'))
              = some BUFFER_END := by
          rw [show (o' :: R').getLast (List.cons_ne_nil o' R')
            = (start :: o' :: R').getLast (List.cons_ne_nil _ _) from
              (List.getLast_cons (List.cons_ne_nil o' R')).symm]
          exact hlast
        rcases ih o' fuel (List.chain'_cons.mp hchain).2
          (fun o ho => hsome o (List.mem_cons_of_mem _ ho)) hlast'
          (fun o ho => hbnd o (List.mem_cons_of_mem _ ho))
          (by simpa using Nat.lt_of_succ_lt_succ hfuel) with
          hend | hfound
        · left
          refine ⟨hend.1, ?_⟩
          intro o ho
          rcases List.mem_cons.mp ho with rfl | ho
          · exact hstartnofit
          · exact hend.2 o ho
        · obtain ⟨L1, r, R1, hrun, heq, hfitr, hnofit⟩ := hfound
          right
          refine ⟨start :: L1, r, R1, hrun, by rw [List.cons_append, heq],
            hfitr, ?_⟩
          intro o ho
          rcases List.mem_cons.mp ho with rfl | ho
          · exact hstartnofit
          · exact hnofit o ho

theorem entries_setEntry (p : Pool) (off : Nat) (e : SkipListEntry)
    (x : Nat) :
    (setEntry p off e).entries x = if x = off then some e else p.entries x :=
  rfl

theorem entries_removeEntry (p : Pool) (off x : Nat) :
    (removeEntry p off).entries x = if x = off then none else p.entries x :=
  rfl

theorem chain_adj_congr (E E2 : Nat → Option SkipListEntry) :
    ∀ (l : List Nat),
    (∀ o ∈ l, nextOf E2 o = nextOf E o) →
    (∀ o ∈ l, prevOf E2 o = prevOf E o) →
    List.Chain' (Adj E) l → List.Chain' (Adj E2) l
  | [], _, _, _ => List.chain'_nil
  | [_], _, _, _ => List.chain'_singleton _
  | a :: b :: l, hn, hp, h => by
    rw [List.chain'_cons] at h ⊢
    obtain ⟨⟨hab, habn, habp⟩, htail⟩ := h
    refine ⟨⟨hab, ?_, ?_⟩, ?_⟩
    · rw [hn a (List.mem_cons_self _ _)]; exact habn
    · rw [hp b (List.mem_cons_of_mem _ (List.mem_cons_self _ _))]
      exact habp
    · exact chain_adj_congr E E2 (b :: l)
        (fun o ho => hn o (List.mem_cons_of_mem _ ho))
        (fun o ho => hp o (List.mem_cons_of_mem _ ho)) htail

theorem chain_nbf_congr (E E2 : Nat → Option SkipListEntry) :
    ∀ (l : List Nat),
    (∀ o ∈ l, FreeAt E2 o → FreeAt E o) →
    List.Chain' (NotBothFree E) l → List.Chain' (NotBothFree E2) l
  | [], _, _ => List.chain'_nil
  | [_], _, _ => List.chain'_singleton _
  | a :: b :: l, hf, h => by
    rw [List.chain'_cons] at h ⊢
    refine ⟨?_, ?_⟩
    · intro ⟨h2a, h2b⟩
      exact h.1 ⟨hf a (List.mem_cons_self _ _) h2a,
        hf b (List.mem_cons_of_mem _ (List.mem_cons_self _ _)) h2b⟩
    · exact chain_nbf_congr E E2 (b :: l)
        (fun o ho => hf o (List.mem_cons_of_mem _ ho)) h.2

/-- Freeness only depends on the stored id tag. -/
theorem freeAt_congr_tag (E E2 : Nat → Option SkipListEntry) (o : Nat)
    (h : (E2 o).map SkipListEntry.idTag = (E o).map SkipListEntry.idTag) :
    FreeAt E2 o ↔ FreeAt E o := by
  constructor
  · rintro ⟨e, he, ht⟩
    rw [he] at h
    cases h2 : E o with
    | none => rw [h2] at h; simp at h
    | some e' =>
      rw [h2] at h
      simp only [Option.map_some'] at h
      injection h with h
      exact ⟨e', h2, by rw [← h]; exact ht⟩
  · rintro ⟨e, he, ht⟩
    rw [he] at h
    cases h2 : E2 o with
    | none => rw [h2] at h; simp at h
    | some e' =>
      rw [h2] at h
      simp only [Option.map_some'] at h
      injection h with h
      exact ⟨e', h2, by rw [h]; exact ht⟩

/-- Chain surgery for the split branch of `malloc_inner`: a fresh block
header at `nxt` is linked in between the adjacent members `r` and `f`. -/
theorem chain_insert_between (E E2 : Nat → Option SkipListEntry)
    (L R : List Nat) (r f nxt : Nat)
    (hchain : List.Chain' (Adj E) (L ++ r :: f :: R))
    (h1 : r < nxt) (h2 : nxt < f)
    (hrn : nextOf E2 r = some nxt) (hrp : prevOf E2 r = prevOf E r)
    (hfp : prevOf E2 f = some nxt) (hfn : nextOf E2 f = nextOf E f)
    (hnn : nextOf E2 nxt = some f) (hnp : prevOf E2 nxt = some r)
    (hother : ∀ o ∈ L ++ r :: f :: R, o ≠ r → o ≠ f →
      nextOf E2 o = nextOf E o ∧ prevOf E2 o = prevOf E o) :
    List.Chain' (Adj E2) (L ++ r :: nxt :: f :: R) := by
  have hsorted : List.Pairwise (· < ·) (L ++ r :: f :: R) :=
    List.chain'_iff_pairwise.mp (hchain.imp (fun _ _ hab => hab.1))
  have hLlt : ∀ o ∈ L, o < r := by
    intro o ho
    have := (List.pairwise_append.mp hsorted).2.2 o ho r
      (List.mem_cons_self _ _)
    exact this
  have hRgt : ∀ o ∈ R, f < o := by
    intro o ho
    have h3 := (List.pairwise_append.mp hsorted).2.1
    rw [List.pairwise_cons] at h3
    have h4 := h3.2
    rw [List.pairwise_cons] at h4
    exact h4.1 o ho
  obtain ⟨hL, hRest, hjunction⟩ := List.chain'_append.mp hchain
  rw [List.chain'_cons] at hRest
  obtain ⟨⟨hrf, _, _⟩, hfR⟩ := hRest
  apply List.chain'_append.mpr
  refine ⟨chain_adj_congr E E2 L ?_ ?_ hL, ?_, ?_⟩
  · intro o ho
    exact (hother o (List.mem_append_left _ ho)
      (by have := hLlt o ho; omega) (by have := hLlt o ho; omega)).1
  · intro o ho
    exact (hother o (List.mem_append_left _ ho)
      (by have := hLlt o ho; omega) (by have := hLlt o ho; omega)).2
  · rw [List.chain'_cons]
    refine ⟨⟨h1, hrn, hnp⟩, ?_⟩
    rw [List.chain'_cons]
    refine ⟨⟨h2, hnn, hfp⟩, ?_⟩
    rcases R with _ | ⟨hd, tl⟩
    · exact List.chain'_singleton _
    · rw [List.chain'_cons] at hfR ⊢
      obtain ⟨⟨hfh, hfhn, hfhp⟩, htl⟩ := hfR
      have hhd : hd ∈ hd :: tl := List.mem_cons_self _ _
      have hhdgt : f < hd := hRgt hd hhd
      refine ⟨⟨hfh, by rw [hfn]; exact hfhn, ?_⟩, ?_⟩
      · rw [(hother hd (List.mem_append_right _
          (by simp)) (by omega) (by omega)).2]
        exact hfhp
      · apply chain_adj_congr E E2
        · intro o ho
          have hogt : f < o := hRgt o ho
          exact (hother o (List.mem_append_right _
            (by simp [ho])) (by omega) (by omega)).1
        · intro o ho
          have hogt : f < o := hRgt o ho
          exact (hother o (List.mem_append_right _
            (by simp [ho])) (by omega) (by omega)).2
        · exact htl
  · intro x hx y hy
    have hxL : x ∈ L := List.mem_of_mem_getLast? hx
    have hxr : x < r := hLlt x hxL
    rw [List.head?_cons, Option.mem_some_iff] at hy
    subst hy
    have hjy := hjunction x hx r (by rw [List.head?_cons]; rfl)
    obtain ⟨hlt, hn, hp⟩ := hjy
    refine ⟨hlt, ?_, ?_⟩
    · rw [(hother x (List.mem_append_left _ hxL)
        (by omega) (by omega)).1]
      exact hn
    · rw [hrp]
      exact hp

/-- Chain surgery for the coalescing branches of `free_inner`: the block
`b` is spliced out, its predecessor `a` taking over its `next` link. -/
theorem chain_drop_middle (E E2 : Nat → Option SkipListEntry)
    (L R : List Nat) (a b : Nat)
    (hchain : List.Chain' (Adj E) (L ++ a :: b :: R))
    (han : nextOf E2 a = nextOf E b)
    (hap : prevOf E2 a = prevOf E a)
    (hL : ∀ o ∈ L, nextOf E2 o = nextOf E o ∧ prevOf E2 o = prevOf E o)
    (hRn : ∀ o ∈ R, nextOf E2 o = nextOf E o)
    (hRp : R = [] ∨ ∃ h t, R = h :: t ∧ prevOf E2 h = some a
      ∧ ∀ o ∈ t, prevOf E2 o = prevOf E o) :
    List.Chain' (Adj E2) (L ++ a :: R) := by
  obtain ⟨hLc, hRest, hjunction⟩ := List.chain'_append.mp hchain
  rw [List.chain'_cons] at hRest
  obtain ⟨⟨hab, _, _⟩, hbR⟩ := hRest
  apply List.chain'_append.mpr
  refine ⟨chain_adj_congr E E2 L (fun o ho => (hL o ho).1)
    (fun o ho => (hL o ho).2) hLc, ?_, ?_⟩
  · rcases hRp with rfl | ⟨h, t, rfl, hhp, htp⟩
    · exact List.chain'_singleton _
    · rw [List.chain'_cons] at hbR ⊢
      obtain ⟨⟨hbh, hbhn, _⟩, hhT⟩ := hbR
      refine ⟨⟨by omega, by rw [han]; exact hbhn, hhp⟩, ?_⟩
      rcases t with _ | ⟨h2, t2⟩
      · exact List.chain'_singleton _
      · rw [List.chain'_cons] at hhT ⊢
        obtain ⟨⟨hh2, hh2n, hh2p⟩, ht2⟩ := hhT
        refine ⟨⟨hh2, ?_, ?_⟩, ?_⟩
        · rw [hRn h (List.mem_cons_self _ _)]; exact hh2n
        · rw [htp h2 (List.mem_cons_self _ _)]; exact hh2p
        · apply chain_adj_congr E E2
          · intro o ho
            exact hRn o (List.mem_cons_of_mem _ ho)
          · intro o ho
            exact htp o ho
          · exact ht2
  · intro x hx y hy
    have hxL : x ∈ L := List.mem_of_mem_getLast? hx
    rw [List.head?_cons, Option.mem_some_iff] at hy
    subst hy
    obtain ⟨hlt, hn, hp⟩ := hjunction x hx a (by rw [List.head?_cons]; rfl)
    exact ⟨hlt, by rw [(hL x hxL).1]; exact hn, by rw [hap]; exact hp⟩

/-- The suffix of the block chain starting at a member offset, in the
form consumed by `scan_spec`. -/
theorem suffix_for_scan (p : Pool) (offs : List Nat)
    (hWF : PoolShape p offs)
    (o : Nat) (ho : o ∈ offs) :
    ∃ L R, offs = L ++ o :: R
      ∧ List.Chain' (Adj p.entries) (o :: R)
      ∧ (∀ x ∈ o :: R, (p.entries x).isSome)
      ∧ nextOf p.entries ((o :: R).getLast (List.cons_ne_nil o R))
          = some BUFFER_END
      ∧ (∀ x ∈ o :: R, x < BUFFER_END)
      ∧ (o :: R).length < p.bufferSize + 1
      ∧ (∀ a ∈ L, a < o) := by
  obtain ⟨L, R, rfl⟩ := List.append_of_mem ho
  have hmemsub : ∀ x ∈ o :: R, x ∈ L ++ o :: R :=
    fun x hx => List.mem_append_right _ hx
  refine ⟨L, R, rfl, ?_, ?_, ?_, ?_, ?_, ?_⟩
  · exact (List.chain'_append.mp hWF.chain).2.1
  · intro x hx
    exact (hWF.domain x).mpr (hmemsub x hx)
  · have hlast : (o :: R).getLast (List.cons_ne_nil o R)
        = p.bufferSize - PAGE_SIZE := by
      have h1 : (L ++ o :: R).getLast? = (o :: R).getLast? :=
        List.getLast?_append_of_ne_nil L (List.cons_ne_nil o R)
      rw [hWF.lastSent] at h1
      rw [List.getLast?_eq_getLast_of_ne_nil (List.cons_ne_nil o R)] at h1
      exact (Option.some.inj h1).symm
    rw [hlast]
    exact hWF.sentNext
  · intro x hx
    have := hWF.bounded x (hmemsub x hx)
    have := hWF.sizeUB
    omega
  · have h1 : (L ++ o :: R).length ≤ p.bufferSize :=
      length_le_of_sorted_lt _ _ hWF.sorted hWF.bounded
    rw [List.length_append] at h1
    omega
  · intro a ha
    exact (List.pairwise_append.mp hWF.sorted).2.2 a ha o
      (List.mem_cons_self _ _)

theorem fitAt_zero_iff (E : Nat → Option SkipListEntry) (o : Nat) :
    FitAt E 0 o ↔ FreeAt E o := by
  constructor
  · rintro ⟨e, he, ht, _⟩
    exact ⟨e, he, ht⟩
  · rintro ⟨e, he, ht⟩
    exact ⟨e, he, ht, Nat.zero_le _⟩

/-- The hint rescan in `malloc_inner`: starting from an offset below
every free block, the size-0 scan returns either the least free block or
`BUFFER_END` when no free block remains. -/
theorem rescan_lowest (p : Pool) (offs : List Nat)
    (hsh : PoolShape p offs) (r : Nat) (hr : r ∈ offs)
    (hbelow : ∀ o ∈ offs, FreeAt p.entries o → r ≤ o) :
    ∃ idx, next_free_block_larger_than p 0 (p.bufferSize + 1) r = some idx
      ∧ (∀ o ∈ offs, FreeAt p.entries o → idx ≤ o)
      ∧ (idx ∈ offs
          ∨ (idx = BUFFER_END ∧ ∀ o ∈ offs, ¬FreeAt p.entries o)) := by
  obtain ⟨L, R, hoffs, hchain, hsome, hlast, hbnd, hlen, hLlt⟩ :=
    suffix_for_scan p offs hsh r hr
  have hLnotfree : ∀ o ∈ L, ¬FreeAt p.entries o := by
    intro o ho hfree
    have h1 := hbelow o (by rw [hoffs]; exact List.mem_append_left _ ho) hfree
    have h2 := hLlt o ho
    omega
  rcases scan_spec p 0 R r (p.bufferSize + 1) hchain hsome hlast hbnd hlen
    with ⟨hrun, hnofit⟩ | ⟨L1, idx, R1, hrun, heq, hfit, hnofit⟩
  · refine ⟨BUFFER_END, hrun, ?_, Or.inr ⟨rfl, ?_⟩⟩
    · intro o ho hfree
      exfalso
      rw [hoffs] at ho
      rcases List.mem_append.mp ho with h | h
      · exact hLnotfree o h hfree
      · exact hnofit o h ((fitAt_zero_iff _ _).mpr hfree)
    · intro o ho hfree
      rw [hoffs] at ho
      rcases List.mem_append.mp ho with h | h
      · exact hLnotfree o h hfree
      · exact hnofit o h ((fitAt_zero_iff _ _).mpr hfree)
  · have hidxmem : idx ∈ offs := by
      rw [hoffs, heq]
      exact List.mem_append_right _ (by
        rw [List.mem_append]
        right
        exact List.mem_cons_self _ _)
    refine ⟨idx, hrun, ?_, Or.inl hidxmem⟩
    intro o ho hfree
    rw [hoffs] at ho
    rcases List.mem_append.mp ho with h | h
    · exact absurd hfree (hLnotfree o h)
    · rw [heq] at h
      rcases List.mem_append.mp h with h2 | h2
      · exact absurd ((fitAt_zero_iff _ _).mpr hfree) (hnofit o h2)
      · -- o sits at or after idx in the sorted suffix
        have hsorted : List.Pairwise (· < ·) (L1 ++ idx :: R1) := by
          have := hsh.sorted
          rw [hoffs, heq] at this
          exact (List.pairwise_append.mp this).2.1
        rcases List.mem_cons.mp h2 with rfl | h3
        · exact le_refl _
        · have := (List.pairwise_append.mp hsorted).2.1
          rw [List.pairwise_cons] at this
          exact Nat.le_of_lt (this.1 o h3)

theorem scan_step_none (p : Pool) (size fuel idx : Nat)
    (h : p.entries idx = none) :
    next_free_block_larger_than p size (fuel + 1) idx = none := by
  simp only [next_free_block_larger_than]
  rw [h]

theorem mem_le_of_getLast_sorted (l : List Nat) (s : Nat)
    (hp : List.Pairwise (· < ·) l) (hs : l.getLast? = some s) :
    ∀ o ∈ l, o ≤ s := by
  induction l with
  | nil => intro o ho; simp at ho
  | cons hd tl ih =>
    intro o ho
    rcases tl with _ | ⟨h2, t2⟩
    · simp at hs ho
      omega
    · rw [List.getLast?_cons_cons] at hs
      have hsmem : s ∈ h2 :: t2 :=
        List.mem_of_mem_getLast? (by rw [hs]; rfl)
      rcases List.mem_cons.mp ho with rfl | ho2
      · have := (List.pairwise_cons.mp hp).1 s hsmem
        omega
      · exact ih (List.pairwise_cons.mp hp).2 hs o ho2

theorem PoolShape.transfer {p q : Pool} {offs : List Nat}
    (h : PoolShape p offs) (he : q.entries = p.entries)
    (hb : q.bufferSize = p.bufferSize) (ht : 1 ≤ q.nextIdTag) :
    PoolShape q offs := by
  refine ⟨?_, ?_, h.headZero, ?_, ?_, ?_, ?_, ?_, ?_, ?_, ?_, ht⟩
  · rw [hb]; exact h.sizeLB
  · rw [hb]; exact h.sizeUB
  · rw [hb]; exact h.lastSent
  · rw [he]; exact h.chain
  · rw [he]; exact h.domain
  · rw [he]; exact h.firstPrev
  · rw [he, hb]; exact h.sentNext
  · rw [he, hb]; exact h.sentBusy
  · rw [hb]; exact h.bounded
  · rw [he]; exact h.noAdjFree

theorem bindSomeOpt {α β : Type} (a : α) (f : α → Option β) :
    (some a >>= f) = f a := rfl

theorem malloc_maybe_split_exact (p1 : Pool) (fbi ni fi : Nat)
    (h : ¬ ni < fi) :
    malloc_maybe_split p1 fbi ni fi = some p1 := by
  unfold malloc_maybe_split
  rw [if_neg h]
  rfl

theorem malloc_maybe_split_split (p1 : Pool) (fbi ni fi : Nat)
    (fe ce : SkipListEntry) (pB : Pool) (h : ni < fi)
    (hfe : (setEntry p1 ni ⟨fbi, 0, fi⟩).entries fi = some fe)
    (hce : (setEntry (setEntry p1 ni ⟨fbi, 0, fi⟩) fi
      { fe with prev := ni }).entries fbi = some ce)
    (hpB : pB = setEntry (setEntry (setEntry p1 ni ⟨fbi, 0, fi⟩) fi
      { fe with prev := ni }) fbi { ce with next := ni }) :
    malloc_maybe_split p1 fbi ni fi = some pB := by
  subst hpB
  unfold malloc_maybe_split
  rw [if_pos h]
  simp only []
  rw [hfe, bindSomeOpt, hce, bindSomeOpt]
  rfl

theorem malloc_fix_hint_keep (p p2 : Pool) (fbi : Nat)
    (h : ¬ fbi = p.lowestKnownFreeIndex) :
    malloc_fix_hint p p2 fbi = some p2 := by
  unfold malloc_fix_hint
  rw [if_neg h]
  rfl

theorem malloc_fix_hint_rescan (p p2 : Pool) (fbi idx : Nat)
    (h : fbi = p.lowestKnownFreeIndex)
    (hscan : next_free_block_larger_than p2 0 (p2.bufferSize + 1) fbi
      = some idx) :
    malloc_fix_hint p p2 fbi
      = some { p2 with lowestKnownFreeIndex := idx } := by
  unfold malloc_fix_hint
  rw [if_pos h]
  rw [hscan, bindSomeOpt]
  rfl

/-- Stepping lemma: once the scan has found a block `r ≠ BUFFER_END`
whose header passes the size assertion, `malloc_inner` is the claimed
block (tagged, counter advanced) fed through the split and hint phases
and returned with its object header initialised. -/
theorem malloc_inner_found (p : Pool) (size r : Nat) (er : SkipListEntry)
    (pA : Pool)
    (hpA : pA = { setEntry p r { er with idTag := p.nextIdTag }
      with nextIdTag := p.nextIdTag + 1 })
    (hrun : next_free_block_larger_than p (byte_align size + OVERHEAD)
      (p.bufferSize + 1) p.lowestKnownFreeIndex = some r)
    (hrne : ¬ r = BUFFER_END)
    (hEr : p.entries r = some er)
    (hassert : ¬ er.next < r + (byte_align size + OVERHEAD)) :
    malloc_inner p size =
      (malloc_maybe_split pA r (r + (byte_align size + OVERHEAD))
          er.next).bind fun p2 =>
        (malloc_fix_hint p p2 r).bind fun p3 =>
          some (Except.ok (setInner p3 r ⟨0, 0, size⟩, r)) := by
  subst hpA
  unfold malloc_inner
  simp only []
  rw [hrun, bindSomeOpt, if_neg hrne, hEr, bindSomeOpt, if_neg hassert]
  rfl

/-- Case analysis of `malloc_inner` on a well-formed pool: the call
either hits the programming-error path (`none`: the scan starts at
`BUFFER_END`, which only happens when no free block exists at all), or
reports `OutOfMemory` with no free block large enough for the chunked
size, or succeeds and preserves well-formedness while advancing the
id-tag counter by exactly one. -/
theorem malloc_inner_cases (p : Pool) (offs : List Nat) (size : Nat)
    (hWF : PoolWF p offs) :
    malloc_inner p size = none
    ∨ (malloc_inner p size = some (.error "OutOfMemory")
        ∧ ∀ o ∈ offs, ¬FitAt p.entries (byte_align size + OVERHEAD) o)
    ∨ (∃ p' idx offs', malloc_inner p size = some (.ok (p', idx))
        ∧ PoolWF p' offs'
        ∧ p'.bufferSize = p.bufferSize
        ∧ p'.nextIdTag = p.nextIdTag + 1) := by
  set chunk := byte_align size + OVERHEAD with hchunkdef
  have hchunkpos : 0 < chunk := by
    rw [hchunkdef]
    show 0 < byte_align size + 48
    omega
  have hT := hWF.tagPos
  rcases hWF.lowestMem with hlowmem | ⟨hlowend, _⟩
  · -- the cached lowest index is a member: run the scan on its suffix
    obtain ⟨L, R, hoffs, hchainS, hsomeS, hlastS, hbndS, hlenS, hLlt⟩ :=
      suffix_for_scan p offs hWF.toPoolShape p.lowestKnownFreeIndex hlowmem
    rcases scan_spec p chunk R p.lowestKnownFreeIndex (p.bufferSize + 1)
        hchainS hsomeS hlastS hbndS hlenS with
      ⟨hrun, hnofit⟩ | ⟨L1, r, R1, hrun, hsplit1, hfitr, _⟩
    · -- scan exhausted the chain: OutOfMemory
      right; left
      constructor
      · unfold malloc_inner
        simp only []
        rw [← hchunkdef, hrun, bindSomeOpt, if_pos rfl]
        rfl
      · intro o ho hfito
        rw [hoffs] at ho
        rcases List.mem_append.mp ho with h | h
        · obtain ⟨e, he, ht, _⟩ := hfito
          have h1 := hWF.lowestLB o (by
            rw [hoffs]; exact List.mem_append_left _ h) ⟨e, he, ht⟩
          have h2 := hLlt o h
          omega
        · exact hnofit o h hfito
    · -- the scan found the first fitting free block r
      have hrmem : r ∈ offs := by
        rw [hoffs, hsplit1]
        exact List.mem_append_right _ (List.mem_append_right _
          (List.mem_cons_self _ _))
      obtain ⟨er, hEr, hertag, herfit⟩ := hfitr
      have hrne : ¬ r = BUFFER_END := by
        have h1 := hWF.bounded r hrmem
        have h2 := hWF.sizeUB
        omega
      have hrlow : p.lowestKnownFreeIndex ≤ r := by
        have hsortsuf : List.Pairwise (· < ·)
            (p.lowestKnownFreeIndex :: R) := by
          have h1 := hWF.sorted
          rw [hoffs] at h1
          exact (List.pairwise_append.mp h1).2.1
        have hrin : r ∈ p.lowestKnownFreeIndex :: R := by
          rw [hsplit1]
          exact List.mem_append_right _ (List.mem_cons_self _ _)
        rcases List.mem_cons.mp hrin with rfl | hrin2
        · exact le_refl _
        · exact Nat.le_of_lt ((List.pairwise_cons.mp hsortsuf).1 r hrin2)
      have hrnotsent : r ≠ p.bufferSize - PAGE_SIZE := by
        intro h
        exact hWF.sentBusy (h ▸ ⟨er, hEr, hertag⟩)
      obtain ⟨f, R3, rfl⟩ : ∃ f R3, R1 = f :: R3 := by
        cases R1 with
        | cons f R3 => exact ⟨f, R3, rfl⟩
        | nil =>
          exfalso
          have hoffs1 : offs = (L ++ L1) ++ [r] := by
            rw [hoffs, hsplit1, ← List.append_assoc]
          have hlast : offs.getLast? = some r := by
            rw [hoffs1,
              List.getLast?_append_of_ne_nil _ (List.cons_ne_nil r [])]
            rfl
          have hsent := hWF.lastSent
          rw [hlast] at hsent
          injection hsent with hsent
          exact hrnotsent hsent
      have hoffs2 : offs = (L ++ L1) ++ r :: f :: R3 := by
        rw [hoffs, hsplit1, ← List.append_assoc]
      have hchain2 : List.Chain' (Adj p.entries)
          ((L ++ L1) ++ r :: f :: R3) := by
        rw [← hoffs2]; exact hWF.chain
      have hadjrf : Adj p.entries r f :=
        (List.chain'_cons.mp (List.chain'_append.mp hchain2).2.1).1
      have hrltf : r < f := hadjrf.1
      have hernext : er.next = f := by
        have h1 := hadjrf.2.1
        unfold nextOf at h1
        rw [hEr] at h1
        simpa using h1
      have hfmem : f ∈ offs := by
        rw [hoffs2]
        exact List.mem_append_right _
          (List.mem_cons_of_mem _ (List.mem_cons_self _ _))
      obtain ⟨ef, hEf⟩ := hWF.entryAt hfmem
      have hrchunkf : r + chunk ≤ f := by
        have h1 := herfit
        rw [hernext] at h1
        omega
      have hnbf2 : List.Chain' (NotBothFree p.entries)
          ((L ++ L1) ++ r :: f :: R3) := by
        rw [← hoffs2]; exact hWF.noAdjFree
      have hfnotfree : ¬ FreeAt p.entries f := by
        intro hf
        exact (List.chain'_cons.mp (List.chain'_append.mp hnbf2).2.1).1
          ⟨⟨er, hEr, hertag⟩, hf⟩
      have hfltbuf : f < p.bufferSize := hWF.bounded f hfmem
      have hsorted0 : List.Pairwise (· < ·)
          ((L ++ L1) ++ r :: f :: R3) := by
        rw [← hoffs2]; exact hWF.sorted
      have hLLlt : ∀ o ∈ L ++ L1, o < r := fun o ho =>
        (List.pairwise_append.mp hsorted0).2.2 o ho r
          (List.mem_cons_self _ _)
      have hR3gt : ∀ o ∈ R3, f < o := by
        have h1 := (List.pairwise_append.mp hsorted0).2.1
        rw [List.pairwise_cons] at h1
        have h2 := h1.2
        rw [List.pairwise_cons] at h2
        exact h2.1
      have hmemoffs : ∀ x, x ∈ offs ↔
          (x ∈ L ++ L1 ∨ x = r ∨ x = f ∨ x ∈ R3) := by
        intro x
        rw [hoffs2, List.mem_append, List.mem_cons, List.mem_cons]
      have hassert : ¬ er.next < r + chunk := by
        rw [hernext]
        omega
      obtain ⟨pA, hpAdef⟩ : ∃ q : Pool,
          q = { setEntry p r { er with idTag := p.nextIdTag }
            with nextIdTag := p.nextIdTag + 1 } := ⟨_, rfl⟩
      have hfound := malloc_inner_found p size r er pA hpAdef
        (by rw [hchunkdef] at hrun; exact hrun) hrne hEr
        (by rw [hchunkdef] at hassert; exact hassert)
      rw [← hchunkdef, hernext] at hfound
      have hAbuf : pA.bufferSize = p.bufferSize := by
        rw [hpAdef]
        rfl
      have hAlow : pA.lowestKnownFreeIndex = p.lowestKnownFreeIndex := by
        rw [hpAdef]
        rfl
      have hAtag : pA.nextIdTag = p.nextIdTag + 1 := by rw [hpAdef]
      right; right
      by_cases hsp : r + chunk < f
      · -- split case: a fresh free header is inserted at r + chunk
        have hfner : f ≠ r := by omega
        have hfnenxt : f ≠ r + chunk := by omega
        have hrnef : r ≠ f := by omega
        have hrnenxt : r ≠ r + chunk := by omega
        have hnxtner : r + chunk ≠ r := by omega
        have hnxtnef : r + chunk ≠ f := by omega
        have hfe : (setEntry pA (r + chunk) ⟨r, 0, f⟩).entries f
            = some ef := by
          rw [entries_setEntry, if_neg hfnenxt, hpAdef]
          show (setEntry p r { er with idTag := p.nextIdTag }).entries f
            = some ef
          rw [entries_setEntry, if_neg hfner]
          exact hEf
        have hce : (setEntry (setEntry pA (r + chunk) ⟨r, 0, f⟩) f
            { ef with prev := r + chunk }).entries r
            = some { er with idTag := p.nextIdTag } := by
          rw [entries_setEntry, if_neg hrnef, entries_setEntry,
            if_neg hrnenxt, hpAdef]
          show (setEntry p r { er with idTag := p.nextIdTag }).entries r
            = some { er with idTag := p.nextIdTag }
          rw [entries_setEntry, if_pos rfl]
        obtain ⟨pB, hpBdef⟩ : ∃ q : Pool,
            q = setEntry (setEntry (setEntry pA (r + chunk) ⟨r, 0, f⟩) f
              { ef with prev := r + chunk }) r
              { { er with idTag := p.nextIdTag } with next := r + chunk }
          := ⟨_, rfl⟩
        have hsplit2 := malloc_maybe_split_split pA r (r + chunk) f ef
          { er with idTag := p.nextIdTag } pB hsp hfe hce hpBdef
        have hEB : ∀ x, pB.entries x =
            if x = r then some ⟨er.prev, p.nextIdTag, r + chunk⟩
            else if x = f then some { ef with prev := r + chunk }
            else if x = r + chunk then some ⟨r, 0, f⟩
            else p.entries x := by
          intro x
          rw [hpBdef, entries_setEntry]
          by_cases hxr : x = r
          · rw [if_pos hxr, if_pos hxr]
          · rw [if_neg hxr, if_neg hxr, entries_setEntry]
            by_cases hxf : x = f
            · rw [if_pos hxf, if_pos hxf]
            · rw [if_neg hxf, if_neg hxf, entries_setEntry]
              by_cases hxn : x = r + chunk
              · rw [if_pos hxn, if_pos hxn]
              · rw [if_neg hxn, if_neg hxn, hpAdef]
                show (setEntry p r
                  { er with idTag := p.nextIdTag }).entries x = p.entries x
                rw [entries_setEntry, if_neg hxr]
        have hBbuf : pB.bufferSize = p.bufferSize := by
          rw [hpBdef, hpAdef]
          rfl
        have hBlow : pB.lowestKnownFreeIndex = p.lowestKnownFreeIndex := by
          rw [hpBdef, hpAdef]
          rfl
        have hBtag : pB.nextIdTag = p.nextIdTag + 1 := by
          rw [hpBdef, hpAdef]
          rfl
        have hnextB : ∀ x, x ≠ r → x ≠ f → x ≠ r + chunk →
            nextOf pB.entries x = nextOf p.entries x := by
          intro x h1 h2 h3
          unfold nextOf
          rw [hEB x, if_neg h1, if_neg h2, if_neg h3]
        have hprevB : ∀ x, x ≠ r → x ≠ f → x ≠ r + chunk →
            prevOf pB.entries x = prevOf p.entries x := by
          intro x h1 h2 h3
          unfold prevOf
          rw [hEB x, if_neg h1, if_neg h2, if_neg h3]
        have hfreeB : ∀ x, x ≠ r → x ≠ f → x ≠ r + chunk →
            (FreeAt pB.entries x ↔ FreeAt p.entries x) := by
          intro x h1 h2 h3
          apply freeAt_congr_tag
          rw [hEB x, if_neg h1, if_neg h2, if_neg h3]
        have hnBr : nextOf pB.entries r = some (r + chunk) := by
          unfold nextOf
          rw [hEB r, if_pos rfl]
          rfl
        have hpBr : prevOf pB.entries r = prevOf p.entries r := by
          unfold prevOf
          rw [hEB r, if_pos rfl, hEr]
          rfl
        have hpBf : prevOf pB.entries f = some (r + chunk) := by
          unfold prevOf
          rw [hEB f, if_neg hfner, if_pos rfl]
          rfl
        have hnBf : nextOf pB.entries f = nextOf p.entries f := by
          unfold nextOf
          rw [hEB f, if_neg hfner, if_pos rfl, hEf]
          rfl
        have hnBn : nextOf pB.entries (r + chunk) = some f := by
          unfold nextOf
          rw [hEB (r + chunk), if_neg hnxtner, if_neg hnxtnef, if_pos rfl]
          rfl
        have hpBn : prevOf pB.entries (r + chunk) = some r := by
          unfold prevOf
          rw [hEB (r + chunk), if_neg hnxtner, if_neg hnxtnef, if_pos rfl]
          rfl
        have hnotfree2r : ¬ FreeAt pB.entries r := by
          rintro ⟨e, he, ht⟩
          rw [hEB r, if_pos rfl] at he
          injection he with he
          subst he
          have h0 : p.nextIdTag = 0 := ht
          omega
        have hfree2f : FreeAt pB.entries f → FreeAt p.entries f := by
          rintro ⟨e, he, ht⟩
          rw [hEB f, if_neg hfner, if_pos rfl] at he
          injection he with he
          subst he
          exact ⟨ef, hEf, ht⟩
        have hfree2 : ∀ o, FreeAt pB.entries o →
            o ≠ r ∧ (o = r + chunk ∨ FreeAt p.entries o) := by
          intro o hf
          by_cases h1 : o = r
          · exact absurd (h1 ▸ hf) hnotfree2r
          · refine ⟨h1, ?_⟩
            by_cases h3 : o = r + chunk
            · exact Or.inl h3
            · by_cases h2 : o = f
              · subst h2
                exact Or.inr (hfree2f hf)
              · exact Or.inr ((hfreeB o h1 h2 h3).mp hf)
        have hmemO2 : ∀ x,
            x ∈ (L ++ L1) ++ r :: (r + chunk) :: f :: R3 ↔
            (x ∈ L ++ L1 ∨ x = r ∨ x = r + chunk ∨ x = f ∨ x ∈ R3) := by
          intro x
          rw [List.mem_append, List.mem_cons, List.mem_cons, List.mem_cons]
        have hshapeB :
            PoolShape pB ((L ++ L1) ++ r :: (r + chunk) :: f :: R3) := by
          refine ⟨?_, ?_, ?_, ?_, ?_, ?_, ?_, ?_, ?_, ?_, ?_, ?_⟩
          · rw [hBbuf]; exact hWF.sizeLB
          · rw [hBbuf]; exact hWF.sizeUB
          · cases hLL : L ++ L1 with
            | nil =>
              have h1 := hWF.headZero
              rw [hoffs2, hLL, List.nil_append, List.head?_cons] at h1
              rw [List.nil_append, List.head?_cons]
              exact h1
            | cons a t =>
              have h1 := hWF.headZero
              rw [hoffs2, hLL, List.cons_append, List.head?_cons] at h1
              rw [List.cons_append, List.head?_cons]
              exact h1
          · have e1 : ((L ++ L1) ++ r :: (r + chunk) :: f :: R3).getLast?
                = (f :: R3).getLast? := by
              rw [show (L ++ L1) ++ r :: (r + chunk) :: f :: R3
                  = ((L ++ L1) ++ [r, r + chunk]) ++ f :: R3 by
                simp [List.append_assoc]]
              exact List.getLast?_append_of_ne_nil _
                (List.cons_ne_nil _ _)
            have e2 : offs.getLast? = (f :: R3).getLast? := by
              rw [hoffs2, show (L ++ L1) ++ r :: f :: R3
                  = ((L ++ L1) ++ [r]) ++ f :: R3 by
                simp [List.append_assoc]]
              exact List.getLast?_append_of_ne_nil _
                (List.cons_ne_nil _ _)
            rw [hBbuf, e1, ← e2]
            exact hWF.lastSent
          · refine chain_insert_between p.entries pB.entries (L ++ L1) R3
              r f (r + chunk) hchain2 (by omega) hsp hnBr hpBr hpBf hnBf
              hnBn hpBn ?_
            intro o ho h1 h2
            rw [List.mem_append, List.mem_cons, List.mem_cons] at ho
            have h3 : o ≠ r + chunk := by
              rcases ho with h | h | h | h
              · have := hLLlt o h; omega
              · exact absurd h h1
              · exact absurd h h2
              · have := hR3gt o h; omega
            exact ⟨hnextB o h1 h2 h3, hprevB o h1 h2 h3⟩
          · intro x
            rw [hEB x, hmemO2 x]
            by_cases h1 : x = r
            · subst h1
              rw [if_pos rfl]
              simp
            · rw [if_neg h1]
              by_cases h2 : x = f
              · subst h2
                rw [if_pos rfl]
                simp
              · rw [if_neg h2]
                by_cases h3 : x = r + chunk
                · subst h3
                  rw [if_pos rfl]
                  simp
                · rw [if_neg h3, hWF.domain x, hmemoffs x]
                  constructor
                  · rintro (h | h | h | h)
                    · exact Or.inl h
                    · exact Or.inr (Or.inl h)
                    · exact Or.inr (Or.inr (Or.inr (Or.inl h)))
                    · exact Or.inr (Or.inr (Or.inr (Or.inr h)))
                  · rintro (h | h | h | h | h)
                    · exact Or.inl h
                    · exact Or.inr (Or.inl h)
                    · exact absurd h h3
                    · exact Or.inr (Or.inr (Or.inl h))
                    · exact Or.inr (Or.inr (Or.inr h))
          · by_cases h0 : (0 : Nat) = r
            · rw [h0, hpBr, ← h0]
              exact hWF.firstPrev
            · have hn2 : (0 : Nat) ≠ f := by omega
              have hn3 : (0 : Nat) ≠ r + chunk := by omega
              rw [hprevB 0 h0 hn2 hn3]
              exact hWF.firstPrev
          · rw [hBbuf]
            by_cases hsf : p.bufferSize - PAGE_SIZE = f
            · rw [hsf, hnBf, ← hsf]
              exact hWF.sentNext
            · have hfle : f ≤ p.bufferSize - PAGE_SIZE :=
                mem_le_of_getLast_sorted offs _ hWF.sorted hWF.lastSent
                  f hfmem
              have hs1 : p.bufferSize - PAGE_SIZE ≠ r := fun h =>
                hrnotsent h.symm
              have hs3 : p.bufferSize - PAGE_SIZE ≠ r + chunk := by omega
              rw [hnextB _ hs1 hsf hs3]
              exact hWF.sentNext
          · rw [hBbuf]
            intro hf
            obtain ⟨hner, hc⟩ := hfree2 _ hf
            rcases hc with hc | hc
            · have hfle : f ≤ p.bufferSize - PAGE_SIZE :=
                mem_le_of_getLast_sorted offs _ hWF.sorted hWF.lastSent
                  f hfmem
              omega
            · exact hWF.sentBusy hc
          · intro x hx
            rw [hBbuf]
            rw [hmemO2 x] at hx
            rcases hx with h | h | h | h | h
            · exact hWF.bounded x ((hmemoffs x).mpr (Or.inl h))
            · subst h; exact hWF.bounded x hrmem
            · subst h; omega
            · subst h; exact hfltbuf
            · exact hWF.bounded x
                ((hmemoffs x).mpr (Or.inr (Or.inr (Or.inr h))))
          · apply List.chain'_append.mpr
            refine ⟨?_, ?_, ?_⟩
            · apply chain_nbf_congr p.entries pB.entries
              · intro o ho hf
                have h1 : o ≠ r := by have := hLLlt o ho; omega
                have h2 : o ≠ f := by have := hLLlt o ho; omega
                have h3 : o ≠ r + chunk := by have := hLLlt o ho; omega
                exact (hfreeB o h1 h2 h3).mp hf
              · exact (List.chain'_append.mp hnbf2).1
            · rw [List.chain'_cons]
              refine ⟨fun h => hnotfree2r h.1, ?_⟩
              rw [List.chain'_cons]
              refine ⟨fun h => hfnotfree (hfree2f h.2), ?_⟩
              apply chain_nbf_congr p.entries pB.entries
              · intro o ho hf
                rcases List.mem_cons.mp ho with rfl | ho2
                · exact hfree2f hf
                · have hgt := hR3gt o ho2
                  exact (hfreeB o (by omega) (by omega) (by omega)).mp hf
              · exact (List.chain'_cons.mp
                  (List.chain'_append.mp hnbf2).2.1).2
            · intro x hx y hy
              rw [List.head?_cons, Option.mem_some_iff] at hy
              subst hy
              exact fun h => hnotfree2r h.2
          · rw [hBtag]; omega
        have hlb2 : ∀ o, FreeAt pB.entries o →
            p.lowestKnownFreeIndex ≤ o := by
          intro o hf
          obtain ⟨h1, hc⟩ := hfree2 o hf
          rcases hc with rfl | hc
          · omega
          · have homem : o ∈ offs := (hWF.domain o).mp (by
              obtain ⟨e, he, _⟩ := hc
              rw [he]
              rfl)
            exact hWF.lowestLB o homem hc
        have hrmem2 : r ∈ (L ++ L1) ++ r :: (r + chunk) :: f :: R3 :=
          (hmemO2 r).mpr (Or.inr (Or.inl rfl))
        by_cases hlowq : r = p.lowestKnownFreeIndex
        · -- the claimed block was the cached hint: rescan
          obtain ⟨idx0, hrescan, hidxlb, hidxmem⟩ := rescan_lowest pB
            ((L ++ L1) ++ r :: (r + chunk) :: f :: R3) hshapeB r hrmem2
            (fun o _ hf => by have := hlb2 o hf; omega)
          have hhint := malloc_fix_hint_rescan p pB r idx0 hlowq hrescan
          refine ⟨setInner { pB with lowestKnownFreeIndex := idx0 } r
            ⟨0, 0, size⟩, r,
            (L ++ L1) ++ r :: (r + chunk) :: f :: R3, ?_, ?_, ?_, ?_⟩
          · rw [hfound, hsplit2, Option.some_bind, hhint, Option.some_bind]
          · refine ⟨hshapeB.transfer rfl rfl ?_, ?_, ?_⟩
            · rw [show (setInner { pB with lowestKnownFreeIndex := idx0 }
                r ⟨0, 0, size⟩).nextIdTag = pB.nextIdTag from rfl, hBtag]
              omega
            · intro o ho hf
              have hf' : FreeAt pB.entries o := hf
              show idx0 ≤ o
              exact hidxlb o ho hf'
            · exact hidxmem
          · rw [show (setInner { pB with lowestKnownFreeIndex := idx0 }
              r ⟨0, 0, size⟩).bufferSize = pB.bufferSize from rfl, hBbuf]
          · rw [show (setInner { pB with lowestKnownFreeIndex := idx0 }
              r ⟨0, 0, size⟩).nextIdTag = pB.nextIdTag from rfl, hBtag]
        · -- hint untouched
          have hhint := malloc_fix_hint_keep p pB r hlowq
          refine ⟨setInner pB r ⟨0, 0, size⟩, r,
            (L ++ L1) ++ r :: (r + chunk) :: f :: R3, ?_, ?_, ?_, ?_⟩
          · rw [hfound, hsplit2, Option.some_bind, hhint, Option.some_bind]
          · refine ⟨hshapeB.transfer rfl rfl ?_, ?_, ?_⟩
            · rw [show (setInner pB r ⟨0, 0, size⟩).nextIdTag
                = pB.nextIdTag from rfl, hBtag]
              omega
            · intro o ho hf
              have hf' : FreeAt pB.entries o := hf
              show pB.lowestKnownFreeIndex ≤ o
              rw [hBlow]
              exact hlb2 o hf'
            · left
              show pB.lowestKnownFreeIndex
                ∈ (L ++ L1) ++ r :: (r + chunk) :: f :: R3
              rw [hBlow, hmemO2]
              rcases (hmemoffs p.lowestKnownFreeIndex).mp hlowmem with
                h | h | h | h
              · exact Or.inl h
              · exact Or.inr (Or.inl h)
              · exact Or.inr (Or.inr (Or.inr (Or.inl h)))
              · exact Or.inr (Or.inr (Or.inr (Or.inr h)))
          · rw [show (setInner pB r ⟨0, 0, size⟩).bufferSize
              = pB.bufferSize from rfl, hBbuf]
          · rw [show (setInner pB r ⟨0, 0, size⟩).nextIdTag
              = pB.nextIdTag from rfl, hBtag]
      · -- exact-fit case: the block is taken whole
        have hexact : r + chunk = f := by omega
        have hsplitEq := malloc_maybe_split_exact pA r (r + chunk) f hsp
        have hEA : ∀ x, pA.entries x =
            if x = r then some { er with idTag := p.nextIdTag }
            else p.entries x := by
          intro x
          rw [hpAdef]
          show (setEntry p r { er with idTag := p.nextIdTag }).entries x
            = _
          rw [entries_setEntry]
        have hnextA : ∀ x, nextOf pA.entries x = nextOf p.entries x := by
          intro x
          unfold nextOf
          rw [hEA x]
          by_cases h1 : x = r
          · rw [if_pos h1, h1, hEr]
            rfl
          · rw [if_neg h1]
        have hprevA : ∀ x, prevOf pA.entries x = prevOf p.entries x := by
          intro x
          unfold prevOf
          rw [hEA x]
          by_cases h1 : x = r
          · rw [if_pos h1, h1, hEr]
            rfl
          · rw [if_neg h1]
        have hnotfree2r : ¬ FreeAt pA.entries r := by
          rintro ⟨e, he, ht⟩
          rw [hEA r, if_pos rfl] at he
          injection he with he
          subst he
          have h0 : p.nextIdTag = 0 := ht
          omega
        have hfree2 : ∀ o, FreeAt pA.entries o →
            o ≠ r ∧ FreeAt p.entries o := by
          intro o hf
          by_cases h1 : o = r
          · exact absurd (h1 ▸ hf) hnotfree2r
          · obtain ⟨e, he, ht⟩ := hf
            rw [hEA o, if_neg h1] at he
            exact ⟨h1, e, he, ht⟩
        have hshapeA : PoolShape pA offs := by
          refine ⟨?_, ?_, hWF.headZero, ?_, ?_, ?_, ?_, ?_, ?_, ?_, ?_, ?_⟩
          · rw [hAbuf]; exact hWF.sizeLB
          · rw [hAbuf]; exact hWF.sizeUB
          · rw [hAbuf]; exact hWF.lastSent
          · exact chain_adj_congr p.entries pA.entries offs
              (fun o _ => hnextA o) (fun o _ => hprevA o) hWF.chain
          · intro x
            rw [hEA x]
            by_cases h1 : x = r
            · subst h1
              rw [if_pos rfl]
              simp [hrmem]
            · rw [if_neg h1]
              exact hWF.domain x
          · rw [hprevA 0]
            exact hWF.firstPrev
          · rw [hAbuf, hnextA]
            exact hWF.sentNext
          · rw [hAbuf]
            intro hf
            exact hWF.sentBusy (hfree2 _ hf).2
          · intro x hx
            rw [hAbuf]
            exact hWF.bounded x hx
          · exact chain_nbf_congr p.entries pA.entries offs
              (fun o _ hf => (hfree2 o hf).2) hWF.noAdjFree
          · rw [hAtag]; omega
        have hlb2 : ∀ o, FreeAt pA.entries o →
            p.lowestKnownFreeIndex ≤ o := by
          intro o hf
          obtain ⟨h1, hc⟩ := hfree2 o hf
          have homem : o ∈ offs := (hWF.domain o).mp (by
            obtain ⟨e, he, _⟩ := hc
            rw [he]
            rfl)
          exact hWF.lowestLB o homem hc
        by_cases hlowq : r = p.lowestKnownFreeIndex
        · obtain ⟨idx0, hrescan, hidxlb, hidxmem⟩ := rescan_lowest pA
            offs hshapeA r hrmem
            (fun o _ hf => by have := hlb2 o hf; omega)
          have hhint := malloc_fix_hint_rescan p pA r idx0 hlowq hrescan
          refine ⟨setInner { pA with lowestKnownFreeIndex := idx0 } r
            ⟨0, 0, size⟩, r, offs, ?_, ?_, ?_, ?_⟩
          · rw [hfound, hsplitEq, Option.some_bind, hhint,
              Option.some_bind]
          · refine ⟨hshapeA.transfer rfl rfl ?_, ?_, ?_⟩
            · rw [show (setInner { pA with lowestKnownFreeIndex := idx0 }
                r ⟨0, 0, size⟩).nextIdTag = pA.nextIdTag from rfl, hAtag]
              omega
            · intro o ho hf
              have hf' : FreeAt pA.entries o := hf
              show idx0 ≤ o
              exact hidxlb o ho hf'
            · exact hidxmem
          · rw [show (setInner { pA with lowestKnownFreeIndex := idx0 }
              r ⟨0, 0, size⟩).bufferSize = pA.bufferSize from rfl, hAbuf]
          · rw [show (setInner { pA with lowestKnownFreeIndex := idx0 }
              r ⟨0, 0, size⟩).nextIdTag = pA.nextIdTag from rfl, hAtag]
        · have hhint := malloc_fix_hint_keep p pA r hlowq
          refine ⟨setInner pA r ⟨0, 0, size⟩, r, offs, ?_, ?_, ?_, ?_⟩
          · rw [hfound, hsplitEq, Option.some_bind, hhint,
              Option.some_bind]
          · refine ⟨hshapeA.transfer rfl rfl ?_, ?_, ?_⟩
            · rw [show (setInner pA r ⟨0, 0, size⟩).nextIdTag
                = pA.nextIdTag from rfl, hAtag]
              omega
            · intro o ho hf
              have hf' : FreeAt pA.entries o := hf
              show pA.lowestKnownFreeIndex ≤ o
              rw [hAlow]
              exact hlb2 o hf'
            · left
              show pA.lowestKnownFreeIndex ∈ offs
              rw [hAlow]
              exact hlowmem
          · rw [show (setInner pA r ⟨0, 0, size⟩).bufferSize
              = pA.bufferSize from rfl, hAbuf]
          · rw [show (setInner pA r ⟨0, 0, size⟩).nextIdTag
              = pA.nextIdTag from rfl, hAtag]
  · -- no free block at all: the cached hint is BUFFER_END and the next
    -- scan would read a header outside the buffer
    left
    have hnone : p.entries BUFFER_END = none := by
      cases h : p.entries BUFFER_END with
      | none => rfl
      | some e =>
        exfalso
        have h1 := (hWF.domain BUFFER_END).mp (by rw [h]; rfl)
        have h2 := hWF.bounded _ h1
        have h3 := hWF.sizeUB
        omega
    have hscan : next_free_block_larger_than p chunk (p.bufferSize + 1)
        p.lowestKnownFreeIndex = none := by
      rw [hlowend]
      exact scan_step_none p chunk p.bufferSize BUFFER_END hnone
    unfold malloc_inner
    simp only []
    rw [← hchunkdef, hscan]
    rfl

theorem free_inner_eq (p : Pool) (t : Nat) (h0 : SkipListEntry)
    (pZ : Pool)
    (hEt : p.entries t = some h0)
    (hpZ : pZ =
      if t < (setEntry p t { h0 with idTag := 0 }).lowestKnownFreeIndex
      then { setEntry p t { h0 with idTag := 0 }
        with lowestKnownFreeIndex := t }
      else setEntry p t { h0 with idTag := 0 }) :
    free_inner p t = (free_merge_next pZ t h0.next).bind
      fun p2 => free_merge_prev p2 t h0.prev := by
  subst hpZ
  unfold free_inner
  simp only []
  rw [hEt, bindSomeOpt]
  rfl

theorem free_merge_next_busy (p1 : Pool) (t ni : Nat)
    (hne : ni ≠ BUFFER_END) (nxt : SkipListEntry)
    (hnxt : p1.entries ni = some nxt) (htag : ¬ nxt.idTag = 0) :
    free_merge_next p1 t ni = some p1 := by
  unfold free_merge_next
  rw [if_pos hne]
  simp only []
  rw [hnxt, bindSomeOpt, if_neg htag]
  rfl

theorem free_merge_next_merge (p1 : Pool) (t ni : Nat)
    (hne : ni ≠ BUFFER_END) (nxt : SkipListEntry)
    (hnxt : p1.entries ni = some nxt) (htag : nxt.idTag = 0)
    (he : SkipListEntry) (hhe : p1.entries t = some he)
    (hnnne : nxt.next ≠ BUFFER_END) (nn : SkipListEntry)
    (hnn : (removeEntry (setEntry p1 t { he with next := nxt.next })
      ni).entries nxt.next = some nn)
    (pOut : Pool)
    (hpOut : pOut = setEntry
      (removeEntry (setEntry p1 t { he with next := nxt.next }) ni)
      nxt.next { nn with prev := t }) :
    free_merge_next p1 t ni = some pOut := by
  subst hpOut
  unfold free_merge_next
  rw [if_pos hne]
  simp only []
  rw [hnxt, bindSomeOpt, if_pos htag, hhe, bindSomeOpt, if_pos hnnne,
    hnn, bindSomeOpt]
  rfl

theorem free_merge_prev_end (p2 : Pool) (t pi : Nat)
    (h : ¬ pi ≠ BUFFER_END) :
    free_merge_prev p2 t pi = some p2 := by
  unfold free_merge_prev
  rw [if_neg h]
  rfl

theorem free_merge_prev_busy (p2 : Pool) (t pi : Nat)
    (hne : pi ≠ BUFFER_END) (prv : SkipListEntry)
    (hprv : p2.entries pi = some prv) (htag : ¬ prv.idTag = 0) :
    free_merge_prev p2 t pi = some p2 := by
  unfold free_merge_prev
  rw [if_pos hne]
  simp only []
  rw [hprv, bindSomeOpt, if_neg htag]
  rfl

theorem free_merge_prev_merge (p2 : Pool) (t pi : Nat)
    (hne : pi ≠ BUFFER_END) (prv : SkipListEntry)
    (hprv : p2.entries pi = some prv) (htag : prv.idTag = 0)
    (he : SkipListEntry) (hhe : p2.entries t = some he)
    (hn2ne : he.next ≠ BUFFER_END) (ne : SkipListEntry)
    (hnext : (removeEntry (setEntry p2 pi { prv with next := he.next })
      t).entries he.next = some ne)
    (pOut : Pool)
    (hpOut : pOut = setEntry
      (removeEntry (setEntry p2 pi { prv with next := he.next }) t)
      he.next { ne with prev := pi }) :
    free_merge_prev p2 t pi = some pOut := by
  subst hpOut
  unfold free_merge_prev
  rw [if_pos hne]
  simp only []
  rw [hprv, bindSomeOpt, if_pos htag, hhe, bindSomeOpt, if_pos hn2ne,
    hnext, bindSomeOpt]
  rfl

theorem PoolShape.weak {p : Pool} {offs : List Nat}
    (h : PoolShape p offs) : WeakShape p offs :=
  ⟨h.sizeLB, h.sizeUB, h.headZero, h.lastSent, h.chain, h.domain,
    h.firstPrev, h.sentNext, h.sentBusy, h.bounded, h.tagPos⟩

theorem WeakShape.strong {p : Pool} {offs : List Nat}
    (h : WeakShape p offs)
    (hn : List.Chain' (NotBothFree p.entries) offs) : PoolShape p offs :=
  ⟨h.sizeLB, h.sizeUB, h.headZero, h.lastSent, h.chain, h.domain,
    h.firstPrev, h.sentNext, h.sentBusy, h.bounded, hn, h.tagPos⟩

theorem WeakShape.sortedW {p : Pool} {offs : List Nat}
    (h : WeakShape p offs) : List.Pairwise (· < ·) offs :=
  List.chain'_iff_pairwise.mp (h.chain.imp (fun _ _ hab => hab.1))

theorem WeakShape.entryAtW {p : Pool} {offs : List Nat}
    (h : WeakShape p offs) {o : Nat} (ho : o ∈ offs) :
    ∃ e, p.entries o = some e :=
  Option.isSome_iff_exists.mp ((h.domain o).mpr ho)

/-- Rewriting a single member header without touching its links
preserves the weak shape (the new tag must keep the sentinel busy). -/
theorem shape_retag (q q' : Pool) (offs : List Nat) (t : Nat)
    (e0 e1 : SkipListEntry)
    (hsh : WeakShape q offs) (hEt : q.entries t = some e0)
    (hprev : e1.prev = e0.prev) (hnext : e1.next = e0.next)
    (hE : ∀ x, q'.entries x = if x = t then some e1 else q.entries x)
    (hbuf : q'.bufferSize = q.bufferSize)
    (hsentb : t = q.bufferSize - PAGE_SIZE → e1.idTag ≠ 0)
    (htag : 1 ≤ q'.nextIdTag) :
    WeakShape q' offs := by
  have htmem : t ∈ offs := (hsh.domain t).mp (by rw [hEt]; rfl)
  have hnextE : ∀ x, nextOf q'.entries x = nextOf q.entries x := by
    intro x
    unfold nextOf
    rw [hE x]
    by_cases h1 : x = t
    · rw [if_pos h1, h1, hEt]
      show some e1.next = some e0.next
      rw [hnext]
    · rw [if_neg h1]
  have hprevE : ∀ x, prevOf q'.entries x = prevOf q.entries x := by
    intro x
    unfold prevOf
    rw [hE x]
    by_cases h1 : x = t
    · rw [if_pos h1, h1, hEt]
      show some e1.prev = some e0.prev
      rw [hprev]
    · rw [if_neg h1]
  refine ⟨?_, ?_, hsh.headZero, ?_, ?_, ?_, ?_, ?_, ?_, ?_, htag⟩
  · rw [hbuf]; exact hsh.sizeLB
  · rw [hbuf]; exact hsh.sizeUB
  · rw [hbuf]; exact hsh.lastSent
  · exact chain_adj_congr q.entries q'.entries offs
      (fun o _ => hnextE o) (fun o _ => hprevE o) hsh.chain
  · intro x
    rw [hE x]
    by_cases h1 : x = t
    · subst h1
      rw [if_pos rfl]
      simp [htmem]
    · rw [if_neg h1]
      exact hsh.domain x
  · rw [hprevE 0]
    exact hsh.firstPrev
  · rw [hbuf, hnextE]
    exact hsh.sentNext
  · rw [hbuf]
    rintro ⟨e, he, ht2⟩
    rw [hE _] at he
    by_cases h1 : q.bufferSize - PAGE_SIZE = t
    · rw [if_pos h1] at he
      injection he with he
      subst he
      exact hsentb h1.symm ht2
    · rw [if_neg h1] at he
      exact hsh.sentBusy ⟨e, he, ht2⟩
  · intro o ho
    rw [hbuf]
    exact hsh.bounded o ho

/-- Rebuilding the no-adjacent-free chain around a freed block `c` whose
(possibly new) successor `d` is busy. -/
theorem nbf_mid (E E2 : Nat → Option SkipListEntry)
    (LM RM : List Nat) (c d : Nat)
    (hLM : List.Chain' (NotBothFree E) LM)
    (hjunc : ∀ x ∈ LM.getLast?, ¬ FreeAt E2 x ∨ ¬ FreeAt E2 c)
    (hLMcong : ∀ o ∈ LM, FreeAt E2 o → FreeAt E o)
    (hd : ¬ FreeAt E2 d)
    (hRM : List.Chain' (NotBothFree E) (d :: RM))
    (hRMcong : ∀ o ∈ d :: RM, FreeAt E2 o → FreeAt E o) :
    List.Chain' (NotBothFree E2) (LM ++ c :: d :: RM) := by
  apply List.chain'_append.mpr
  refine ⟨chain_nbf_congr E E2 LM hLMcong hLM, ?_, ?_⟩
  · rw [List.chain'_cons]
    refine ⟨fun h => hd h.2, ?_⟩
    exact chain_nbf_congr E E2 (d :: RM) hRMcong hRM
  · intro x hx y hy
    rw [List.head?_cons, Option.mem_some_iff] at hy
    subst hy
    rcases hjunc x hx with h | h
    · exact fun hh => h hh.1
    · exact fun hh => h hh.2

/-- The coalescing surgery shared by both merge phases of `free_inner`:
the middle member `v` is swallowed, `u` takes over its forward link and
`w` points back at `u`.  The weak shape is preserved on the list without
`v`. -/
theorem shape_merge (q q' : Pool) (LM RM : List Nat) (u v w : Nat)
    (eu ew : SkipListEntry)
    (hsh : WeakShape q (LM ++ u :: v :: w :: RM))
    (hEu : q.entries u = some eu)
    (hEw : q.entries w = some ew)
    (hq' : q' = setEntry
      (removeEntry (setEntry q u { eu with next := w }) v) w
      { ew with prev := u }) :
    WeakShape q' (LM ++ u :: w :: RM)
    ∧ (∀ x, q'.entries x =
        if x = w then some { ew with prev := u }
        else if x = v then none
        else if x = u then some { eu with next := w }
        else q.entries x)
    ∧ q'.bufferSize = q.bufferSize
    ∧ q'.lowestKnownFreeIndex = q.lowestKnownFreeIndex
    ∧ q'.nextIdTag = q.nextIdTag := by
  have hchain0 := hsh.chain
  have hmid : List.Chain' (Adj q.entries) (u :: v :: w :: RM) :=
    (List.chain'_append.mp hchain0).2.1
  have hadjuv : Adj q.entries u v := (List.chain'_cons.mp hmid).1
  have hadjvw : Adj q.entries v w :=
    (List.chain'_cons.mp (List.chain'_cons.mp hmid).2).1
  have huv : u < v := hadjuv.1
  have hvw : v < w := hadjvw.1
  have hsorted := hsh.sortedW
  have hLMlt : ∀ o ∈ LM, o < u := fun o ho =>
    (List.pairwise_append.mp hsorted).2.2 o ho u (List.mem_cons_self _ _)
  have hRMgt : ∀ o ∈ RM, w < o := by
    have h1 := (List.pairwise_append.mp hsorted).2.1
    rw [List.pairwise_cons] at h1
    have h2 := h1.2
    rw [List.pairwise_cons] at h2
    have h3 := h2.2
    rw [List.pairwise_cons] at h3
    exact h3.1
  have hunv : u ≠ v := by omega
  have hunw : u ≠ w := by omega
  have hvnw : v ≠ w := by omega
  have hE : ∀ x, q'.entries x =
      if x = w then some { ew with prev := u }
      else if x = v then none
      else if x = u then some { eu with next := w }
      else q.entries x := by
    intro x
    rw [hq', entries_setEntry]
    by_cases h1 : x = w
    · rw [if_pos h1, if_pos h1]
    · rw [if_neg h1, if_neg h1, entries_removeEntry]
      by_cases h2 : x = v
      · rw [if_pos h2, if_pos h2]
      · rw [if_neg h2, if_neg h2, entries_setEntry]
  have hbuf : q'.bufferSize = q.bufferSize := by rw [hq']; rfl
  have hlowq : q'.lowestKnownFreeIndex = q.lowestKnownFreeIndex := by
    rw [hq']; rfl
  have htagq : q'.nextIdTag = q.nextIdTag := by rw [hq']; rfl
  have hnextE : ∀ x, x ≠ u → x ≠ v → x ≠ w →
      nextOf q'.entries x = nextOf q.entries x := by
    intro x h1 h2 h3
    unfold nextOf
    rw [hE x, if_neg h3, if_neg h2, if_neg h1]
  have hprevE : ∀ x, x ≠ u → x ≠ v → x ≠ w →
      prevOf q'.entries x = prevOf q.entries x := by
    intro x h1 h2 h3
    unfold prevOf
    rw [hE x, if_neg h3, if_neg h2, if_neg h1]
  have hnu : nextOf q'.entries u = some w := by
    unfold nextOf
    rw [hE u, if_neg hunw, if_neg hunv, if_pos rfl]
    rfl
  have hpu : prevOf q'.entries u = prevOf q.entries u := by
    unfold prevOf
    rw [hE u, if_neg hunw, if_neg hunv, if_pos rfl, hEu]
    rfl
  have hnw : nextOf q'.entries w = nextOf q.entries w := by
    unfold nextOf
    rw [hE w, if_pos rfl, hEw]
    rfl
  have hpw : prevOf q'.entries w = some u := by
    unfold prevOf
    rw [hE w, if_pos rfl]
    rfl
  have hfreeE : ∀ x, x ≠ v →
      (FreeAt q'.entries x ↔ FreeAt q.entries x) := by
    intro x h2
    apply freeAt_congr_tag
    rw [hE x]
    by_cases h1 : x = w
    · rw [if_pos h1, h1, hEw]
      rfl
    · rw [if_neg h1, if_neg h2]
      by_cases h3 : x = u
      · rw [if_pos h3, h3, hEu]
        rfl
      · rw [if_neg h3]
  have hvnot : v ∉ LM ++ u :: w :: RM := by
    intro h
    rcases List.mem_append.mp h with h | h
    · have := hLMlt v h; omega
    · rcases List.mem_cons.mp h with h | h
      · omega
      · rcases List.mem_cons.mp h with h | h
        · omega
        · have := hRMgt v h; omega
  have hmemT : ∀ x, x ≠ v →
      (x ∈ LM ++ u :: w :: RM ↔ x ∈ LM ++ u :: v :: w :: RM) := by
    intro x hx
    rw [List.mem_append, List.mem_append, List.mem_cons, List.mem_cons,
      List.mem_cons, List.mem_cons, List.mem_cons]
    constructor
    · rintro (h | h | h | h)
      · exact Or.inl h
      · exact Or.inr (Or.inl h)
      · exact Or.inr (Or.inr (Or.inr (Or.inl h)))
      · exact Or.inr (Or.inr (Or.inr (Or.inr h)))
    · rintro (h | h | h | h | h)
      · exact Or.inl h
      · exact Or.inr (Or.inl h)
      · exact absurd h hx
      · exact Or.inr (Or.inr (Or.inl h))
      · exact Or.inr (Or.inr (Or.inr h))
  have hwmem1 : w ∈ LM ++ u :: w :: RM :=
    List.mem_append_right _
      (List.mem_cons_of_mem _ (List.mem_cons_self _ _))
  have humem1 : u ∈ LM ++ u :: w :: RM :=
    List.mem_append_right _ (List.mem_cons_self _ _)
  have hwles : w ≤ q.bufferSize - PAGE_SIZE :=
    mem_le_of_getLast_sorted _ _ hsorted hsh.lastSent w
      (List.mem_append_right _ (List.mem_cons_of_mem _
        (List.mem_cons_of_mem _ (List.mem_cons_self _ _))))
  have hsnu : q.bufferSize - PAGE_SIZE ≠ u := by omega
  have hsnv : q.bufferSize - PAGE_SIZE ≠ v := by omega
  refine ⟨⟨?_, ?_, ?_, ?_, ?_, ?_, ?_, ?_, ?_, ?_, ?_⟩,
    hE, hbuf, hlowq, htagq⟩
  · rw [hbuf]; exact hsh.sizeLB
  · rw [hbuf]; exact hsh.sizeUB
  · cases hLM2 : LM with
    | nil =>
      have h1 := hsh.headZero
      rw [hLM2, List.nil_append, List.head?_cons] at h1
      rw [List.nil_append, List.head?_cons]
      exact h1
    | cons a tl =>
      have h1 := hsh.headZero
      rw [hLM2, List.cons_append, List.head?_cons] at h1
      rw [List.cons_append, List.head?_cons]
      exact h1
  · have e1 : (LM ++ u :: w :: RM).getLast? = (w :: RM).getLast? := by
      rw [show LM ++ u :: w :: RM = (LM ++ [u]) ++ w :: RM by
        simp [List.append_assoc]]
      exact List.getLast?_append_of_ne_nil _ (List.cons_ne_nil _ _)
    have e2 : (LM ++ u :: v :: w :: RM).getLast?
        = (w :: RM).getLast? := by
      rw [show LM ++ u :: v :: w :: RM = (LM ++ [u, v]) ++ w :: RM by
        simp [List.append_assoc]]
      exact List.getLast?_append_of_ne_nil _ (List.cons_ne_nil _ _)
    rw [hbuf, e1, ← e2]
    exact hsh.lastSent
  · refine chain_drop_middle q.entries q'.entries LM (w :: RM) u v
      hchain0 ?_ hpu ?_ ?_ ?_
    · rw [hnu]
      exact hadjvw.2.1.symm
    · intro o ho
      have h1 := hLMlt o ho
      exact ⟨hnextE o (by omega) (by omega) (by omega),
        hprevE o (by omega) (by omega) (by omega)⟩
    · intro o ho
      rcases List.mem_cons.mp ho with rfl | ho2
      · exact hnw
      · have := hRMgt o ho2
        exact hnextE o (by omega) (by omega) (by omega)
    · right
      refine ⟨w, RM, rfl, hpw, ?_⟩
      intro o ho
      have := hRMgt o ho
      exact hprevE o (by omega) (by omega) (by omega)
  · intro x
    rw [hE x]
    by_cases h1 : x = w
    · subst h1
      rw [if_pos rfl]
      simp [hwmem1]
    · rw [if_neg h1]
      by_cases h2 : x = v
      · subst h2
        rw [if_pos rfl]
        simp [hvnot]
      · rw [if_neg h2]
        by_cases h3 : x = u
        · subst h3
          rw [if_pos rfl]
          simp [humem1]
        · rw [if_neg h3, hsh.domain x]
          exact (hmemT x h2).symm
  · by_cases h0 : (0 : Nat) = u
    · rw [h0, hpu, ← h0]
      exact hsh.firstPrev
    · have h2 : (0 : Nat) ≠ v := by omega
      have h3 : (0 : Nat) ≠ w := by omega
      rw [hprevE 0 h0 h2 h3]
      exact hsh.firstPrev
  · rw [hbuf]
    by_cases h1 : q.bufferSize - PAGE_SIZE = w
    · rw [h1, hnw, ← h1]
      exact hsh.sentNext
    · rw [hnextE _ hsnu hsnv h1]
      exact hsh.sentNext
  · rw [hbuf]
    intro hf
    exact hsh.sentBusy ((hfreeE _ hsnv).mp hf)
  · intro o ho
    rw [hbuf]
    rcases List.mem_append.mp ho with h | h
    · exact hsh.bounded o (List.mem_append_left _ h)
    · rcases List.mem_cons.mp h with rfl | h
      · exact hsh.bounded o
          (List.mem_append_right _ (List.mem_cons_self _ _))
      · rcases List.mem_cons.mp h with rfl | h
        · exact hsh.bounded o (List.mem_append_right _
            (List.mem_cons_of_mem _ (List.mem_cons_of_mem _
              (List.mem_cons_self _ _))))
        · exact hsh.bounded o (List.mem_append_right _
            (List.mem_cons_of_mem _ (List.mem_cons_of_mem _
              (List.mem_cons_of_mem _ h))))
  · rw [htagq]
    exact hsh.tagPos

/-- Shared tail of the `free_inner` preservation proof: after the tag
has been zeroed and the forward merge resolved (state `p2`, whose block
list is `LL ++ t :: s2 :: RM2` with `t` free and its current successor
`s2` busy), running the backward merge yields a well-formed pool. -/
theorem free_finish (p p2 : Pool) (LL RM2 : List Nat)
    (t s2 pv : Nat) (et2 : SkipListEntry)
    (hweak2 : WeakShape p2 (LL ++ t :: s2 :: RM2))
    (het2 : p2.entries t = some et2)
    (het2n : et2.next = s2)
    (h2low : ∀ x, x < t → p2.entries x = p.entries x)
    (hfree2sub : ∀ o, FreeAt p2.entries o → o = t ∨ FreeAt p.entries o)
    (h2s2busy : ¬ FreeAt p2.entries s2)
    (hlow2_le_t : p2.lowestKnownFreeIndex ≤ t)
    (hlow2_le : ∀ o, FreeAt p.entries o → p2.lowestKnownFreeIndex ≤ o)
    (hlowmem2 : p2.lowestKnownFreeIndex ∈ LL ++ t :: s2 :: RM2)
    (hbuf2 : p2.bufferSize = p.bufferSize)
    (htag2 : p2.nextIdTag = p.nextIdTag)
    (hnbfLL : List.Chain' (NotBothFree p.entries) LL)
    (hnbfRM : List.Chain' (NotBothFree p.entries) (s2 :: RM2))
    (hprevcase : (pv = BUFFER_END ∧ LL = [])
      ∨ ∃ LL2, LL = LL2 ++ [pv]) :
    ∃ p' offs', free_merge_prev p2 t pv = some p'
      ∧ PoolWF p' offs'
      ∧ p'.bufferSize = p.bufferSize
      ∧ p'.nextIdTag = p.nextIdTag := by
  have hsorted2 := hweak2.sortedW
  have hLLlt2 : ∀ o ∈ LL, o < t := fun o ho =>
    (List.pairwise_append.mp hsorted2).2.2 o ho t (List.mem_cons_self _ _)
  have hts2 : t < s2 := by
    have h1 := (List.pairwise_append.mp hsorted2).2.1
    rw [List.pairwise_cons] at h1
    exact h1.1 s2 (List.mem_cons_self _ _)
  have hRMgt2 : ∀ o ∈ RM2, s2 < o := by
    have h1 := (List.pairwise_append.mp hsorted2).2.1
    rw [List.pairwise_cons] at h1
    have h2 := h1.2
    rw [List.pairwise_cons] at h2
    exact h2.1
  have hcongLL : ∀ o ∈ LL, FreeAt p2.entries o → FreeAt p.entries o := by
    intro o ho hf
    rcases hfree2sub o hf with h | h
    · have := hLLlt2 o ho
      omega
    · exact h
  have hcongRM : ∀ o ∈ s2 :: RM2, FreeAt p2.entries o
      → FreeAt p.entries o := by
    intro o ho hf
    rcases hfree2sub o hf with h | h
    · exfalso
      rcases List.mem_cons.mp ho with rfl | ho2
      · omega
      · have := hRMgt2 o ho2
        omega
    · exact h
  have hLB2 : ∀ o, FreeAt p2.entries o
      → p2.lowestKnownFreeIndex ≤ o := by
    intro o hf
    rcases hfree2sub o hf with h | h
    · rw [h]
      exact hlow2_le_t
    · exact hlow2_le o h
  have hdone2 : (∀ x ∈ LL.getLast?,
        ¬ FreeAt p2.entries x ∨ ¬ FreeAt p2.entries t)
      → PoolWF p2 (LL ++ t :: s2 :: RM2) := by
    intro hjunc
    refine ⟨hweak2.strong ?_, ?_, Or.inl hlowmem2⟩
    · exact nbf_mid p.entries p2.entries LL RM2 t s2 hnbfLL hjunc
        hcongLL h2s2busy hnbfRM hcongRM
    · intro o _ hf
      exact hLB2 o hf
  rcases hprevcase with ⟨hpvEnd, hLLnil⟩ | ⟨LL2, hLLa⟩
  · refine ⟨p2, LL ++ t :: s2 :: RM2,
      free_merge_prev_end p2 t pv (by rw [hpvEnd]; exact fun hh => hh rfl),
      hdone2 ?_, hbuf2, htag2⟩
    intro x hx
    rw [hLLnil] at hx
    simp at hx
  · have hpvLL : pv ∈ LL := by
      rw [hLLa]
      exact List.mem_append_right _ (List.mem_cons_self _ _)
    have hpvlt : pv < t := hLLlt2 pv hpvLL
    have hpvmem2 : pv ∈ LL ++ t :: s2 :: RM2 := List.mem_append_left _ hpvLL
    have hpvne : pv ≠ BUFFER_END := by
      have h1 := hweak2.bounded pv hpvmem2
      have h2 := hweak2.sizeUB
      omega
    obtain ⟨ea2, hEa2⟩ := hweak2.entryAtW hpvmem2
    have hEaP : p.entries pv = some ea2 := by
      rw [← h2low pv hpvlt]
      exact hEa2
    have hgetlastLL : LL.getLast? = some pv := by
      rw [hLLa, List.getLast?_append_of_ne_nil _ (List.cons_ne_nil pv [])]
      rfl
    by_cases hafree : ea2.idTag = 0
    · -- the predecessor is free: this block is swallowed into it
      have hpvfreeP : FreeAt p.entries pv := ⟨ea2, hEaP, hafree⟩
      have hlist2 : LL ++ t :: s2 :: RM2 = LL2 ++ pv :: t :: s2 :: RM2 := by
        rw [hLLa]
        simp [List.append_assoc]
      have hweak2b : WeakShape p2 (LL2 ++ pv :: t :: s2 :: RM2) :=
        hlist2 ▸ hweak2
      have hs2mem : s2 ∈ LL ++ t :: s2 :: RM2 :=
        List.mem_append_right _
          (List.mem_cons_of_mem _ (List.mem_cons_self _ _))
      obtain ⟨es2, hEs2⟩ := hweak2.entryAtW hs2mem
      have hs2ne : s2 ≠ BUFFER_END := by
        have h1 := hweak2.bounded s2 hs2mem
        have h2 := hweak2.sizeUB
        omega
      have hn2ne : et2.next ≠ BUFFER_END := by
        rw [het2n]
        exact hs2ne
      have hs2net : s2 ≠ t := by omega
      have hs2nepv : s2 ≠ pv := by omega
      have hneR : (removeEntry (setEntry p2 pv { ea2 with next := et2.next })
          t).entries et2.next = some es2 := by
        rw [het2n, entries_removeEntry, if_neg hs2net, entries_setEntry,
          if_neg hs2nepv]
        exact hEs2
      obtain ⟨p3, hp3def⟩ : ∃ q : Pool, q = setEntry
          (removeEntry (setEntry p2 pv { ea2 with next := et2.next }) t)
          et2.next { es2 with prev := pv } := ⟨_, rfl⟩
      have hmp := free_merge_prev_merge p2 t pv hpvne ea2 hEa2 hafree
        et2 het2 hn2ne es2 hneR p3 hp3def
      rw [het2n] at hp3def
      obtain ⟨hweak3, hE3, hbuf3, hlow3, htag3⟩ := shape_merge p2 p3
        LL2 RM2 pv t s2 ea2 es2 hweak2b hEa2 hEs2 hp3def
      have hLL2lt : ∀ o ∈ LL2, o < pv := by
        have h1 : List.Pairwise (· < ·) LL :=
          (List.pairwise_append.mp hsorted2).1
        rw [hLLa] at h1
        exact fun o ho => (List.pairwise_append.mp h1).2.2 o ho pv
          (List.mem_cons_self _ _)
      have hfree3low : ∀ x, x < pv →
          (FreeAt p3.entries x ↔ FreeAt p.entries x) := by
        intro x hx
        have h1 : x ≠ s2 := by omega
        have h2 : x ≠ t := by omega
        have h3 : x ≠ pv := by omega
        apply freeAt_congr_tag
        rw [hE3 x, if_neg h1, if_neg h2, if_neg h3, h2low x (by omega)]
      have hfree3subP : ∀ o, FreeAt p3.entries o
          → FreeAt p.entries o := by
        intro o hf
        obtain ⟨e, he, htg⟩ := hf
        by_cases h1 : o = s2
        · subst h1
          rw [hE3 _, if_pos rfl] at he
          injection he with he
          subst he
          exact absurd ⟨es2, hEs2, htg⟩ h2s2busy
        · by_cases h2 : o = t
          · subst h2
            rw [hE3 _, if_neg h1, if_pos rfl] at he
            simp at he
          · by_cases h3 : o = pv
            · subst h3
              exact hpvfreeP
            · rw [hE3 o, if_neg h1, if_neg h2, if_neg h3] at he
              rcases hfree2sub o ⟨e, he, htg⟩ with h | h
              · exact absurd h h2
              · exact h
      have hnbfLL2 : List.Chain' (NotBothFree p.entries) LL2 := by
        have h1 := hnbfLL
        rw [hLLa] at h1
        exact (List.chain'_append.mp h1).1
      have hjuncOld : ∀ x ∈ LL2.getLast?, NotBothFree p.entries x pv := by
        have h1 := hnbfLL
        rw [hLLa] at h1
        have h2 := (List.chain'_append.mp h1).2.2
        intro x hx
        exact h2 x hx pv (by rw [List.head?_cons]; rfl)
      have hnbf3 : List.Chain' (NotBothFree p3.entries)
          (LL2 ++ pv :: s2 :: RM2) := by
        apply nbf_mid p.entries p3.entries LL2 RM2 pv s2 hnbfLL2
        · intro x hx
          left
          intro hf3
          have hxlt : x < pv := hLL2lt x (List.mem_of_mem_getLast? hx)
          exact hjuncOld x hx ⟨(hfree3low x hxlt).mp hf3, hpvfreeP⟩
        · intro o ho hf3
          exact (hfree3low o (hLL2lt o ho)).mp hf3
        · rintro ⟨e, he, htg⟩
          rw [hE3 s2, if_pos rfl] at he
          injection he with he
          subst he
          exact h2s2busy ⟨es2, hEs2, htg⟩
        · exact hnbfRM
        · intro o ho hf3
          exact hfree3subP o hf3
      refine ⟨p3, LL2 ++ pv :: s2 :: RM2, hmp,
        ⟨hweak3.strong hnbf3, ?_, ?_⟩,
        hbuf3.trans hbuf2, htag3.trans htag2⟩
      · intro o _ hf
        rw [hlow3]
        exact hlow2_le o (hfree3subP o hf)
      · left
        rw [hlow3]
        have hlb := hlow2_le pv hpvfreeP
        rcases List.mem_append.mp hlowmem2 with h | h
        · rw [hLLa] at h
          rcases List.mem_append.mp h with h | h
          · exact List.mem_append_left _ h
          · rw [List.mem_singleton] at h
            rw [h]
            exact List.mem_append_right _ (List.mem_cons_self _ _)
        · exfalso
          rcases List.mem_cons.mp h with h | h
          · omega
          · rcases List.mem_cons.mp h with h | h
            · omega
            · have := hRMgt2 _ h
              omega
    · -- the predecessor is allocated: nothing to merge
      refine ⟨p2, LL ++ t :: s2 :: RM2,
        free_merge_prev_busy p2 t pv hpvne ea2 hEa2 hafree,
        hdone2 ?_, hbuf2, htag2⟩
      intro x hx
      rw [hgetlastLL, Option.mem_some_iff] at hx
      subst hx
      left
      rintro ⟨e, he, htg⟩
      rw [hEa2] at he
      injection he with he
      subst he
      exact hafree htg

/-- Preservation for `free_inner`: freeing a currently allocated,
non-sentinel block of a well-formed pool succeeds and yields a
well-formed pool (with coalescing re-establishing the no-adjacent-free
invariant); the buffer size and the id-tag counter are untouched. -/
theorem free_inner_ok (p : Pool) (offs : List Nat) (t : Nat)
    (hWF : PoolWF p offs) (h0 : SkipListEntry)
    (hEt : p.entries t = some h0)
    (hsent : t ≠ p.bufferSize - PAGE_SIZE) :
    ∃ p' offs', free_inner p t = some p'
      ∧ PoolWF p' offs'
      ∧ p'.bufferSize = p.bufferSize
      ∧ p'.nextIdTag = p.nextIdTag := by
  have htmem : t ∈ offs := (hWF.domain t).mp (by rw [hEt]; rfl)
  obtain ⟨LL, RR, hoffs0⟩ := List.append_of_mem htmem
  obtain ⟨f, R3, rfl⟩ : ∃ f R3, RR = f :: R3 := by
    cases RR with
    | cons f R3 => exact ⟨f, R3, rfl⟩
    | nil =>
      exfalso
      have hlast : offs.getLast? = some t := by
        rw [hoffs0,
          List.getLast?_append_of_ne_nil _ (List.cons_ne_nil t [])]
        rfl
      have hs := hWF.lastSent
      rw [hlast] at hs
      injection hs with hs
      exact hsent hs
  have hchain2 : List.Chain' (Adj p.entries) (LL ++ t :: f :: R3) := by
    rw [← hoffs0]
    exact hWF.chain
  have hadjtf : Adj p.entries t f :=
    (List.chain'_cons.mp (List.chain'_append.mp hchain2).2.1).1
  have htltf : t < f := hadjtf.1
  have hnext0 : h0.next = f := by
    have h1 := hadjtf.2.1
    unfold nextOf at h1
    rw [hEt] at h1
    simpa using h1
  have hfmem : f ∈ offs := by
    rw [hoffs0]
    exact List.mem_append_right _
      (List.mem_cons_of_mem _ (List.mem_cons_self _ _))
  obtain ⟨ef, hEf⟩ := hWF.entryAt hfmem
  have hfne : f ≠ BUFFER_END := by
    have h1 := hWF.bounded f hfmem
    have h2 := hWF.sizeUB
    omega
  have hfnet : ¬ f = t := by omega
  have hnbf0 : List.Chain' (NotBothFree p.entries) (LL ++ t :: f :: R3) := by
    rw [← hoffs0]
    exact hWF.noAdjFree
  have hnbfLL : List.Chain' (NotBothFree p.entries) LL :=
    (List.chain'_append.mp hnbf0).1
  -- the tag-zeroed, hint-lowered intermediate state
  obtain ⟨pZ, hpZite⟩ : ∃ q : Pool, q =
      (if t < (setEntry p t { h0 with idTag := 0 }).lowestKnownFreeIndex
       then { setEntry p t { h0 with idTag := 0 }
         with lowestKnownFreeIndex := t }
       else setEntry p t { h0 with idTag := 0 }) := ⟨_, rfl⟩
  have hfeq := free_inner_eq p t h0 pZ hEt hpZite
  rw [hnext0] at hfeq
  have hZE : ∀ x, pZ.entries x =
      if x = t then some { h0 with idTag := 0 } else p.entries x := by
    intro x
    rw [hpZite]
    by_cases hlt : t < p.lowestKnownFreeIndex
    · rw [if_pos (show t < (setEntry p t
        { h0 with idTag := 0 }).lowestKnownFreeIndex from hlt)]
      show (setEntry p t { h0 with idTag := 0 }).entries x = _
      rw [entries_setEntry]
    · rw [if_neg (show ¬ t < (setEntry p t
        { h0 with idTag := 0 }).lowestKnownFreeIndex from hlt)]
      rw [entries_setEntry]
  have hZbuf : pZ.bufferSize = p.bufferSize := by
    rw [hpZite]
    split <;> rfl
  have hZtag : pZ.nextIdTag = p.nextIdTag := by
    rw [hpZite]
    split <;> rfl
  have hZlowval : (pZ.lowestKnownFreeIndex = t
        ∧ t ≤ p.lowestKnownFreeIndex)
      ∨ (pZ.lowestKnownFreeIndex = p.lowestKnownFreeIndex
        ∧ p.lowestKnownFreeIndex ≤ t) := by
    rw [hpZite]
    split
    · rename_i h
      have h2 : t < p.lowestKnownFreeIndex := h
      exact Or.inl ⟨rfl, by omega⟩
    · rename_i h
      have h2 : ¬ t < p.lowestKnownFreeIndex := h
      exact Or.inr ⟨rfl, by omega⟩
  have hZweak : WeakShape pZ offs :=
    shape_retag p pZ offs t h0 { h0 with idTag := 0 }
      hWF.toPoolShape.weak hEt rfl rfl hZE hZbuf
      (fun h => absurd h hsent) (by rw [hZtag]; exact hWF.tagPos)
  have hZfree : ∀ o, FreeAt pZ.entries o → o = t ∨ FreeAt p.entries o := by
    rintro o ⟨e, he, ht2⟩
    by_cases h1 : o = t
    · exact Or.inl h1
    · rw [hZE o, if_neg h1] at he
      exact Or.inr ⟨e, he, ht2⟩
  have hZlow_le_t : pZ.lowestKnownFreeIndex ≤ t := by
    rcases hZlowval with ⟨h, h2⟩ | ⟨h, h2⟩ <;> omega
  have hZlow_le : ∀ o, FreeAt p.entries o →
      pZ.lowestKnownFreeIndex ≤ o := by
    intro o hf
    have h1 := hWF.lowestLB o ((hWF.domain o).mp (by
      obtain ⟨e, he, _⟩ := hf
      rw [he]
      rfl)) hf
    rcases hZlowval with ⟨h, h2⟩ | ⟨h, h2⟩ <;> omega
  have het2Z : pZ.entries t = some { h0 with idTag := 0 } := by
    rw [hZE t, if_pos rfl]
  have hZreadf : pZ.entries f = some ef := by
    rw [hZE f, if_neg hfnet]
    exact hEf
  have hZlowmem : ∀ x, x < t → pZ.entries x = p.entries x := by
    intro x hx
    rw [hZE x, if_neg (by omega)]
  -- where the backward merge will look
  have hprevcase : (h0.prev = BUFFER_END ∧ LL = [])
      ∨ ∃ LL2, LL = LL2 ++ [h0.prev] := by
    rcases List.eq_nil_or_concat LL with h | ⟨LL2, a, hLLa⟩
    · left
      refine ⟨?_, h⟩
      have ht0 : t = 0 := by
        have h1 := hWF.headZero
        rw [hoffs0, h, List.nil_append, List.head?_cons] at h1
        exact Option.some.inj h1
      have h1 := hWF.firstPrev
      rw [← ht0] at h1
      unfold prevOf at h1
      rw [hEt] at h1
      simpa using h1
    · rw [List.concat_eq_append] at hLLa
      right
      have he2 : (LL2 ++ [a]) ++ t :: f :: R3 = LL2 ++ a :: t :: f :: R3 := by
        simp [List.append_assoc]
      have hchainA : List.Chain' (Adj p.entries)
          (LL2 ++ a :: t :: f :: R3) := by
        rw [← he2, ← hLLa, ← hoffs0]
        exact hWF.chain
      have hadjat : Adj p.entries a t :=
        (List.chain'_cons.mp (List.chain'_append.mp hchainA).2.1).1
      have hprevA : h0.prev = a := by
        have h1 := hadjat.2.2
        unfold prevOf at h1
        rw [hEt] at h1
        simpa using h1
      exact ⟨LL2, by rw [hprevA]; exact hLLa⟩
  by_cases hff : ef.idTag = 0
  · -- the successor is free: it is swallowed forward
    have hffP : FreeAt p.entries f := ⟨ef, hEf, hff⟩
    have hfnsent : f ≠ p.bufferSize - PAGE_SIZE := fun h =>
      hWF.sentBusy (h ▸ hffP)
    obtain ⟨g, R4, rfl⟩ : ∃ g R4, R3 = g :: R4 := by
      cases R3 with
      | cons g R4 => exact ⟨g, R4, rfl⟩
      | nil =>
        exfalso
        have hlast : offs.getLast? = some f := by
          rw [hoffs0,
            List.getLast?_append_of_ne_nil _ (List.cons_ne_nil t [f])]
          rfl
        have hs := hWF.lastSent
        rw [hlast] at hs
        injection hs with hs
        exact hfnsent hs
    have hadjfg : Adj p.entries f g :=
      (List.chain'_cons.mp
        (List.chain'_cons.mp (List.chain'_append.mp hchain2).2.1).2).1
    have hfltg : f < g := hadjfg.1
    have heg : ef.next = g := by
      have h1 := hadjfg.2.1
      unfold nextOf at h1
      rw [hEf] at h1
      simpa using h1
    have hgmem : g ∈ offs := by
      rw [hoffs0]
      exact List.mem_append_right _ (List.mem_cons_of_mem _
        (List.mem_cons_of_mem _ (List.mem_cons_self _ _)))
    obtain ⟨eg, hEg⟩ := hWF.entryAt hgmem
    have hgne : g ≠ BUFFER_END := by
      have h1 := hWF.bounded g hgmem
      have h2 := hWF.sizeUB
      omega
    have hgbusyP : ¬ FreeAt p.entries g := by
      intro h
      exact (List.chain'_cons.mp
        (List.chain'_cons.mp (List.chain'_append.mp hnbf0).2.1).2).1
        ⟨hffP, h⟩
    have hnnne : ef.next ≠ BUFFER_END := by
      rw [heg]
      exact hgne
    have hnnR : (removeEntry (setEntry pZ t
        { { h0 with idTag := 0 } with next := ef.next }) f).entries
        ef.next = some eg := by
      rw [heg, entries_removeEntry, if_neg (show ¬ g = f by omega),
        entries_setEntry, if_neg (show ¬ g = t by omega),
        hZE g, if_neg (show ¬ g = t by omega)]
      exact hEg
    obtain ⟨p2, hp2def⟩ : ∃ q : Pool, q = setEntry
        (removeEntry (setEntry pZ t
          { { h0 with idTag := 0 } with next := ef.next }) f)
        ef.next { eg with prev := t } := ⟨_, rfl⟩
    have hmn := free_merge_next_merge pZ t f hfne ef hZreadf hff
      { h0 with idTag := 0 } het2Z hnnne eg hnnR p2 hp2def
    rw [heg] at hp2def
    have hEgZ : pZ.entries g = some eg := by
      rw [hZE g, if_neg (show ¬ g = t by omega)]
      exact hEg
    have hshM : WeakShape pZ (LL ++ t :: f :: g :: R4) :=
      hoffs0 ▸ hZweak
    obtain ⟨hweak2, hE2, hbuf2m, hlow2m, htag2m⟩ := shape_merge pZ p2
      LL R4 t f g { h0 with idTag := 0 } eg hshM het2Z hEgZ hp2def
    have het2 : p2.entries t =
        some { { h0 with idTag := 0 } with next := g } := by
      rw [hE2 t, if_neg (show ¬ t = g by omega),
        if_neg (show ¬ t = f by omega), if_pos rfl]
    have h2low : ∀ x, x < t → p2.entries x = p.entries x := by
      intro x hx
      rw [hE2 x, if_neg (show ¬ x = g by omega),
        if_neg (show ¬ x = f by omega),
        if_neg (show ¬ x = t by omega)]
      exact hZlowmem x hx
    have hfree2sub : ∀ o, FreeAt p2.entries o →
        o = t ∨ FreeAt p.entries o := by
      rintro o ⟨e, he, h3⟩
      by_cases hog : o = g
      · subst hog
        rw [hE2 _, if_pos rfl] at he
        injection he with he
        subst he
        exact Or.inr ⟨eg, hEg, h3⟩
      · by_cases hof : o = f
        · subst hof
          rw [hE2 _, if_neg hog, if_pos rfl] at he
          simp at he
        · by_cases hot : o = t
          · exact Or.inl hot
          · rw [hE2 o, if_neg hog, if_neg hof, if_neg hot] at he
            exact hZfree o ⟨e, he, h3⟩
    have h2s2busy : ¬ FreeAt p2.entries g := by
      rintro ⟨e, he, h3⟩
      rw [hE2 g, if_pos rfl] at he
      injection he with he
      subst he
      exact hgbusyP ⟨eg, hEg, h3⟩
    have hlow2_le_tM : p2.lowestKnownFreeIndex ≤ t := by
      rw [hlow2m]
      exact hZlow_le_t
    have hlow2_leM : ∀ o, FreeAt p.entries o →
        p2.lowestKnownFreeIndex ≤ o := by
      intro o hf
      rw [hlow2m]
      exact hZlow_le o hf
    have hlowmem2 : p2.lowestKnownFreeIndex ∈ LL ++ t :: g :: R4 := by
      rw [hlow2m]
      rcases hZlowval with ⟨h, _⟩ | ⟨h, h2⟩
      · rw [h]
        exact List.mem_append_right _ (List.mem_cons_self _ _)
      · rw [h]
        rcases hWF.lowestMem with hm | ⟨hEnd, _⟩
        · rw [hoffs0] at hm
          rcases List.mem_append.mp hm with hm | hm
          · exact List.mem_append_left _ hm
          · rcases List.mem_cons.mp hm with hm | hm
            · rw [hm]
              exact List.mem_append_right _ (List.mem_cons_self _ _)
            · exfalso
              rcases List.mem_cons.mp hm with hm | hm
              · omega
              · rcases List.mem_cons.mp hm with hm | hm
                · omega
                · have h4 : List.Pairwise (· < ·) (t :: f :: g :: R4) := by
                    have h5 := hWF.sorted
                    rw [hoffs0] at h5
                    exact (List.pairwise_append.mp h5).2.1
                  rw [List.pairwise_cons] at h4
                  have h6 := h4.2
                  rw [List.pairwise_cons] at h6
                  have h7 := h6.2
                  rw [List.pairwise_cons] at h7
                  have := h7.1 _ hm
                  omega
        · exfalso
          have h1 := hWF.bounded t htmem
          have h3 := hWF.sizeUB
          omega
    have hnbfRM : List.Chain' (NotBothFree p.entries) (g :: R4) :=
      (List.chain'_cons.mp
        (List.chain'_cons.mp (List.chain'_append.mp hnbf0).2.1).2).2
    obtain ⟨p', offs', hmp, hPW, hb, ht2⟩ := free_finish p p2 LL R4
      t g h0.prev { { h0 with idTag := 0 } with next := g }
      hweak2 het2 rfl h2low hfree2sub h2s2busy hlow2_le_tM hlow2_leM
      hlowmem2 (hbuf2m.trans hZbuf) (htag2m.trans hZtag)
      hnbfLL hnbfRM hprevcase
    refine ⟨p', offs', ?_, hPW, hb, ht2⟩
    rw [hfeq, hmn, Option.some_bind]
    exact hmp
  · -- the successor is allocated: no forward merge
    have hmn := free_merge_next_busy pZ t f hfne ef hZreadf hff
    have hweak2 : WeakShape pZ (LL ++ t :: f :: R3) := hoffs0 ▸ hZweak
    have h2s2busy : ¬ FreeAt pZ.entries f := by
      rintro ⟨e, he, h3⟩
      rw [hZE f, if_neg hfnet] at he
      rw [hEf] at he
      injection he with he
      subst he
      exact hff h3
    have hlowmem2 : pZ.lowestKnownFreeIndex ∈ LL ++ t :: f :: R3 := by
      rcases hZlowval with ⟨h, _⟩ | ⟨h, h2⟩
      · rw [h]
        exact List.mem_append_right _ (List.mem_cons_self _ _)
      · rw [h]
        rcases hWF.lowestMem with hm | ⟨hEnd, _⟩
        · rw [← hoffs0]
          exact hm
        · exfalso
          have h1 := hWF.bounded t htmem
          have h3 := hWF.sizeUB
          omega
    have hnbfRM : List.Chain' (NotBothFree p.entries) (f :: R3) :=
      (List.chain'_cons.mp (List.chain'_append.mp hnbf0).2.1).2
    obtain ⟨p', offs', hmp, hPW, hb, ht2⟩ := free_finish p pZ LL R3
      t f h0.prev { h0 with idTag := 0 }
      hweak2 het2Z hnext0 hZlowmem hZfree h2s2busy hZlow_le_t hZlow_le
      hlowmem2 hZbuf hZtag hnbfLL hnbfRM hprevcase
    refine ⟨p', offs', ?_, hPW, hb, ht2⟩
    rw [hfeq, hmn, Option.some_bind]
    exact hmp

/-- `Pool::new` establishes the well-formedness invariant: the block
list is the free head block at 0 followed by the busy sentinel in the
last page. -/
theorem poolNew_WF (n : Nat) (h1 : PAGE_SIZE < n) (h2 : n < BUFFER_END) :
    PoolWF (poolNew n) [0, n - PAGE_SIZE] := by
  have hP : PAGE_SIZE = 4096 := rfl
  have hbuf : (poolNew n).bufferSize = n := rfl
  have hlow : (poolNew n).lowestKnownFreeIndex = 0 := rfl
  have htagv : (poolNew n).nextIdTag = 2 := rfl
  have hlast0 : ¬ (0 : Nat) = n - PAGE_SIZE := by omega
  have hE : (poolNew n).entries = fun x =>
      if x = n - PAGE_SIZE then some ⟨0, 1, BUFFER_END⟩
      else if x = 0 then some ⟨BUFFER_END, 0, n - PAGE_SIZE⟩
      else none := rfl
  have hE0 : (poolNew n).entries 0
      = some ⟨BUFFER_END, 0, n - PAGE_SIZE⟩ := by
    simp [hE, hlast0]
  have hEl : (poolNew n).entries (n - PAGE_SIZE)
      = some ⟨0, 1, BUFFER_END⟩ := by
    simp [hE]
  have hEo : ∀ x, ¬ x = 0 → ¬ x = n - PAGE_SIZE →
      (poolNew n).entries x = none := by
    intro x hx0 hxl
    simp [hE, hx0, hxl]
  refine ⟨⟨?_, ?_, ?_, ?_, ?_, ?_, ?_, ?_, ?_, ?_, ?_, ?_⟩, ?_, ?_⟩
  · rw [hbuf]; exact h1
  · rw [hbuf]; exact h2
  · rfl
  · rw [hbuf, List.getLast?_cons_cons, List.getLast?_singleton]
  · rw [List.chain'_cons]
    refine ⟨⟨by omega, ?_, ?_⟩, List.chain'_singleton _⟩
    · unfold nextOf
      rw [hE0]
      rfl
    · unfold prevOf
      rw [hEl]
      rfl
  · intro x
    by_cases hxl : x = n - PAGE_SIZE
    · rw [hxl, hEl]
      constructor
      · intro _
        exact List.mem_cons_of_mem _ (List.mem_cons_self _ _)
      · intro _
        rfl
    · by_cases hx0 : x = 0
      · rw [hx0, hE0]
        constructor
        · intro _
          exact List.mem_cons_self _ _
        · intro _
          rfl
      · rw [hEo x hx0 hxl]
        constructor
        · intro hcc
          exact Bool.noConfusion hcc
        · intro hm
          rcases List.mem_cons.mp hm with h | h
          · exact absurd h hx0
          · rcases List.mem_cons.mp h with h | h
            · exact absurd h hxl
            · exact absurd h (List.not_mem_nil x)
  · unfold prevOf
    rw [hE0]
    rfl
  · unfold nextOf
    rw [hbuf, hEl]
    rfl
  · rw [hbuf]
    rintro ⟨e, he, ht⟩
    rw [hEl] at he
    injection he with he
    subst he
    have h3 : (1 : Nat) = 0 := ht
    omega
  · intro o ho
    rw [hbuf]
    rcases List.mem_cons.mp ho with h | ho2
    · omega
    · rcases List.mem_cons.mp ho2 with h | ho3
      · omega
      · exact absurd ho3 (List.not_mem_nil o)
  · rw [List.chain'_cons]
    refine ⟨?_, List.chain'_singleton _⟩
    rintro ⟨_, ⟨e, he, ht⟩⟩
    rw [hEl] at he
    injection he with he
    subst he
    have h3 : (1 : Nat) = 0 := ht
    omega
  · rw [htagv]; omega
  · intro o ho hf
    rw [hlow]
    omega
  · left
    rw [hlow]
    exact List.mem_cons_self _ _

/-- Every reachable pool is well-formed on some block-offset list. -/
theorem reachable_WF (p : Pool) (h : Reachable p) :
    ∃ offs, PoolWF p offs := by
  induction h with
  | init n h1 h2 => exact ⟨[0, n - PAGE_SIZE], poolNew_WF n h1 h2⟩
  | malloc q p' size idx hp h ih =>
    obtain ⟨offs, hWF⟩ := ih
    rcases malloc_inner_cases q offs size hWF with
      hnone | ⟨herr, _⟩ | ⟨q2, i2, offs2, hok, hWF2, _, _⟩
    · exfalso
      have hc : pool_malloc q size = none := by
        unfold pool_malloc
        rw [hnone]
      rw [h] at hc
      simp at hc
    · exfalso
      have hc : pool_malloc q size = some (.error "OutOfMemory") := by
        unfold pool_malloc
        rw [herr]
      rw [h] at hc
      simp at hc
    · cases hinn : q2.inners i2 with
      | none =>
        exfalso
        have hc : pool_malloc q size = none := by
          unfold pool_malloc
          rw [hok]
          simp only []
          rw [hinn]
        rw [h] at hc
        simp at hc
      | some inner =>
        have hpm : pool_malloc q size = some (.ok
            (setInner q2 i2 { inner with strong := inner.strong + 1 },
              i2)) := by
          unfold pool_malloc
          rw [hok]
          simp only []
          rw [hinn]
        rw [h] at hpm
        injection hpm with hpm
        injection hpm with hpm
        injection hpm with hpm hidx
        subst hpm
        refine ⟨offs2, ⟨hWF2.toPoolShape.transfer rfl rfl hWF2.tagPos,
          ?_, ?_⟩⟩
        · intro o ho hf
          exact hWF2.lowestLB o ho hf
        · exact hWF2.lowestMem
  | free q p' idx e hp he htag hsent ih2 ih =>
    obtain ⟨offs, hWF⟩ := ih
    obtain ⟨p2, offs2, heq, hWF2, _, _⟩ :=
      free_inner_ok q offs idx hWF e he hsent
    rw [ih2] at heq
    injection heq with heq
    subst heq
    exact ⟨offs2, hWF2⟩

/-- On a shaped pool, a stored forward link that is not `BUFFER_END`
points at a block whose back link returns to the source. -/
theorem wf_next_prev (p : Pool) (offs : List Nat) (hWF : PoolShape p offs)
    (o : Nat) (e : SkipListEntry) (he : p.entries o = some e)
    (hne : e.next ≠ BUFFER_END) :
    prevOf p.entries e.next = some o := by
  have homem : o ∈ offs := (hWF.domain o).mp (by rw [he]; rfl)
  obtain ⟨L, R, hoffs⟩ := List.append_of_mem homem
  cases R with
  | nil =>
    exfalso
    have hlast : offs.getLast? = some o := by
      rw [hoffs, List.getLast?_append_of_ne_nil _ (List.cons_ne_nil o [])]
      rfl
    have hs := hWF.lastSent
    rw [hlast] at hs
    have hs2 := Option.some.inj hs
    have h2 := hWF.sentNext
    rw [← hs2] at h2
    unfold nextOf at h2
    rw [he] at h2
    exact hne (Option.some.inj h2)
  | cons f R2 =>
    have hchain2 : List.Chain' (Adj p.entries) (L ++ o :: f :: R2) := by
      rw [← hoffs]
      exact hWF.chain
    have hadj : Adj p.entries o f :=
      (List.chain'_cons.mp (List.chain'_append.mp hchain2).2.1).1
    have hn : e.next = f := by
      have h1 := hadj.2.1
      unfold nextOf at h1
      rw [he] at h1
      exact Option.some.inj h1
    rw [hn]
    exact hadj.2.2

/-- On a shaped pool, a stored back link that is not `BUFFER_END` points
at a block whose forward link returns to the source. -/
theorem wf_prev_next (p : Pool) (offs : List Nat) (hWF : PoolShape p offs)
    (o : Nat) (e : SkipListEntry) (he : p.entries o = some e)
    (hne : e.prev ≠ BUFFER_END) :
    nextOf p.entries e.prev = some o := by
  have homem : o ∈ offs := (hWF.domain o).mp (by rw [he]; rfl)
  obtain ⟨L, R, hoffs⟩ := List.append_of_mem homem
  rcases List.eq_nil_or_concat L with hnil | ⟨L2, a, hLa⟩
  · exfalso
    have h0 : o = 0 := by
      have h1 := hWF.headZero
      rw [hoffs, hnil, List.nil_append, List.head?_cons] at h1
      exact Option.some.inj h1
    have h1 := hWF.firstPrev
    rw [← h0] at h1
    unfold prevOf at h1
    rw [he] at h1
    exact hne (Option.some.inj h1)
  · rw [List.concat_eq_append] at hLa
    have he2 : (L2 ++ [a]) ++ o :: R = L2 ++ a :: o :: R := by
      simp [List.append_assoc]
    have hchain2 : List.Chain' (Adj p.entries) (L2 ++ a :: o :: R) := by
      rw [← he2, ← hLa, ← hoffs]
      exact hWF.chain
    have hadj : Adj p.entries a o :=
      (List.chain'_cons.mp (List.chain'_append.mp hchain2).2.1).1
    have hp : e.prev = a := by
      have h1 := hadj.2.2
      unfold prevOf at h1
      rw [he] at h1
      exact Option.some.inj h1
    rw [hp]
    exact hadj.2.1

/-- C7: after every sequence of malloc and free operations on a freshly
constructed pool, the surviving block headers form a doubly linked list:
the headers are exactly the members of an offset chain that starts at 0
and ends at the sentinel in the last page, every non-`BUFFER_END` `next`
link is answered by the target's `prev` link and vice versa. -/
theorem block_list_doubly_linked (p : Pool) (h : Reachable p) :
    ∃ offs : List Nat,
      (∀ x, (p.entries x).isSome ↔ x ∈ offs)
      ∧ offs.head? = some 0
      ∧ offs.getLast? = some (p.bufferSize - PAGE_SIZE)
      ∧ List.Chain' (Adj p.entries) offs
      ∧ (∀ o e, p.entries o = some e → e.next ≠ BUFFER_END →
          prevOf p.entries e.next = some o)
      ∧ (∀ o e, p.entries o = some e → e.prev ≠ BUFFER_END →
          nextOf p.entries e.prev = some o) := by
  obtain ⟨offs, hWF⟩ := reachable_WF p h
  exact ⟨offs, hWF.domain, hWF.headZero, hWF.lastSent, hWF.chain,
    fun o e he hne => wf_next_prev p offs hWF.toPoolShape o e he hne,
    fun o e he hne => wf_prev_next p offs hWF.toPoolShape o e he hne⟩

theorem block_list_doubly_linked_witness :
    ∃ offs : List Nat,
      (∀ x, ((poolNew 8192).entries x).isSome ↔ x ∈ offs)
      ∧ offs.head? = some 0
      ∧ offs.getLast? = some ((poolNew 8192).bufferSize - PAGE_SIZE)
      ∧ List.Chain' (Adj (poolNew 8192).entries) offs
      ∧ (∀ o e, (poolNew 8192).entries o = some e → e.next ≠ BUFFER_END →
          prevOf (poolNew 8192).entries e.next = some o)
      ∧ (∀ o e, (poolNew 8192).entries o = some e → e.prev ≠ BUFFER_END →
          nextOf (poolNew 8192).entries e.prev = some o) :=
  block_list_doubly_linked (poolNew 8192)
    (Reachable.init 8192 (by decide) (by decide))

/-- C8: in every pool reachable through mallocs and frees — in
particular after any `free` completes, whose coalescing branches are the
only thing maintaining this — no two adjacent blocks are both free. -/
theorem no_adjacent_free_blocks (p : Pool) (h : Reachable p) :
    ∀ o o', Adj p.entries o o' →
      ¬(FreeAt p.entries o ∧ FreeAt p.entries o') := by
  obtain ⟨offs, hWF⟩ := reachable_WF p h
  rintro o o' ⟨hlt, hno, hpo⟩ ⟨hfo, hfo2⟩
  obtain ⟨e, he, het⟩ := hfo
  obtain ⟨e2, he2, het2⟩ := hfo2
  have hom : o ∈ offs := (hWF.domain o).mp (by rw [he]; rfl)
  obtain ⟨L, R, hoffs⟩ := List.append_of_mem hom
  have hnext : e.next = o' := by
    unfold nextOf at hno
    rw [he] at hno
    exact Option.some.inj hno
  cases R with
  | nil =>
    have hlast : offs.getLast? = some o := by
      rw [hoffs, List.getLast?_append_of_ne_nil _ (List.cons_ne_nil o [])]
      rfl
    have hs := hWF.lastSent
    rw [hlast] at hs
    exact hWF.sentBusy ((Option.some.inj hs) ▸ (⟨e, he, het⟩ :
      FreeAt p.entries o))
  | cons f R2 =>
    have hchain2 : List.Chain' (Adj p.entries) (L ++ o :: f :: R2) := by
      rw [← hoffs]
      exact hWF.chain
    have hadj : Adj p.entries o f :=
      (List.chain'_cons.mp (List.chain'_append.mp hchain2).2.1).1
    have hof : o' = f := by
      have h1 := hadj.2.1
      unfold nextOf at h1
      rw [he] at h1
      rw [← hnext]
      exact Option.some.inj h1
    have hnbf2 : List.Chain' (NotBothFree p.entries) (L ++ o :: f :: R2) := by
      rw [← hoffs]
      exact hWF.noAdjFree
    refine (List.chain'_cons.mp (List.chain'_append.mp hnbf2).2.1).1
      ⟨⟨e, he, het⟩, ⟨e2, ?_, het2⟩⟩
    rw [← hof]
    exact he2

theorem no_adjacent_free_blocks_witness :
    ¬(FreeAt (poolNew 8192).entries 0 ∧ FreeAt (poolNew 8192).entries 4096) :=
  no_adjacent_free_blocks (poolNew 8192)
    (Reachable.init 8192 (by decide) (by decide)) 0 4096
    ⟨by decide, rfl, rfl⟩

/-- C10: in every reachable pool the cached `lowest_known_free_index` is
a lower bound on the offset of every free block header (so the first-fit
scan starting there visits every free block), and a malloc that reports
`OutOfMemory` does so only when no free block fits the chunked size. -/
theorem lowest_hint_sound_and_oom_honest (p : Pool) (h : Reachable p) :
    (∀ o, FreeAt p.entries o → p.lowestKnownFreeIndex ≤ o)
    ∧ ∀ size, malloc_inner p size = some (.error "OutOfMemory") →
        ∀ o, ¬ FitAt p.entries (byte_align size + OVERHEAD) o := by
  obtain ⟨offs, hWF⟩ := reachable_WF p h
  constructor
  · intro o hf
    exact hWF.lowestLB o ((hWF.domain o).mp (by
      obtain ⟨e, he, _⟩ := hf
      rw [he]
      rfl)) hf
  · intro size hoom o hfit
    rcases malloc_inner_cases p offs size hWF with
      hnone | ⟨_, hnofit⟩ | ⟨q, i, offs2, hok, _⟩
    · rw [hnone] at hoom
      simp at hoom
    · have hom : o ∈ offs := (hWF.domain o).mp (by
        obtain ⟨e, he, _, _⟩ := hfit
        rw [he]
        rfl)
      exact hnofit o hom hfit
    · rw [hok] at hoom
      simp at hoom

theorem lowest_hint_sound_and_oom_honest_witness :
    (∀ o, FreeAt (poolNew 8192).entries o →
      (poolNew 8192).lowestKnownFreeIndex ≤ o)
    ∧ ∀ size, malloc_inner (poolNew 8192) size
        = some (.error "OutOfMemory") →
        ∀ o, ¬ FitAt (poolNew 8192).entries
          (byte_align size + OVERHEAD) o :=
  lowest_hint_sound_and_oom_honest (poolNew 8192)
    (Reachable.init 8192 (by decide) (by decide))

theorem cmpBytes_self : ∀ a : Bytes, cmpBytes a a = .eq
  | [] => rfl
  | x :: xs => by
    show (if x < x then Ordering.lt else if x < x then Ordering.gt
      else cmpBytes xs xs) = .eq
    rw [if_neg (lt_irrefl x), if_neg (lt_irrefl x)]
    exact cmpBytes_self xs

theorem cmpBytes_eq_iff : ∀ a b : Bytes, cmpBytes a b = .eq ↔ a = b
  | [], [] => by simp [cmpBytes]
  | [], _ :: _ => by simp [cmpBytes]
  | _ :: _, [] => by simp [cmpBytes]
  | a :: as_, b :: bs => by
    show (if a < b then Ordering.lt else if b < a then Ordering.gt
      else cmpBytes as_ bs) = .eq ↔ _
    by_cases h1 : a < b
    · rw [if_pos h1]
      constructor
      · intro hc
        exact Ordering.noConfusion hc
      · intro hc
        exfalso
        injection hc with h2 h3
        omega
    · rw [if_neg h1]
      by_cases h2 : b < a
      · rw [if_pos h2]
        constructor
        · intro hc
          exact Ordering.noConfusion hc
        · intro hc
          exfalso
          injection hc with h3 h4
          omega
      · rw [if_neg h2]
        have hab : a = b := by omega
        subst hab
        rw [cmpBytes_eq_iff as_ bs]
        constructor
        · intro h3
          rw [h3]
        · intro h3
          injection h3

theorem cmpBytes_gt_iff : ∀ a b : Bytes, cmpBytes a b = .gt ↔ cmpBytes b a = .lt
  | [], [] => by simp [cmpBytes]
  | [], _ :: _ => by simp [cmpBytes]
  | _ :: _, [] => by simp [cmpBytes]
  | a :: as_, b :: bs => by
    show (if a < b then Ordering.lt else if b < a then Ordering.gt
        else cmpBytes as_ bs) = .gt
      ↔ (if b < a then Ordering.lt else if a < b then Ordering.gt
        else cmpBytes bs as_) = .lt
    by_cases h1 : a < b
    · rw [if_pos h1, if_neg (by omega : ¬ b < a), if_pos h1]
      constructor
      · intro hc
        exact Ordering.noConfusion hc
      · intro hc
        exact Ordering.noConfusion hc
    · by_cases h2 : b < a
      · rw [if_neg h1, if_pos h2, if_pos h2]
        constructor
        · intro _
          rfl
        · intro _
          rfl
      · rw [if_neg h1, if_neg h2, if_neg h2, if_neg h1]
        exact cmpBytes_gt_iff as_ bs

theorem cmpBytes_lt_trans :
    ∀ a b c : Bytes, cmpBytes a b = .lt → cmpBytes b c = .lt → cmpBytes a c = .lt
  | [], [], _ => by
    intro h1 _
    exact absurd h1 (by simp [cmpBytes])
  | [], _ :: _, [] => by
    intro _ h2
    exact absurd h2 (by simp [cmpBytes])
  | [], _ :: _, _ :: _ => by
    intro _ _
    rfl
  | _ :: _, [], _ => by
    intro h1 _
    exact absurd h1 (by simp [cmpBytes])
  | _ :: _, _ :: _, [] => by
    intro _ h2
    exact absurd h2 (by simp [cmpBytes])
  | a :: as_, b :: bs, c :: cs => by
    intro h1 h2
    rw [show cmpBytes (a :: as_) (b :: bs) = (if a < b then Ordering.lt
      else if b < a then Ordering.gt else cmpBytes as_ bs) from rfl] at h1
    rw [show cmpBytes (b :: bs) (c :: cs) = (if b < c then Ordering.lt
      else if c < b then Ordering.gt else cmpBytes bs cs) from rfl] at h2
    rw [show cmpBytes (a :: as_) (c :: cs) = (if a < c then Ordering.lt
      else if c < a then Ordering.gt else cmpBytes as_ cs) from rfl]
    split_ifs at h1 with hab hba
    · split_ifs at h2 with hbc hcb
      · rw [if_pos (by omega : a < c)]
      · rw [if_pos (by omega : a < c)]
    · have hab2 : a = b := by omega
      split_ifs at h2 with hbc hcb
      · rw [if_pos (by omega : a < c)]
      · rw [if_neg (by omega : ¬ a < c), if_neg (by omega : ¬ c < a)]
        exact cmpBytes_lt_trans as_ bs cs h1 h2

theorem cmpBytes_ne_gt (a b : Bytes) :
    cmpBytes a b ≠ .gt ↔ (cmpBytes a b = .lt ∨ a = b) := by
  cases h : cmpBytes a b with
  | lt => simp
  | eq => simp [(cmpBytes_eq_iff a b).mp h]
  | gt =>
    constructor
    · intro hc
      exact absurd rfl hc
    · intro hor
      rcases hor with hc | hab
      · exact Ordering.noConfusion hc
      · rw [hab, cmpBytes_self] at h
        exact Ordering.noConfusion h

theorem cmpBytes_le_lt_trans {a b c : Bytes} (h1 : cmpBytes a b ≠ .gt)
    (h2 : cmpBytes b c = .lt) : cmpBytes a c = .lt := by
  rcases (cmpBytes_ne_gt a b).mp h1 with h | h
  · exact cmpBytes_lt_trans a b c h h2
  · rw [h]
    exact h2

theorem cmpBytes_lt_le_trans {a b c : Bytes} (h1 : cmpBytes a b = .lt)
    (h2 : cmpBytes b c ≠ .gt) : cmpBytes a c = .lt := by
  rcases (cmpBytes_ne_gt b c).mp h2 with h | h
  · exact cmpBytes_lt_trans a b c h1 h
  · rw [← h]
    exact h1

theorem cmpBytes_le_trans {a b c : Bytes} (h1 : cmpBytes a b ≠ .gt)
    (h2 : cmpBytes b c ≠ .gt) : cmpBytes a c ≠ .gt := by
  rcases (cmpBytes_ne_gt a b).mp h1 with h | h
  · rw [cmpBytes_ne_gt]
    exact Or.inl (cmpBytes_lt_le_trans h h2)
  · rw [h]
    exact h2

theorem cmpBytes_not_lt (a b : Bytes) :
    cmpBytes a b ≠ .lt ↔ cmpBytes b a ≠ .gt :=
  (not_congr (cmpBytes_gt_iff b a)).symm

theorem cmpBytes_gt_ne_lt {a b : Bytes} (h : cmpBytes b a = .lt) :
    cmpBytes a b ≠ .lt := by
  rw [(cmpBytes_gt_iff a b).mpr h]
  decide

theorem lookupEntries_insert :
    ∀ (es : List (Bytes × Bytes)) (k v : Bytes),
      lookupEntries (insertEntries es k v) k = some v
  | [], k, v => by
    show (if cmpBytes k k = .eq then some v else lookupEntries [] k) = some v
    rw [if_pos (cmpBytes_self k)]
  | (k2, v2) :: rest, k, v => by
    show lookupEntries (if cmpBytes k k2 = .lt then (k, v) :: (k2, v2) :: rest
      else if cmpBytes k k2 = .eq then (k, v) :: rest
      else (k2, v2) :: insertEntries rest k v) k = some v
    by_cases h1 : cmpBytes k k2 = .lt
    · rw [if_pos h1]
      show (if cmpBytes k k = .eq then some v else _) = some v
      rw [if_pos (cmpBytes_self k)]
    · rw [if_neg h1]
      by_cases h2 : cmpBytes k k2 = .eq
      · rw [if_pos h2]
        show (if cmpBytes k k = .eq then some v else _) = some v
        rw [if_pos (cmpBytes_self k)]
      · rw [if_neg h2]
        show (if cmpBytes k k2 = .eq then some v2
          else lookupEntries (insertEntries rest k v) k) = some v
        rw [if_neg h2]
        exact lookupEntries_insert rest k v

theorem insertEntries_keys :
    ∀ (es : List (Bytes × Bytes)) (k v : Bytes),
      ∀ e ∈ insertEntries es k v, e.1 = k ∨ ∃ e2 ∈ es, e.1 = e2.1
  | [], k, v => by
    intro e he
    rw [show insertEntries [] k v = [(k, v)] from rfl, List.mem_singleton] at he
    subst he
    exact Or.inl rfl
  | (k2, v2) :: rest, k, v => by
    intro e he
    rw [show insertEntries ((k2, v2) :: rest) k v
      = (if cmpBytes k k2 = .lt then (k, v) :: (k2, v2) :: rest
        else if cmpBytes k k2 = .eq then (k, v) :: rest
        else (k2, v2) :: insertEntries rest k v) from rfl] at he
    by_cases h1 : cmpBytes k k2 = .lt
    · rw [if_pos h1] at he
      rcases List.mem_cons.mp he with he2 | he2
      · subst he2
        exact Or.inl rfl
      · exact Or.inr ⟨e, he2, rfl⟩
    · rw [if_neg h1] at he
      by_cases h2 : cmpBytes k k2 = .eq
      · rw [if_pos h2] at he
        rcases List.mem_cons.mp he with he2 | he2
        · subst he2
          exact Or.inl rfl
        · exact Or.inr ⟨e, List.mem_cons_of_mem _ he2, rfl⟩
      · rw [if_neg h2] at he
        rcases List.mem_cons.mp he with he2 | he2
        · subst he2
          exact Or.inr ⟨(k2, v2), List.mem_cons_self _ _, rfl⟩
        · rcases insertEntries_keys rest k v e he2 with hek | ⟨e2, hm, hee⟩
          · exact Or.inl hek
          · exact Or.inr ⟨e2, List.mem_cons_of_mem _ hm, hee⟩

theorem insertEntries_pairwise :
    ∀ (es : List (Bytes × Bytes)) (k v : Bytes),
      List.Pairwise entLt es → List.Pairwise entLt (insertEntries es k v)
  | [], k, v => fun _ => by
    show List.Pairwise entLt [(k, v)]
    exact List.pairwise_singleton _ _
  | (k2, v2) :: rest, k, v => fun hp => by
    obtain ⟨hhead, htail⟩ := List.pairwise_cons.mp hp
    show List.Pairwise entLt (if cmpBytes k k2 = .lt then (k, v) :: (k2, v2) :: rest
      else if cmpBytes k k2 = .eq then (k, v) :: rest
      else (k2, v2) :: insertEntries rest k v)
    by_cases h1 : cmpBytes k k2 = .lt
    · rw [if_pos h1]
      refine List.pairwise_cons.mpr ⟨?_, hp⟩
      intro e he
      rcases List.mem_cons.mp he with he2 | he2
      · subst he2
        exact h1
      · exact cmpBytes_lt_trans k k2 e.1 h1 (hhead e he2)
    · rw [if_neg h1]
      by_cases h2 : cmpBytes k k2 = .eq
      · rw [if_pos h2]
        have hk : k = k2 := (cmpBytes_eq_iff k k2).mp h2
        refine List.pairwise_cons.mpr ⟨?_, htail⟩
        intro e he
        show cmpBytes k e.1 = .lt
        rw [hk]
        exact hhead e he
      · rw [if_neg h2]
        refine List.pairwise_cons.mpr ⟨?_, insertEntries_pairwise rest k v htail⟩
        intro e he
        have hgt : cmpBytes k k2 = .gt := by
          cases hc : cmpBytes k k2 with
          | lt => exact absurd hc h1
          | eq => exact absurd hc h2
          | gt => rfl
        rcases insertEntries_keys rest k v e he with hek | ⟨e2, hm, hee⟩
        · show cmpBytes k2 e.1 = .lt
          rw [hek]
          exact (cmpBytes_gt_iff k k2).mp hgt
        · show cmpBytes k2 e.1 = .lt
          rw [hee]
          exact hhead e2 hm

theorem WFS_sep_lb :
    ∀ (slots : List (Bytes × STree)) (hi : Option Bytes) (c0 : STree) (a : Bytes),
      WFS (some a) hi c0 slots → ∀ p ∈ slots, cmpBytes a p.1 = .lt := by
  intro slots
  induction slots with
  | nil =>
    intro hi c0 a _ p hp
    exact absurd hp (List.not_mem_nil p)
  | cons q rest ih =>
    intro hi c0 a h p hp
    cases h with
    | step hs h0 h1 =>
      rcases List.mem_cons.mp hp with hp2 | hp2
      · subst hp2
        exact hs.1 a rfl
      · exact cmpBytes_lt_trans a _ p.1 (hs.1 a rfl) (ih hi _ _ h1 p hp2)

theorem WFS_sep_ub :
    ∀ (slots : List (Bytes × STree)) (lo : Option Bytes) (c0 : STree) (b : Bytes),
      WFS lo (some b) c0 slots → ∀ p ∈ slots, cmpBytes p.1 b = .lt := by
  intro slots
  induction slots with
  | nil =>
    intro lo c0 b _ p hp
    exact absurd hp (List.not_mem_nil p)
  | cons q rest ih =>
    intro lo c0 b h p hp
    cases h with
    | step hs h0 h1 =>
      rcases List.mem_cons.mp hp with hp2 | hp2
      · subst hp2
        exact hs.2 b rfl
      · exact ih _ _ _ h1 p hp2

theorem WFS_take :
    ∀ (l1 : List (Bytes × STree)) (lo hi : Option Bytes) (c0 : STree)
      (p : Bytes × STree) (l2 : List (Bytes × STree)),
      WFS lo hi c0 (l1 ++ p :: l2) → WFS lo (some p.1) c0 l1 := by
  intro l1
  induction l1 with
  | nil =>
    intro lo hi c0 p l2 h
    cases h with
    | step hs h0 h1 => exact WFS.last h0
  | cons q l1' ih =>
    intro lo hi c0 p l2 h
    cases h with
    | step hs h0 h1 =>
      refine WFS.step ⟨hs.1, fun b hb => ?_⟩ h0 (ih _ _ _ _ _ h1)
      rw [← Option.some.inj hb]
      exact WFS_sep_lb _ _ _ _ h1 p
        (List.mem_append_right _ (List.mem_cons_self p l2))

theorem WFS_drop :
    ∀ (l1 : List (Bytes × STree)) (lo hi : Option Bytes) (c0 : STree)
      (p : Bytes × STree) (l2 : List (Bytes × STree)),
      WFS lo hi c0 (l1 ++ p :: l2) → WFS (some p.1) hi p.2 l2 := by
  intro l1
  induction l1 with
  | nil =>
    intro lo hi c0 p l2 h
    cases h with
    | step hs h0 h1 => exact h1
  | cons q l1' ih =>
    intro lo hi c0 p l2 h
    cases h with
    | step hs h0 h1 => exact ih _ _ _ _ _ h1

theorem sgetInt_stop :
    ∀ (l1 : List (Bytes × STree)) (c0 : STree) (p : Bytes × STree)
      (l2 : List (Bytes × STree)) (k : Bytes),
      cmpBytes k p.1 = .lt →
      sgetInt c0 (l1 ++ p :: l2) k = sgetInt c0 l1 k := by
  intro l1
  induction l1 with
  | nil =>
    intro c0 p l2 k h
    obtain ⟨ps, pc⟩ := p
    rw [List.nil_append]
    simp only [sgetInt]
    rw [if_pos h]
  | cons q l1' ih =>
    intro c0 p l2 k h
    obtain ⟨qs, qc⟩ := q
    rw [List.cons_append]
    simp only [sgetInt]
    by_cases hq : cmpBytes k qs = .lt
    · rw [if_pos hq, if_pos hq]
    · rw [if_neg hq, if_neg hq]
      exact ih qc p l2 k h

theorem sgetInt_pass :
    ∀ (l1 : List (Bytes × STree)) (c0 : STree) (p : Bytes × STree)
      (l2 : List (Bytes × STree)) (k : Bytes),
      (∀ q ∈ l1, cmpBytes k q.1 ≠ .lt) → cmpBytes k p.1 ≠ .lt →
      sgetInt c0 (l1 ++ p :: l2) k = sgetInt p.2 l2 k := by
  intro l1
  induction l1 with
  | nil =>
    intro c0 p l2 k _ hp
    obtain ⟨ps, pc⟩ := p
    rw [List.nil_append]
    simp only [sgetInt]
    rw [if_neg hp]
  | cons q l1' ih =>
    intro c0 p l2 k hall hp
    obtain ⟨qs, qc⟩ := q
    rw [List.cons_append]
    simp only [sgetInt]
    rw [if_neg (hall (qs, qc) (List.mem_cons_self _ _))]
    exact ih qc p l2 k (fun q2 hq2 => hall q2 (List.mem_cons_of_mem _ hq2)) hp

theorem getD_drop_eq {α : Type} (l : List α) (n : Nat) (d : α)
    (h : n < l.length) :
    l.drop n = l.getD n d :: l.drop (n + 1) := by
  rw [List.getD_eq_getElem l d h]
  exact List.drop_eq_getElem_cons h

theorem take_getD_drop_eq {α : Type} (l : List α) (n : Nat) (d : α)
    (h : n < l.length) :
    l = l.take n ++ l.getD n d :: l.drop (n + 1) := by
  conv_lhs => rw [← List.take_append_drop n l]
  rw [getD_drop_eq l n d h]

theorem getD_mem_of_lt2 {α : Type} (l : List α) (n : Nat) (d : α)
    (h : n < l.length) : l.getD n d ∈ l := by
  rw [List.getD_eq_getElem l d h]
  exact List.getElem_mem h

mutual
theorem sput_spec : ∀ (t : STree) (lo hi : Option Bytes) (k v : Bytes),
    WFT lo hi t → InB lo hi k → PutOK lo hi k v (sput t k v)
  | .leaf es, lo, hi, k, v, hW, hk => by
    cases hW with
    | leaf hsort hks =>
      simp only [sput]
      by_cases hfit : es.length < B ∨ containsKey es k = true
      · rw [if_pos hfit]
        refine ⟨WFT.leaf (insertEntries_pairwise es k v hsort) ?_, ?_⟩
        · intro e he
          rcases insertEntries_keys es k v e he with hek | ⟨e2, hm, hee⟩
          · rw [hek]
            exact hk
          · rw [hee]
            exact hks e2 hm
        · simp only [sget]
          exact lookupEntries_insert es k v
      · rw [if_neg hfit]
        have hlen : 100 ≤ es.length := by
          rcases Nat.lt_or_ge es.length B with h | h
          · exact absurd (Or.inl h) hfit
          · rw [show B = 100 from rfl] at h
            exact h
        have hmidlt : es.length / 2 < es.length := by omega
        have hmid1 : 1 ≤ es.length / 2 := by omega
        have hdec := take_getD_drop_eq es (es.length / 2) ([], []) hmidlt
        have hdrop := getD_drop_eq es (es.length / 2) ([], []) hmidlt
        have hPW : List.Pairwise entLt (es.take (es.length / 2)
            ++ es.getD (es.length / 2) ([], [])
              :: es.drop (es.length / 2 + 1)) := by
          rw [← hdec]
          exact hsort
        obtain ⟨hPWl, hPWr, hcross⟩ := List.pairwise_append.mp hPW
        have hemmem : es.getD (es.length / 2) ([], []) ∈ es :=
          getD_mem_of_lt2 es (es.length / 2) ([], []) hmidlt
        have hsepA : SepB lo hi (es.getD (es.length / 2) ([], [])).1 := by
          constructor
          · intro l0 hl0
            have htne : es.take (es.length / 2) ≠ [] := by
              intro h0
              have h2 := congrArg List.length h0
              rw [List.length_take, List.length_nil] at h2
              omega
            obtain ⟨e0, he0⟩ := List.exists_mem_of_ne_nil _ htne
            exact cmpBytes_le_lt_trans
              ((hks e0 (List.mem_of_mem_take he0)).1 l0 hl0)
              (hcross e0 he0 _ (List.mem_cons_self _ _))
          · intro b hb
            exact (hks _ hemmem).2 b hb
        have hRlow : ∀ e ∈ es.drop (es.length / 2),
            cmpBytes (es.getD (es.length / 2) ([], [])).1 e.1 ≠ .gt := by
          intro e he
          rw [hdrop] at he
          rcases List.mem_cons.mp he with he2 | he2
          · rw [he2, cmpBytes_self]
            decide
          · have h3 := (List.pairwise_cons.mp hPWr).1 e he2
            rw [h3]
            decide
        have hRup : ∀ e ∈ es.drop (es.length / 2), ∀ b, hi = some b →
            cmpBytes e.1 b = .lt := by
          intro e he b hb
          exact (hks e (List.mem_of_mem_drop he)).2 b hb
        by_cases hcmp : cmpBytes k (es.getD (es.length / 2) ([], [])).1 = .lt
        · rw [if_pos hcmp]
          refine ⟨?_, ?_, hsepA, ?_, ?_⟩
          · refine WFT.leaf (insertEntries_pairwise _ k v hPWl) ?_
            intro e he
            rcases insertEntries_keys _ k v e he with hek | ⟨e2, hm, hee⟩
            · rw [hek]
              exact ⟨hk.1, fun b hb => by rw [← Option.some.inj hb]; exact hcmp⟩
            · rw [hee]
              refine ⟨fun l0 hl0 => (hks e2 (List.mem_of_mem_take hm)).1 l0 hl0,
                fun b hb => ?_⟩
              rw [← Option.some.inj hb]
              exact hcross e2 hm _ (List.mem_cons_self _ _)
          · refine WFT.leaf ?_ ?_
            · rw [hdrop]
              exact hPWr
            · intro e he
              exact ⟨fun l0 hl0 => by
                  rw [← Option.some.inj hl0]
                  exact hRlow e he,
                fun b hb => hRup e he b hb⟩
          · intro _
            simp only [sget]
            exact lookupEntries_insert _ k v
          · intro hcon
            exact absurd hcmp hcon
        · rw [if_neg hcmp]
          refine ⟨?_, ?_, hsepA, ?_, ?_⟩
          · refine WFT.leaf hPWl ?_
            intro e he
            refine ⟨fun l0 hl0 => (hks e (List.mem_of_mem_take he)).1 l0 hl0,
              fun b hb => ?_⟩
            rw [← Option.some.inj hb]
            exact hcross e he _ (List.mem_cons_self _ _)
          · refine WFT.leaf (insertEntries_pairwise _ k v
              (by rw [hdrop]; exact hPWr)) ?_
            intro e he
            rcases insertEntries_keys _ k v e he with hek | ⟨e2, hm, hee⟩
            · rw [hek]
              exact ⟨fun l0 hl0 => by
                  rw [← Option.some.inj hl0]
                  exact (cmpBytes_not_lt k _).mp hcmp,
                hk.2⟩
            · rw [hee]
              exact ⟨fun l0 hl0 => by
                  rw [← Option.some.inj hl0]
                  exact hRlow e2 hm,
                fun b hb => hRup e2 hm b hb⟩
          · intro hcon
            exact absurd hcon hcmp
          · intro _
            simp only [sget]
            exact lookupEntries_insert _ k v
  | .internal c0 slots, lo, hi, k, v, hW, hk => by
    cases hW with
    | internal hS =>
      obtain ⟨hS', hget'⟩ := sputInt_spec c0 slots lo hi k v hS hk
      simp only [sput]
      by_cases hlen : (sputInt c0 slots k v).2.length < B
      · rw [if_pos hlen]
        refine ⟨WFT.internal hS', ?_⟩
        simp only [sget]
        exact hget'
      · rw [if_neg hlen]
        have hlen2 : 100 ≤ (sputInt c0 slots k v).2.length := by
          have h2 := Nat.le_of_not_lt hlen
          rw [show B = 100 from rfl] at h2
          exact h2
        have hmidlt : (sputInt c0 slots k v).2.length / 2
            < (sputInt c0 slots k v).2.length := by omega
        have hdec := take_getD_drop_eq (sputInt c0 slots k v).2
          ((sputInt c0 slots k v).2.length / 2) ([], .leaf []) hmidlt
        have hmem := getD_mem_of_lt2 (sputInt c0 slots k v).2
          ((sputInt c0 slots k v).2.length / 2) ([], .leaf []) hmidlt
        have hS2 : WFS lo hi (sputInt c0 slots k v).1
            ((sputInt c0 slots k v).2.take ((sputInt c0 slots k v).2.length / 2)
              ++ (sputInt c0 slots k v).2.getD
                  ((sputInt c0 slots k v).2.length / 2) ([], .leaf [])
                :: (sputInt c0 slots k v).2.drop
                  ((sputInt c0 slots k v).2.length / 2 + 1)) := by
          rw [← hdec]
          exact hS'
        have hTak := WFS_take _ _ _ _ _ _ hS2
        have hDrp := WFS_drop _ _ _ _ _ _ hS2
        refine ⟨WFT.internal hTak, WFT.internal hDrp, ⟨?_, ?_⟩, ?_, ?_⟩
        · intro l0 hl0
          have hS3 := hS'
          rw [hl0] at hS3
          exact WFS_sep_lb _ _ _ _ hS3 _ hmem
        · intro b hb
          have hS3 := hS'
          rw [hb] at hS3
          exact WFS_sep_ub _ _ _ _ hS3 _ hmem
        · intro hlt
          simp only [sget]
          rw [← sgetInt_stop
            ((sputInt c0 slots k v).2.take ((sputInt c0 slots k v).2.length / 2))
            (sputInt c0 slots k v).1
            ((sputInt c0 slots k v).2.getD
              ((sputInt c0 slots k v).2.length / 2) ([], .leaf []))
            ((sputInt c0 slots k v).2.drop
              ((sputInt c0 slots k v).2.length / 2 + 1))
            k hlt, ← hdec]
          exact hget'
        · intro hge
          simp only [sget]
          have hpass : ∀ q ∈ (sputInt c0 slots k v).2.take
              ((sputInt c0 slots k v).2.length / 2), cmpBytes k q.1 ≠ .lt := by
            intro q hq
            have h1 := WFS_sep_ub _ _ _ _ hTak q hq
            have h2 : cmpBytes q.1 k = .lt :=
              cmpBytes_lt_le_trans h1 ((cmpBytes_not_lt k _).mp hge)
            exact cmpBytes_gt_ne_lt h2
          rw [← sgetInt_pass
            ((sputInt c0 slots k v).2.take ((sputInt c0 slots k v).2.length / 2))
            (sputInt c0 slots k v).1
            ((sputInt c0 slots k v).2.getD
              ((sputInt c0 slots k v).2.length / 2) ([], .leaf []))
            ((sputInt c0 slots k v).2.drop
              ((sputInt c0 slots k v).2.length / 2 + 1))
            k hpass hge, ← hdec]
          exact hget'
termination_by t _ _ _ _ _ _ => sizeOf t

theorem sputInt_spec : ∀ (c0 : STree) (slots : List (Bytes × STree))
    (lo hi : Option Bytes) (k v : Bytes),
    WFS lo hi c0 slots → InB lo hi k →
    WFS lo hi (sputInt c0 slots k v).1 (sputInt c0 slots k v).2
    ∧ sgetInt (sputInt c0 slots k v).1 (sputInt c0 slots k v).2 k = some v
  | c0, [], lo, hi, k, v, hW, hk => by
    cases hW with
    | last h0 =>
      have hP := sput_spec c0 lo hi k v h0 hk
      simp only [sputInt]
      cases hres : sput c0 k v with
      | one t =>
        rw [hres] at hP
        show WFS lo hi t [] ∧ sgetInt t [] k = some v
        obtain ⟨h1, h2⟩ := hP
        refine ⟨WFS.last h1, ?_⟩
        simp only [sgetInt]
        exact h2
      | two l s r =>
        rw [hres] at hP
        show WFS lo hi l [(s, r)] ∧ sgetInt l [(s, r)] k = some v
        obtain ⟨hl, hr, hsep, hgl, hgr⟩ := hP
        refine ⟨WFS.step hsep hl (WFS.last hr), ?_⟩
        simp only [sgetInt]
        by_cases hc : cmpBytes k s = .lt
        · rw [if_pos hc]
          exact hgl hc
        · rw [if_neg hc]
          exact hgr hc
  | c0, (s1, c1) :: rest, lo, hi, k, v, hW, hk => by
    cases hW with
    | step hs h0 h1 =>
      simp only [sputInt]
      by_cases hc : cmpBytes k s1 = .lt
      · rw [if_pos hc]
        have hk2 : InB lo (some s1) k :=
          ⟨hk.1, fun b hb => by rw [← Option.some.inj hb]; exact hc⟩
        have hP := sput_spec c0 lo (some s1) k v h0 hk2
        cases hres : sput c0 k v with
        | one t =>
          rw [hres] at hP
          show WFS lo hi t ((s1, c1) :: rest)
            ∧ sgetInt t ((s1, c1) :: rest) k = some v
          obtain ⟨ht, hgt⟩ := hP
          refine ⟨WFS.step hs ht h1, ?_⟩
          simp only [sgetInt]
          rw [if_pos hc]
          exact hgt
        | two l s r =>
          rw [hres] at hP
          show WFS lo hi l ((s, r) :: (s1, c1) :: rest)
            ∧ sgetInt l ((s, r) :: (s1, c1) :: rest) k = some v
          obtain ⟨hl, hr, hsep, hgl, hgr⟩ := hP
          refine ⟨WFS.step ⟨hsep.1, fun b hb =>
              cmpBytes_lt_trans s s1 b (hsep.2 s1 rfl) (hs.2 b hb)⟩ hl
            (WFS.step ⟨fun l0 hl0 => by
                rw [← Option.some.inj hl0]
                exact hsep.2 s1 rfl,
              hs.2⟩ hr h1), ?_⟩
          simp only [sgetInt]
          by_cases hc2 : cmpBytes k s = .lt
          · rw [if_pos hc2]
            exact hgl hc2
          · rw [if_neg hc2, if_pos hc]
            exact hgr hc2
      · rw [if_neg hc]
        have hk2 : InB (some s1) hi k :=
          ⟨fun l0 hl0 => by
              rw [← Option.some.inj hl0]
              exact (cmpBytes_not_lt k s1).mp hc,
            hk.2⟩
        have hQ := sputInt_spec c1 rest (some s1) hi k v h1 hk2
        show WFS lo hi c0 ((s1, (sputInt c1 rest k v).1) :: (sputInt c1 rest k v).2)
          ∧ sgetInt c0 ((s1, (sputInt c1 rest k v).1) :: (sputInt c1 rest k v).2) k
            = some v
        refine ⟨WFS.step hs h0 hQ.1, ?_⟩
        simp only [sgetInt]
        rw [if_neg hc]
        exact hQ.2
termination_by c0 slots _ _ _ _ _ _ => sizeOf c0 + sizeOf slots
end

/-- C9: on any well-formed tree, `put(key, value)` followed by
`get(key)` returns exactly that value (spec section 8, property 7),
including through leaf updates, leaf splits, internal splits and a root
split. -/
theorem put_then_get (t : STree) (k v : Bytes) (hW : WFT none none t) :
    sget (tput t k v) k = some v := by
  have hk : InB none none k :=
    ⟨fun _ h => Option.noConfusion h, fun _ h => Option.noConfusion h⟩
  have hP := sput_spec t none none k v hW hk
  unfold tput
  cases hres : sput t k v with
  | one t2 =>
    rw [hres] at hP
    show sget t2 k = some v
    exact hP.2
  | two l s r =>
    rw [hres] at hP
    show sget (.internal l [(s, r)]) k = some v
    obtain ⟨hl, hr, hsep, hgl, hgr⟩ := hP
    simp only [sget, sgetInt]
    by_cases hc : cmpBytes k s = .lt
    · rw [if_pos hc]
      exact hgl hc
    · rw [if_neg hc]
      exact hgr hc

theorem put_then_get_witness :
    sget (tput (.leaf []) [7, 7] [9]) [7, 7] = some [9] :=
  put_then_get (.leaf []) [7, 7] [9]
    (WFT.leaf List.Pairwise.nil (fun e he => absurd he (List.not_mem_nil e)))

end Lodestone
